import Mathlib

/-!
thewayirail: schedule simulation, scoring and the genome operations.

A shallow embedding of `main.go`.

Conventions of the embedding.
* Go `int` is modelled by `Int`; all arithmetic is assumed to stay inside the
  64-bit range, so no wrap-around is modelled.
* Go strings (`station`, `trainType`) are `String`; a map lookup with a missing
  key yields the zero value, as in Go.
* A Go map is a total function giving the zero value off its keys.
* A result of type `Option` is `none` when the Go code does not return
  normally: a run-time panic (index out of range, negative slice bound), or a
  loop that has not finished within the given fuel / random tape.
* A `float32` is modelled by its exact rational value or one of the IEEE
  special values; the conversion `float32(n)` and the division round to the
  nearest binary32 value, ties to even, with gradual underflow and overflow
  to an infinity. The sign of a zero is not modelled. `math.MaxFloat64` is a
  separate constant.
* `sort.Slice` belongs to the Go standard library; it is taken as a parameter
  together with its documented contract (the result is a permutation of the
  input, ordered by the comparison; stability is not promised).
-/

namespace Rail

/-! ## Data model -/

/-- Go `type trainType string`. -/
abbrev trainType := String

/-- Go constant `trainTypeL4`. -/
def trainTypeL4 : trainType := "L4"

/-- Go constant `trainTypeL8`. -/
def trainTypeL8 : trainType := "L8"

/-- Go `arrivalSample`. -/
structure arrivalSample where
  station : String
  minutes : Int
  arrivals : Int
deriving DecidableEq

/-- Go `scheduleEntry`. -/
structure scheduleEntry where
  TrainNum : Int
  TrainType : trainType
  AArrivalTime : Int
  AAvailCap : Int
  ABoarding : Int
  BArrivalTime : Int
  BAvailCap : Int
  BBoarding : Int
  CArrivalTime : Int
  CAvailCap : Int
  CBoarding : Int
  UArrivalTime : Int
  UAvailCap : Int
  UOffloading : Int
deriving DecidableEq

/-- Go constant `delay`. -/
def delay : Int := 3

/-- Go constant `AB`. -/
def AB : Int := 8

/-- Go constant `BC`. -/
def BC : Int := 9

/-- Go constant `CU`. -/
def CU : Int := 11

/-- Go `departure`. -/
structure departure where
  ttype : trainType
  timestamp : Int
deriving DecidableEq

/-- Go `pplDiff`. -/
structure pplDiff where
  timestamp : Int
  diff : Int
deriving DecidableEq

/-- Go `departureSchedule`. -/
structure departureSchedule where
  arrivals : List arrivalSample
  departures : List departure
deriving DecidableEq

/-- Go map `stationIndex`; a missing key reads as `0`. -/
def stationIndex (s : String) : Nat :=
  if s = "A" then 0 else if s = "B" then 1 else if s = "C" then 2 else 0

/-- Go map `trainCapacity`; a missing key reads as `0`. -/
def trainCapacity (t : trainType) : Int :=
  if t = trainTypeL4 then 50 * 4 else if t = trainTypeL8 then 50 * 8 else 0

/-! ## generateSchedule -/

/-- The value of `[3][]pplDiff`: one event list per station index. -/
abbrev stationDiffs := Nat → List pplDiff

/-- The statement `p[idx] = append(p[idx], e)`. -/
def appendDiff (p : stationDiffs) (idx : Nat) (e : pplDiff) : stationDiffs :=
  fun j => if j = idx then p j ++ [e] else p j

/-- The first loop of `generateSchedule`: `pplArrivals`. -/
def buildArrivals (arrivals : List arrivalSample) : stationDiffs :=
  arrivals.foldl
    (fun p a => appendDiff p (stationIndex a.station) ⟨a.minutes, a.arrivals⟩)
    (fun _ => [])

/-- One of the two loops of `numPeople`: add up `diff` until the first event
whose timestamp is later than `t` (the loop leaves at `break`). -/
def sumUntil (t : Int) : Int → List pplDiff → Int
  | ppl, [] => ppl
  | ppl, a :: rest => if a.timestamp > t then ppl else sumUntil t (ppl + a.diff) rest

/-- The closure `numPeople` of `generateSchedule`. -/
def numPeople (pplArrivals pplDepartures : stationDiffs) (station : String) (t : Int) : Int :=
  sumUntil t (sumUntil t 0 (pplArrivals (stationIndex station)))
    (pplDepartures (stationIndex station))

/-- Go `min`. -/
def min (a b : Int) : Int := if a < b then a else b

/-- The body of the main loop of `generateSchedule` for the departure `d` at
index `i`: the new `pplDepartures` and the entry that is appended. -/
def scheduleStep (pplArrivals : stationDiffs) (pplDepartures : stationDiffs) (i : Nat)
    (d : departure) : stationDiffs × scheduleEntry :=
  let TrainNum : Int := i + 1
  let AArrivalTime := d.timestamp
  let AAvailCap := trainCapacity d.ttype
  let aBoarded := min AAvailCap (numPeople pplArrivals pplDepartures "A" (d.timestamp + delay))
  let pd1 := appendDiff pplDepartures (stationIndex "A") ⟨d.timestamp + delay, -aBoarded⟩
  let BArrivalTime := AArrivalTime + delay + AB
  let BAvailCap := AAvailCap - aBoarded
  let bBoarded := min BAvailCap (numPeople pplArrivals pd1 "B" BArrivalTime)
  let pd2 := appendDiff pd1 (stationIndex "B") ⟨BArrivalTime, -bBoarded⟩
  let CArrivalTime := BArrivalTime + delay + BC
  let CAvailCap := BAvailCap - bBoarded
  let cBoarded := min CAvailCap (numPeople pplArrivals pd2 "C" CArrivalTime)
  let pd3 := appendDiff pd2 (stationIndex "C") ⟨CArrivalTime, -cBoarded⟩
  let UArrivalTime := CArrivalTime + delay + CU
  let UAvailCap := CAvailCap - cBoarded
  let UOffloading := aBoarded + bBoarded + cBoarded
  (pd3,
    { TrainNum := TrainNum, TrainType := d.ttype,
      AArrivalTime := AArrivalTime, AAvailCap := AAvailCap, ABoarding := aBoarded,
      BArrivalTime := BArrivalTime, BAvailCap := BAvailCap, BBoarding := bBoarded,
      CArrivalTime := CArrivalTime, CAvailCap := CAvailCap, CBoarding := cBoarded,
      UArrivalTime := UArrivalTime, UAvailCap := UAvailCap, UOffloading := UOffloading })

/-- The main loop of `generateSchedule`, from index `i` with the current
`pplDepartures`: the entries appended for the remaining departures, in order. -/
def scheduleLoop (pplArrivals : stationDiffs) :
    Nat → stationDiffs → List departure → List scheduleEntry
  | _, _, [] => []
  | i, pd, d :: rest =>
    (scheduleStep pplArrivals pd i d).2 ::
      scheduleLoop pplArrivals (i + 1) (scheduleStep pplArrivals pd i d).1 rest

/-- Go `generateSchedule`. -/
def generateSchedule (arrivals : List arrivalSample) (departures : List departure) :
    List scheduleEntry :=
  scheduleLoop (buildArrivals arrivals) 0 (fun _ => []) departures

/-! ## scoreSchedule -/

/-- The values of a `float32`: a rational (the finite values; the sign of a
zero is not kept), an infinity, or NaN. -/
inductive scoreValue where
  | nan : scoreValue
  | posInf : scoreValue
  | negInf : scoreValue
  | real (q : ℚ) : scoreValue
deriving DecidableEq

/-- Rounding to the nearest integer, a tie going to the even one. -/
def roundEven (x : ℚ) : Int :=
  if x - ⌊x⌋ < 1 / 2 then ⌊x⌋
  else if 1 / 2 < x - ⌊x⌋ then ⌊x⌋ + 1
  else if ⌊x⌋ % 2 = 0 then ⌊x⌋ else ⌊x⌋ + 1

/-- The binary32 rounding of a positive rational, overflow left aside: a
significand of 24 bits, the exponent not below -126 (below it the spacing stays
`2 ^ (-149)`). -/
def round32 (q : ℚ) : ℚ :=
  (roundEven (q / (2 : ℚ) ^ (max (Int.log 2 q) (-126) - 23)) : ℚ) *
    (2 : ℚ) ^ (max (Int.log 2 q) (-126) - 23)

/-- The `float32` nearest to a rational: round to nearest, ties to even; a
rounded magnitude of `2 ^ 128` or more is an infinity. -/
def toFloat32 (q : ℚ) : scoreValue :=
  if q = 0 then scoreValue.real 0
  else if 0 < q then
    (if round32 q < 2 ^ 128 then scoreValue.real (round32 q) else scoreValue.posInf)
  else
    (if round32 (-q) < 2 ^ 128 then scoreValue.real (-(round32 (-q)))
     else scoreValue.negInf)

/-- The `float32` division `x / y`; a zero divisor is the positive zero. -/
def divFloat32 : scoreValue → scoreValue → scoreValue
  | scoreValue.real a, scoreValue.real b =>
    if b = 0 then
      (if a = 0 then scoreValue.nan
       else if 0 < a then scoreValue.posInf else scoreValue.negInf)
    else toFloat32 (a / b)
  | scoreValue.real _, scoreValue.posInf => scoreValue.real 0
  | scoreValue.real _, scoreValue.negInf => scoreValue.real 0
  | scoreValue.posInf, scoreValue.real b =>
    if 0 ≤ b then scoreValue.posInf else scoreValue.negInf
  | scoreValue.negInf, scoreValue.real b =>
    if 0 ≤ b then scoreValue.negInf else scoreValue.posInf
  | _, _ => scoreValue.nan

/-- The expression `float32(sum) / float32(count)`: both conversions round, and
so does the division. -/
def floatDiv (sum count : Int) : scoreValue :=
  divFloat32 (toFloat32 (sum : ℚ)) (toFloat32 (count : ℚ))

/-- One iteration of the first loop of `scoreSchedule`: `a.arrivals` times,
`a.minutes` is appended to `parrivals[idx][a.minutes]`. -/
def addPassengers (p : Nat → Int → List Int) (a : arrivalSample) : Nat → Int → List Int :=
  fun idx m =>
    if idx = stationIndex a.station ∧ m = a.minutes then
      p idx m ++ List.replicate a.arrivals.toNat a.minutes
    else p idx m

/-- The map array `parrivals` of `scoreSchedule`. -/
def parrivals (arrivals : List arrivalSample) : Nat → Int → List Int :=
  arrivals.foldl addPassengers (fun _ _ => [])

/-- The statement `t[i][k] += v` on a map array. -/
def mapAdd (t : Nat → Int → Int) (i : Nat) (k v : Int) : Nat → Int → Int :=
  fun j m => if j = i ∧ m = k then t j m + v else t j m

/-- One iteration of the loop over `entries` of `scoreSchedule`. -/
def addTrain (t : Nat → Int → Int) (e : scheduleEntry) : Nat → Int → Int :=
  mapAdd (mapAdd (mapAdd t 0 (e.AArrivalTime + delay) e.AAvailCap)
    1 (e.BArrivalTime + delay) e.BAvailCap) 2 (e.CArrivalTime + delay) e.CAvailCap

/-- The map array `tarrivals` of `scoreSchedule`. -/
def tarrivals (entries : List scheduleEntry) : Nat → Int → Int :=
  entries.foldl addTrain (fun _ _ => 0)

/-- The variables of the minute loop of `scoreSchedule`. -/
structure scoreState where
  pbuf0 : List Int
  pbuf1 : List Int
  pbuf2 : List Int
  m : Int
  sum : Int
  count : Int
deriving DecidableEq

/-- The body of the inner loop `for i := 0; i < 3; i++` for one station, on
(`pbuf[i]`, `sum`, `count`): `arrived` is `parrivals[i][m]`, `v` is
`tarrivals[i][m]`. A negative slice bound panics. -/
def boardStation (arrived : List Int) (v m : Int) (st : List Int × Int × Int) :
    Option (List Int × Int × Int) :=
  let buf := st.1 ++ arrived
  if v ≠ 0 then
    let l := min v buf.length
    if l < 0 then none
    else
      let take := buf.take l.toNat
      some (buf.drop l.toNat, take.foldl (fun s t => s + (m - t)) st.2.1,
        st.2.2 + take.length)
  else some (buf, st.2.1, st.2.2)

/-- The loop condition of the minute loop. -/
def scoreCond (s : scoreState) : Bool :=
  decide (s.m < 60 * 3) || decide (s.pbuf0 ≠ []) || decide (s.pbuf1 ≠ []) ||
    decide (s.pbuf2 ≠ [])

/-- The body of the minute loop: the three stations in turn, then `m++`. -/
def scoreBody (par : Nat → Int → List Int) (tar : Nat → Int → Int) (s : scoreState) :
    Option scoreState :=
  match boardStation (par 0 s.m) (tar 0 s.m) s.m (s.pbuf0, s.sum, s.count) with
  | none => none
  | some (b0, sum0, count0) =>
    match boardStation (par 1 s.m) (tar 1 s.m) s.m (s.pbuf1, sum0, count0) with
    | none => none
    | some (b1, sum1, count1) =>
      match boardStation (par 2 s.m) (tar 2 s.m) s.m (s.pbuf2, sum1, count1) with
      | none => none
      | some (b2, sum2, count2) =>
        some { pbuf0 := b0, pbuf1 := b1, pbuf2 := b2, m := s.m + 1,
               sum := sum2, count := count2 }

/-- The minute loop, run for at most `fuel` iterations. -/
def scoreLoop (par : Nat → Int → List Int) (tar : Nat → Int → Int) :
    Nat → scoreState → Option scoreState
  | 0, s => if scoreCond s then none else some s
  | fuel + 1, s =>
    if scoreCond s then
      match scoreBody par tar s with
      | none => none
      | some s1 => scoreLoop par tar fuel s1
    else some s

/-- The initial values of the loop variables. -/
def scoreInit : scoreState :=
  { pbuf0 := [], pbuf1 := [], pbuf2 := [], m := 0, sum := 0, count := 0 }

/-- Go `scoreSchedule`, with at most `fuel` iterations of the minute loop. -/
def scoreSchedule (fuel : Nat) (arrivals : List arrivalSample) (entries : List scheduleEntry) :
    Option scoreValue :=
  (scoreLoop (parrivals arrivals) (tarrivals entries) fuel scoreInit).map
    (fun s => floatDiv s.sum s.count)

/-! ## The genome operations -/

/-- The `float64` values `Evaluate` can return: `math.MaxFloat64`, or the
conversion of a `float32` score (which is never `math.MaxFloat64`). -/
inductive fitness where
  | maxFloat64 : fitness
  | ofScore (v : scoreValue) : fitness
deriving DecidableEq

/-- Go variable `maxScore`. -/
def maxScore : fitness := fitness.maxFloat64

/-- The zero value of `departure`. -/
def zeroDeparture : departure := ⟨"", 0⟩

/-- The headway loop of `Evaluate`: some `i` in `1..15` has
`departures[i].timestamp - departures[i-1].timestamp < 3`. -/
def headwayViolated (l : List departure) : Bool :=
  (List.range 15).any (fun k =>
    decide ((l.getD (k + 1) zeroDeparture).timestamp - (l.getD k zeroDeparture).timestamp < 3))

/-- Go `(*departureSchedule).Evaluate`; the second component is the error
(`none` is `nil`). -/
def Evaluate (fuel : Nat) (ds : departureSchedule) : Option (fitness × Option String) :=
  match ds.departures[0]? with
  | none => none
  | some d0 =>
    if d0.timestamp < 0 then some (maxScore, none)
    else
      match ds.departures[15]? with
      | none => none
      | some d15 =>
        if d15.timestamp > 60 * 3 then some (maxScore, none)
        else if headwayViolated ds.departures then some (maxScore, none)
        else
          let schedule := generateSchedule ds.arrivals ds.departures
          let arrivals : Int := (ds.arrivals.map (fun a => a.arrivals)).sum
          let offloaded : Int := (schedule.map (fun e => e.UOffloading)).sum
          if offloaded < arrivals then some (maxScore, none)
          else (scoreSchedule fuel ds.arrivals schedule).map
            (fun score => (fitness.ofScore score, none))

/-- The order tested by both calls of `sort.Slice`: `less i j` is
`timestamp i < timestamp j`, so a slice is in order when no element is less
than an earlier one. -/
def byTimestamp (a b : departure) : Prop := a.timestamp ≤ b.timestamp

instance byTimestampDecidable : DecidableRel byTimestamp :=
  fun a b => inferInstanceAs (Decidable (a.timestamp ≤ b.timestamp))

instance byTimestampTotal : IsTotal departure byTimestamp :=
  ⟨fun a b => Int.le_total a.timestamp b.timestamp⟩

instance byTimestampTrans : IsTrans departure byTimestamp :=
  ⟨fun _ _ _ h1 h2 => Int.le_trans h1 h2⟩

/-- The library routine `sort.Slice` with the comparison by timestamp, as a
parameter with its contract. -/
structure SliceSort where
  sort : List departure → List departure
  perm : ∀ l, List.Perm (sort l) l
  sorted : ∀ l, List.Pairwise byTimestamp (sort l)

/-- One routine meeting the contract: insertion sort by timestamp. -/
def insertionSliceSort : SliceSort where
  sort := List.insertionSort byTimestamp
  perm := List.perm_insertionSort byTimestamp
  sorted := List.sorted_insertionSort byTimestamp

/-- The call `Intn(n)` on a generator given as the tape of its raw outputs:
the draw and the rest of the tape. It panics for `n = 0`. -/
def Intn (n : Nat) : List Nat → Option (Nat × List Nat)
  | [] => none
  | r :: rest => if n = 0 then none else some (r % n, rest)

/-- The loop `for idx1 == idx2` of `Mutate`: pairs are drawn until the two
indices differ. -/
def distinctPair (n : Nat) : List Nat → Option (Nat × Nat)
  | r1 :: r2 :: rest =>
    if n = 0 then none
    else if r1 % n = r2 % n then distinctPair n rest
    else some (r1 % n, r2 % n)
  | _ => none

/-- The three assignments that exchange the train types at `idx1`, `idx2`. -/
def swapTtype (l : List departure) (idx1 idx2 : Nat) : Option (List departure) :=
  match l[idx1]?, l[idx2]? with
  | some a, some b =>
    some ((l.set idx1 { a with ttype := b.ttype }).set idx2 { b with ttype := a.ttype })
  | _, _ => none

/-- The loop `for i := 0; i < 16; i++` of `Mutate`, with `n` iterations left,
on the departures from index `i` on. -/
def perturbLoop : Nat → List Nat → List departure → Option (List departure)
  | 0, _, l => some l
  | n + 1, tape, l =>
    match l, Intn 4 tape with
    | d :: rest, some (r, tape1) =>
      (perturbLoop n tape1 rest).map
        (fun rest1 => { d with timestamp := d.timestamp + ((r : Int) - 2) } :: rest1)
    | _, _ => none

/-- Go `(*departureSchedule).Mutate`: `rng` is the tape of the generator passed
in, `grand` the tape of the global generator of `math/rand`. -/
def Mutate (S : SliceSort) (rng grand : List Nat) (ds : departureSchedule) :
    Option departureSchedule :=
  match Intn 2 rng with
  | none => none
  | some (opt, _) =>
    if opt = 0 then
      match distinctPair ds.departures.length grand with
      | none => none
      | some (idx1, idx2) =>
        (swapTtype ds.departures idx1 idx2).map
          (fun l => { ds with departures := S.sort l })
    else if opt = 1 then
      (perturbLoop 16 grand ds.departures).map
        (fun l => { ds with departures := S.sort l })
    else some { ds with departures := S.sort ds.departures }

/-- The loop `for i := 0; i < 16; i++` of `Crossover`, with `n` iterations
left, on the departures of both genomes from index `i` on. -/
def crossLoop : Nat → List departure → List departure → Option (List departure)
  | 0, l, _ => some l
  | n + 1, l, o =>
    match l, o with
    | d :: rest, e :: orest =>
      (crossLoop n rest orest).map
        (fun rest1 => { d with timestamp := Int.tdiv (d.timestamp + e.timestamp) 2 } :: rest1)
    | _, _ => none

/-- Go `(*departureSchedule).Crossover`, for two distinct genomes: the
receiver and the other genome after the call. -/
def Crossover (S : SliceSort) (ds other : departureSchedule) :
    Option (departureSchedule × departureSchedule) :=
  (crossLoop 16 ds.departures other.departures).map
    (fun l => ({ ds with departures := S.sort l }, other))

/-- Go `(*departureSchedule).Clone`: `copy` into a fresh slice of length 16. -/
def Clone (ds : departureSchedule) : departureSchedule :=
  { arrivals := ds.arrivals,
    departures := ds.departures.take 16 ++
      List.replicate (16 - ds.departures.length) zeroDeparture }

/-- The genome built by the function that `genomeMachine` returns. -/
def genomeMachine (arrivals : List arrivalSample) : departureSchedule :=
  { arrivals := arrivals,
    departures :=
      [⟨trainTypeL4, 0⟩, ⟨trainTypeL8, 10⟩, ⟨trainTypeL8, 15⟩, ⟨trainTypeL8, 20⟩,
       ⟨trainTypeL8, 30⟩, ⟨trainTypeL8, 40⟩, ⟨trainTypeL8, 50⟩, ⟨trainTypeL8, 60⟩,
       ⟨trainTypeL8, 70⟩, ⟨trainTypeL8, 80⟩, ⟨trainTypeL8, 90⟩, ⟨trainTypeL8, 105⟩,
       ⟨trainTypeL8, 130⟩, ⟨trainTypeL4, 150⟩, ⟨trainTypeL4, 160⟩, ⟨trainTypeL4, 180⟩] }

/-! ## Predicates and sample data used by the theorems -/

/-- Bookkeeping invariant of `pplDepartures[idx]` relative to `pplArrivals`:
every removal recorded so far is timestamped no later than `lo`, and from `lo`
on the removals never exceed the arrivals counted by `numPeople`. -/
def stationInv (pa pd : stationDiffs) (idx : Nat) (lo : Int) : Prop :=
  (∀ e ∈ pd idx, e.timestamp ≤ lo) ∧
    ∀ t, lo ≤ t → 0 ≤ sumUntil t 0 (pa idx) + ((pd idx).map (fun e => e.diff)).sum

/-- The invariant at the three stations, at the times a train that departs at
`ts` looks the platforms up. -/
def readyAt (pa pd : stationDiffs) (ts : Int) : Prop :=
  stationInv pa pd 0 (ts + 3) ∧ stationInv pa pd 1 (ts + 11) ∧ stationInv pa pd 2 (ts + 23)

/-- The capacity and boarding bounds of one schedule entry. -/
def entryOk (e : scheduleEntry) : Prop :=
  e.AAvailCap ≥ e.ABoarding ∧ e.ABoarding ≥ 0 ∧
  e.BAvailCap ≥ e.BBoarding ∧ e.BBoarding ≥ 0 ∧
  e.CAvailCap ≥ e.CBoarding ∧ e.CBoarding ≥ 0 ∧
  e.AAvailCap ≥ e.BAvailCap ∧ e.BAvailCap ≥ e.CAvailCap

/-- Sample arrivals at the three stations. -/
def exampleArrivals : List arrivalSample :=
  [⟨"A", 0, 500⟩, ⟨"B", 5, 30⟩, ⟨"C", 7, 20⟩]

/-- Two sample departures. -/
def exampleDepartures : List departure := [⟨trainTypeL4, 0⟩, ⟨trainTypeL8, 10⟩]

/-- The entry of the second sample departure. -/
def exampleEntry : scheduleEntry :=
  { TrainNum := 2, TrainType := trainTypeL8,
    AArrivalTime := 10, AAvailCap := 400, ABoarding := 300,
    BArrivalTime := 21, BAvailCap := 100, BBoarding := 30,
    CArrivalTime := 33, CAvailCap := 70, CBoarding := 20,
    UArrivalTime := 47, UAvailCap := 50, UOffloading := 350 }

/-- The timing conditions on the departures of a genome: first timestamp at
least 0, sixteenth at most 180, consecutive timestamps at least 3 apart. -/
def timingOk (l : List departure) : Prop :=
  0 ≤ (l.getD 0 zeroDeparture).timestamp ∧
  (l.getD 15 zeroDeparture).timestamp ≤ 180 ∧
  ∀ i, i < 15 →
    3 ≤ (l.getD (i + 1) zeroDeparture).timestamp - (l.getD i zeroDeparture).timestamp

instance timingOkDecidable (l : List departure) : Decidable (timingOk l) := by
  unfold timingOk; infer_instance

/-- The capacity condition: the trains offload at least as many passengers as
arrive. -/
def offloadOk (ds : departureSchedule) : Prop :=
  (ds.arrivals.map (fun a => a.arrivals)).sum ≤
    ((generateSchedule ds.arrivals ds.departures).map (fun e => e.UOffloading)).sum

instance offloadOkDecidable (ds : departureSchedule) : Decidable (offloadOk ds) := by
  unfold offloadOk; infer_instance

/-- Sixteen departures three minutes apart, at 0, 3, ..., 45. -/
def denseDepartures : List departure :=
  (List.range 16).map (fun k => (⟨trainTypeL8, 3 * (k : Int)⟩ : departure))

/-- Sixteen departures of which the second follows the first after 2 minutes. -/
def closeDepartures : List departure :=
  ⟨trainTypeL8, 0⟩ :: ⟨trainTypeL8, 2⟩ ::
    (List.range 14).map (fun k => (⟨trainTypeL8, 10 + 3 * (k : Int)⟩ : departure))

/-- A genome of sixteen sorted departures, the first ones before minute 0. -/
def earlyGenome : departureSchedule :=
  { arrivals := exampleArrivals,
    departures := (List.range 16).map
      (fun k => (⟨trainTypeL8, 5 * (k : Int) - 9⟩ : departure)) }

/-! ## The minute loop, station by station -/

/-- The state after `n` iterations of the body of the minute loop, the loop
condition left aside. -/
def scoreIter (par : Nat → Int → List Int) (tar : Nat → Int → Int) :
    Nat → scoreState → Option scoreState
  | 0, s => some s
  | n + 1, s =>
    match scoreBody par tar s with
    | none => none
    | some s1 => scoreIter par tar n s1

/-- The queue of one station after the minutes `0 .. k-1`, with the waiting
time and the number of the passengers boarded there so far: `arr` lists the
passengers arriving at a minute and `cap` is the capacity offered at a
minute. -/
def stationRun (arr : Int → List Int) (cap : Int → Int) : Nat → List Int × Int × Int
  | 0 => ([], 0, 0)
  | k + 1 =>
    let st := stationRun arr cap k
    let buf := st.1 ++ arr k
    let l := (min (cap k) buf.length).toNat
    (buf.drop l, st.2.1 + ((buf.take l).map (fun t => (k : Int) - t)).sum, st.2.2 + l)

/-- The sum of `v` over the elements of `l` that satisfy `p`. -/
def sumIf {α : Type} (p : α → Prop) [DecidablePred p] (v : α → Int) (l : List α) : Int :=
  (l.map (fun x => if p x then v x else 0)).sum

/-- The minute at which `scoreSchedule` lets the train of entry `e` board at
the station with index `i` (the key used for `tarrivals[i]`). -/
def boardTime (i : Nat) (e : scheduleEntry) : Int :=
  if i = 0 then e.AArrivalTime + delay
  else if i = 1 then e.BArrivalTime + delay else e.CArrivalTime + delay

/-- The available capacity of entry `e` at the station with index `i`. -/
def availCap (i : Nat) (e : scheduleEntry) : Int :=
  if i = 0 then e.AAvailCap else if i = 1 then e.BAvailCap else e.CAvailCap

/-- The boarding count of entry `e` at the station with index `i`. -/
def boarding (i : Nat) (e : scheduleEntry) : Int :=
  if i = 0 then e.ABoarding else if i = 1 then e.BBoarding else e.CBoarding

/-- The offset from the departure timestamp at which `generateSchedule` looks
up the platform of the station with index `i`. -/
def lookupOffset (i : Nat) : Int :=
  if i = 0 then 3 else if i = 1 then 11 else 23

/-- A genome with a negative count among its arrivals: five passengers reach
station A at minute 179, after the last of sixteen early trains. -/
def loopGenome : departureSchedule :=
  { arrivals := [⟨"A", 179, 5⟩, ⟨"A", 179, -5⟩], departures := denseDepartures }

/-- The genomes that the optimizer can hold: the template of `genomeMachine`
and whatever calls of `Mutate`, `Crossover` and `Clone` that return make of
genomes it holds. -/
inductive Reachable (arrivals : List arrivalSample) : departureSchedule → Prop
  | template : Reachable arrivals (genomeMachine arrivals)
  | mutate (S : SliceSort) (rng grand : List Nat) (ds ds1 : departureSchedule) :
      Reachable arrivals ds → Mutate S rng grand ds = some ds1 → Reachable arrivals ds1
  | crossover (S : SliceSort) (ds other : departureSchedule)
      (r : departureSchedule × departureSchedule) :
      Reachable arrivals ds → Reachable arrivals other → Crossover S ds other = some r →
      Reachable arrivals r.1
  | clone (ds : departureSchedule) : Reachable arrivals ds → Reachable arrivals (Clone ds)

/-- A genome with the sixteen departures three minutes apart and no arrivals. -/
def denseGenome : departureSchedule := { arrivals := [], departures := denseDepartures }

/-! ## The run of the main loop of `generateSchedule` -/

/-- The three numbers of people waiting, at A, B and C, that one iteration of
the main loop of `generateSchedule` passes to `min`: the values of the three
calls of `numPeople`. -/
def waiting (pplArrivals pplDepartures : stationDiffs) (d : departure) : Int × Int × Int :=
  let AAvailCap := trainCapacity d.ttype
  let waitA := numPeople pplArrivals pplDepartures "A" (d.timestamp + delay)
  let aBoarded := min AAvailCap waitA
  let pd1 := appendDiff pplDepartures (stationIndex "A") ⟨d.timestamp + delay, -aBoarded⟩
  let BArrivalTime := d.timestamp + delay + AB
  let BAvailCap := AAvailCap - aBoarded
  let waitB := numPeople pplArrivals pd1 "B" BArrivalTime
  let bBoarded := min BAvailCap waitB
  let pd2 := appendDiff pd1 (stationIndex "B") ⟨BArrivalTime, -bBoarded⟩
  let CArrivalTime := BArrivalTime + delay + BC
  let waitC := numPeople pplArrivals pd2 "C" CArrivalTime
  (waitA, waitB, waitC)

/-- The iterations of the main loop of `generateSchedule`: the value of
`pplDepartures` at the start of each iteration, with its index and departure. -/
def scheduleStates (pplArrivals : stationDiffs) :
    Nat → stationDiffs → List departure → List (stationDiffs × Nat × departure)
  | _, _, [] => []
  | i, pd, d :: rest =>
    (pd, i, d) :: scheduleStates pplArrivals (i + 1) (scheduleStep pplArrivals pd i d).1 rest

/-- One sample at station A and three departures out of order. -/
def unsortedDepartures : List departure :=
  [⟨trainTypeL4, 7⟩, ⟨trainTypeL4, 0⟩, ⟨trainTypeL4, 7⟩]

/-- Two samples of station A, the later one first. -/
def unsortedArrivals : List arrivalSample := [⟨"A", 10, 5⟩, ⟨"A", 0, 5⟩]

/-! ## The reference FIFO scorer of the specification (section 4.3)

The definitions of this section follow the wording of the specification, not
the code; `limit` is the number that bounds what one train may dequeue. -/

/-- The unit passengers of the samples of station `i` whose arrival minute
equals the minute `m`, each sample expanded into as many passengers as its
count, in input order. -/
def passengersAt (i : Nat) (m : Int) : List arrivalSample → List Int
  | [] => []
  | a :: rest =>
    if stationIndex a.station = i ∧ a.minutes = m then
      List.replicate a.arrivals.toNat a.minutes ++ passengersAt i m rest
    else passengersAt i m rest

/-- The limits of the trains that board at station `i` at minute `m`
according to the schedule entries. -/
def trainLimits (limit : Nat → scheduleEntry → Int) (i : Nat) (m : Int)
    (entries : List scheduleEntry) : List Int :=
  (entries.filter (fun e => boardTime i e = m)).map (limit i)

/-- Train by train, the oldest `min limit (queue length)` passengers leave the
queue; the minutes each of them waited are added to the sum and the count is
increased. -/
def dequeue (m : Int) : List Int → List Int × Int × Int → List Int × Int × Int
  | [], st => st
  | l :: rest, st =>
    dequeue m rest
      (st.1.drop (min l st.1.length).toNat,
        st.2.1 + ((st.1.take (min l st.1.length).toNat).map (fun t => m - t)).sum,
        st.2.2 + (min l st.1.length).toNat)

/-- One station at one minute: the passengers arriving at this minute join the
queue, then the trains boarding at this minute dequeue. -/
def referenceStation (limit : Nat → scheduleEntry → Int) (arrivals : List arrivalSample)
    (entries : List scheduleEntry) (i : Nat) (m : Int) (st : List Int × Int × Int) :
    List Int × Int × Int :=
  dequeue m (trainLimits limit i m entries) (st.1 ++ passengersAt i m arrivals, st.2.1, st.2.2)

/-- One minute of the reference scorer: the three stations, then the clock
advances. -/
def referenceBody (limit : Nat → scheduleEntry → Int) (arrivals : List arrivalSample)
    (entries : List scheduleEntry) (s : scoreState) : scoreState :=
  { pbuf0 := (referenceStation limit arrivals entries 0 s.m (s.pbuf0, s.sum, s.count)).1,
    pbuf1 := (referenceStation limit arrivals entries 1 s.m (s.pbuf1,
      (referenceStation limit arrivals entries 0 s.m (s.pbuf0, s.sum, s.count)).2)).1,
    pbuf2 := (referenceStation limit arrivals entries 2 s.m (s.pbuf2,
      (referenceStation limit arrivals entries 1 s.m (s.pbuf1,
        (referenceStation limit arrivals entries 0 s.m (s.pbuf0, s.sum, s.count)).2)).2)).1,
    m := s.m + 1,
    sum := (referenceStation limit arrivals entries 2 s.m (s.pbuf2,
      (referenceStation limit arrivals entries 1 s.m (s.pbuf1,
        (referenceStation limit arrivals entries 0 s.m (s.pbuf0, s.sum, s.count)).2)).2)).2.1,
    count := (referenceStation limit arrivals entries 2 s.m (s.pbuf2,
      (referenceStation limit arrivals entries 1 s.m (s.pbuf1,
        (referenceStation limit arrivals entries 0 s.m (s.pbuf0, s.sum, s.count)).2)).2)).2.2 }

/-- The clock of the reference scorer, from the given state: minute by minute
up to the planning horizon and on until all queues are empty, for at most
`fuel` minutes. -/
def referenceLoop (limit : Nat → scheduleEntry → Int) (arrivals : List arrivalSample)
    (entries : List scheduleEntry) : Nat → scoreState → Option scoreState
  | 0, s => if scoreCond s then none else some s
  | fuel + 1, s =>
    if scoreCond s then referenceLoop limit arrivals entries fuel
      (referenceBody limit arrivals entries s)
    else some s

/-- The reference FIFO score: the sum of the waiting minutes over the number
of passengers boarded. -/
def referenceScore (limit : Nat → scheduleEntry → Int) (fuel : Nat)
    (arrivals : List arrivalSample) (entries : List scheduleEntry) : Option scoreValue :=
  (referenceLoop limit arrivals entries fuel scoreInit).map (fun s => floatDiv s.sum s.count)

/-- The total of the limits of the trains boarding at a station at a minute. -/
def limitMap (limit : Nat → scheduleEntry → Int) (entries : List scheduleEntry) :
    Nat → Int → Int :=
  fun i m => (trainLimits limit i m entries).sum

/-- Ten passengers who reach station B at minute 12. -/
def platformB : List arrivalSample := [⟨"B", 12, 10⟩]

/-- One `L8` train that departs at minute 0 (at B from minute 11 to 14). -/
def oneTrain : List departure := [⟨trainTypeL8, 0⟩]

/-- The schedule entry of `oneTrain` for the arrivals `platformB`. -/
def oneTrainEntry : scheduleEntry :=
  { TrainNum := 1, TrainType := trainTypeL8,
    AArrivalTime := 0, AAvailCap := 400, ABoarding := 0,
    BArrivalTime := 11, BAvailCap := 400, BBoarding := 0,
    CArrivalTime := 23, CAvailCap := 400, CBoarding := 0,
    UArrivalTime := 37, UAvailCap := 400, UOffloading := 0 }

/-- Two rows of station A in time order: five passengers at minute 0 and an
empty sample at minute 190. -/
def rowsInOrder : List arrivalSample := [⟨"A", 0, 5⟩, ⟨"A", 190, 0⟩]

/-- The rows of `rowsInOrder` with the later one first. -/
def rowsLateFirst : List arrivalSample := [⟨"A", 190, 0⟩, ⟨"A", 0, 5⟩]

end Rail

namespace Rail

/-! ## Facts about the `float32` rounding -/

theorem roundEven_intCast (k : Int) : roundEven (k : ℚ) = k := by
  unfold roundEven
  simp

/-- A natural number below `2 ^ 24` is a binary32 value. -/
theorem round32_natCast (z : Nat) (hz : z < 2 ^ 24) : round32 (z : ℚ) = z := by
  unfold round32
  rw [Int.log_natCast]
  have hL : Nat.log 2 z < 24 := by
    by_cases h0 : z = 0
    · subst h0; simp
    · exact Nat.log_lt_of_lt_pow h0 hz
  have hmax : max ((Nat.log 2 z : ℕ) : ℤ) (-126) = (Nat.log 2 z : ℤ) := by omega
  rw [hmax]
  obtain ⟨j, hj⟩ : ∃ j : Nat, (j : ℤ) = 23 - (Nat.log 2 z : ℤ) := ⟨23 - Nat.log 2 z, by omega⟩
  have he : ((Nat.log 2 z : ℕ) : ℤ) - 23 = -(j : ℤ) := by omega
  rw [he, zpow_neg, zpow_natCast]
  have h2 : ((2 : ℚ) ^ j) ≠ 0 := by positivity
  have hq : (z : ℚ) / ((2 : ℚ) ^ j)⁻¹ = (((z * 2 ^ j : Nat) : Int) : ℚ) := by
    push_cast
    field_simp
  rw [hq, roundEven_intCast]
  push_cast
  field_simp

/-- The conversion `float32(n)` is exact for `0 ≤ n < 2 ^ 24`. -/
theorem toFloat32_natCast (z : Nat) (hz : z < 2 ^ 24) :
    toFloat32 (z : ℚ) = scoreValue.real z := by
  unfold toFloat32
  by_cases h0 : z = 0
  · subst h0; simp
  · have hpos : (0 : ℚ) < z := by exact_mod_cast Nat.pos_of_ne_zero h0
    have hne : (z : ℚ) ≠ 0 := ne_of_gt hpos
    rw [if_neg hne, if_pos hpos, round32_natCast z hz]
    have hlt : (z : ℚ) < 2 ^ 128 := by
      have : (z : ℚ) < 2 ^ 24 := by exact_mod_cast hz
      have h2 : (2 : ℚ) ^ 24 ≤ 2 ^ 128 := by norm_num
      linarith
    rw [if_pos hlt]

/-- The quotient `float32(count * w) / float32(count)` is exactly `w` when the
dividend is below `2 ^ 24`. -/
theorem floatDiv_exact (count w : Int) (hc : 0 < count) (hw : 0 ≤ w)
    (hc24 : count < 2 ^ 24) (hs : count * w < 2 ^ 24) :
    floatDiv (count * w) count = scoreValue.real (w : ℚ) := by
  obtain ⟨c, rfl⟩ := Int.eq_ofNat_of_zero_le (le_of_lt hc)
  obtain ⟨v, rfl⟩ := Int.eq_ofNat_of_zero_le hw
  have hc0 : 0 < c := by exact_mod_cast hc
  have hcv : c * v < 2 ^ 24 := by exact_mod_cast hs
  have hc2 : c < 2 ^ 24 := by exact_mod_cast hc24
  have hv : v < 2 ^ 24 := lt_of_le_of_lt (Nat.le_mul_of_pos_left v hc0) hcv
  unfold floatDiv
  have e1 : (((c : Int) * (v : Int) : Int) : ℚ) = ((c * v : Nat) : ℚ) := by push_cast; ring
  have e2 : (((c : Int)) : ℚ) = ((c : Nat) : ℚ) := by push_cast; ring
  rw [e1, e2, toFloat32_natCast _ hcv, toFloat32_natCast _ hc2]
  have hcq : ((c : Nat) : ℚ) ≠ 0 := by exact_mod_cast (Nat.pos_iff_ne_zero.mp hc0)
  simp only [divFloat32, if_neg hcq]
  have e3 : ((c * v : Nat) : ℚ) / (c : ℚ) = (v : ℚ) := by
    push_cast
    field_simp
  rw [e3, toFloat32_natCast _ hv]
  simp

/-- A rational nearer to `k` than to any other integer rounds to `k`. -/
theorem roundEven_near (x : ℚ) (k : Int) (h1 : (k : ℚ) - 1 / 2 < x) (h2 : x < (k : ℚ) + 1 / 2) :
    roundEven x = k := by
  unfold roundEven
  by_cases hk : (k : ℚ) ≤ x
  · have hf : ⌊x⌋ = k := Int.floor_eq_iff.mpr ⟨hk, by linarith⟩
    rw [hf, if_pos (by linarith)]
  · have hf : ⌊x⌋ = k - 1 := Int.floor_eq_iff.mpr ⟨by push_cast; linarith, by push_cast; linarith⟩
    rw [hf]
    have e : x - ((k - 1 : Int) : ℚ) = x - k + 1 := by push_cast; ring
    rw [e, if_neg (by linarith), if_pos (by linarith)]
    ring

/-- Halfway between `k` and `k + 1` the even one of the two is taken. -/
theorem roundEven_tie (k : Int) :
    roundEven ((k : ℚ) + 1 / 2) = if k % 2 = 0 then k else k + 1 := by
  unfold roundEven
  have hf : ⌊(k : ℚ) + 1 / 2⌋ = k := Int.floor_eq_iff.mpr ⟨by linarith, by linarith⟩
  rw [hf, if_neg (by linarith), if_neg (by linarith)]

/-- The binary32 rounding of a rational in the binade of `2 ^ e`. -/
theorem round32_eq (q : ℚ) (hq : 0 < q) (e : Int) (he : -126 ≤ e) (h1 : (2 : ℚ) ^ e ≤ q)
    (h2 : q < (2 : ℚ) ^ (e + 1)) :
    round32 q = (roundEven (q / (2 : ℚ) ^ (e - 23)) : ℚ) * (2 : ℚ) ^ (e - 23) := by
  have hl : Int.log 2 q = e := by
    apply le_antisymm
    · have := (Int.lt_zpow_iff_log_lt (by norm_num : 1 < 2) hq).mp (by exact_mod_cast h2)
      omega
    · exact (Int.zpow_le_iff_le_log (by norm_num : 1 < 2) hq).mp (by exact_mod_cast h1)
  unfold round32
  rw [hl, max_eq_left he]

/-- The sum 16777551 is not a `float32` value: it becomes 16777552, and the
quotient by 399 is rounded to a multiple of `2 ^ (-8)`. -/
theorem floatDiv_rounds : floatDiv 16777551 399 = scoreValue.real (10764545 / 256) := by
  have h1 : toFloat32 ((16777551 : Int) : ℚ) = scoreValue.real 16777552 := by
    have hr : round32 (16777551 : ℚ) = 16777552 := by
      rw [round32_eq _ (by norm_num) 24 (by norm_num) (by norm_num) (by norm_num)]
      have e : (16777551 : ℚ) / (2 : ℚ) ^ ((24 : Int) - 23) = ((8388775 : Int) : ℚ) + 1 / 2 := by
        norm_num
      rw [e, roundEven_tie]
      norm_num
    simp only [toFloat32]
    norm_num [hr]
  have h2 : toFloat32 ((399 : Int) : ℚ) = scoreValue.real 399 := by
    have := toFloat32_natCast 399 (by norm_num)
    simpa using this
  have h3 : toFloat32 ((16777552 : ℚ) / 399) = scoreValue.real (10764545 / 256) := by
    have hr : round32 ((16777552 : ℚ) / 399) = 10764545 / 256 := by
      rw [round32_eq _ (by norm_num) 15 (by norm_num) (by norm_num) (by norm_num)]
      rw [roundEven_near _ 10764545 (by norm_num) (by norm_num)]
      norm_num
    simp only [toFloat32]
    norm_num [hr]
  unfold floatDiv
  rw [h1, h2]
  simp only [divFloat32]
  rw [if_neg (by norm_num), h3]

/-- The quotient `float32(0) / float32(0)` is NaN. -/
theorem floatDiv_zero_zero : floatDiv 0 0 = scoreValue.nan := by
  simp [floatDiv, toFloat32, divFloat32]

end Rail

namespace Rail

/-! ## Facts about `generateSchedule` -/

theorem min_le_left (a b : Int) : min a b ≤ a := by
  unfold min; split <;> omega

theorem min_le_right (a b : Int) : min a b ≤ b := by
  unfold min; split <;> omega

theorem min_nonneg {a b : Int} (ha : 0 ≤ a) (hb : 0 ≤ b) : 0 ≤ min a b := by
  unfold min; split <;> omega

theorem stationIndex_A : stationIndex "A" = 0 := by decide

theorem stationIndex_B : stationIndex "B" = 1 := by decide

theorem stationIndex_C : stationIndex "C" = 2 := by decide

theorem trainCapacity_nonneg (t : trainType) : 0 ≤ trainCapacity t := by
  unfold trainCapacity; split
  · decide
  · split <;> decide

theorem trainCapacity_le (t : trainType) : trainCapacity t ≤ 400 := by
  unfold trainCapacity; split
  · decide
  · split <;> decide

theorem trainCapacity_L4 : trainCapacity trainTypeL4 = 200 := by decide

theorem trainCapacity_L8 : trainCapacity trainTypeL8 = 400 := by decide

theorem sumUntil_acc (t : Int) (l : List pplDiff) :
    ∀ acc : Int, sumUntil t acc l = acc + sumUntil t 0 l := by
  induction l with
  | nil => intro acc; simp [sumUntil]
  | cons a rest ih =>
    intro acc
    simp only [sumUntil]
    split
    · simp
    · rw [ih (acc + a.diff), ih (0 + a.diff)]; omega

theorem sumUntil_all (t : Int) (l : List pplDiff) (h : ∀ e ∈ l, e.timestamp ≤ t) :
    ∀ acc : Int, sumUntil t acc l = acc + (l.map (fun e => e.diff)).sum := by
  induction l with
  | nil => intro acc; simp [sumUntil]
  | cons a rest ih =>
    intro acc
    have ha : ¬ a.timestamp > t := by
      have := h a (List.mem_cons_self _ _); omega
    simp only [sumUntil, ha, if_false, List.map_cons, List.sum_cons]
    rw [ih (fun e he => h e (List.mem_cons_of_mem _ he))]; omega

theorem sumUntil_nonneg (t : Int) (l : List pplDiff) (h : ∀ e ∈ l, 0 ≤ e.diff) :
    0 ≤ sumUntil t 0 l := by
  induction l with
  | nil => simp [sumUntil]
  | cons a rest ih =>
    simp only [sumUntil]
    split
    · exact le_refl _
    · rw [sumUntil_acc]
      have h1 := h a (List.mem_cons_self _ _)
      have h2 := ih (fun e he => h e (List.mem_cons_of_mem _ he))
      omega

theorem sumUntil_mono (l : List pplDiff) (h : ∀ e ∈ l, 0 ≤ e.diff) (t t1 : Int)
    (ht : t ≤ t1) : sumUntil t 0 l ≤ sumUntil t1 0 l := by
  induction l with
  | nil => simp [sumUntil]
  | cons a rest ih =>
    have h1 := h a (List.mem_cons_self _ _)
    have hr : ∀ e ∈ rest, 0 ≤ e.diff := fun e he => h e (List.mem_cons_of_mem _ he)
    have h2 := ih hr
    have h3 := sumUntil_nonneg t1 rest hr
    simp only [sumUntil]
    by_cases c : a.timestamp > t
    · simp only [c, if_true]
      split
      · exact le_refl _
      · rw [sumUntil_acc]; omega
    · have c1 : ¬ a.timestamp > t1 := by omega
      simp only [c, c1, if_false]
      rw [sumUntil_acc t, sumUntil_acc t1]; omega

theorem buildArrivals_foldl (arrivals : List arrivalSample) :
    ∀ (p : stationDiffs) (idx : Nat),
      arrivals.foldl
          (fun p a => appendDiff p (stationIndex a.station) ⟨a.minutes, a.arrivals⟩) p idx =
        p idx ++ (arrivals.filter (fun a => stationIndex a.station = idx)).map
          (fun a => (⟨a.minutes, a.arrivals⟩ : pplDiff)) := by
  induction arrivals with
  | nil => intro p idx; simp
  | cons a rest ih =>
    intro p idx
    simp only [List.foldl_cons]
    rw [ih]
    by_cases c : stationIndex a.station = idx
    · simp [appendDiff, c, List.filter_cons]
    · have c1 : ¬ idx = stationIndex a.station := fun h => c h.symm
      simp [appendDiff, c, c1, List.filter_cons]

/-- The list `pplArrivals[idx]`: the samples of the stations with index `idx`,
in input order. -/
theorem buildArrivals_eq (arrivals : List arrivalSample) (idx : Nat) :
    buildArrivals arrivals idx =
      (arrivals.filter (fun a => stationIndex a.station = idx)).map
        (fun a => (⟨a.minutes, a.arrivals⟩ : pplDiff)) := by
  unfold buildArrivals
  rw [buildArrivals_foldl]; simp

theorem buildArrivals_nonneg (arrivals : List arrivalSample)
    (h : ∀ a ∈ arrivals, 0 ≤ a.arrivals) (idx : Nat) :
    ∀ e ∈ buildArrivals arrivals idx, 0 ≤ e.diff := by
  intro e he
  rw [buildArrivals_eq] at he
  simp only [List.mem_map, List.mem_filter] at he
  obtain ⟨a, ⟨ha, _⟩, rfl⟩ := he
  exact h a ha

theorem stationInv_mono {pa pd : stationDiffs} {idx : Nat} {lo lo1 : Int}
    (h : stationInv pa pd idx lo) (hl : lo ≤ lo1) : stationInv pa pd idx lo1 :=
  ⟨fun e he => le_trans (h.1 e he) hl, fun t ht => h.2 t (le_trans hl ht)⟩

theorem stationInv_other {pa pd : stationDiffs} {idx j : Nat} {lo : Int} (e : pplDiff)
    (h : stationInv pa pd idx lo) (hj : idx ≠ j) : stationInv pa (appendDiff pd j e) idx lo := by
  unfold stationInv appendDiff
  simp only [hj, if_false]
  exact h

theorem numPeople_eq {pa pd : stationDiffs} {idx : Nat} {lo : Int} (s : String)
    (hs : stationIndex s = idx) (h : stationInv pa pd idx lo) (t : Int) (ht : lo ≤ t) :
    numPeople pa pd s t =
      sumUntil t 0 (pa idx) + ((pd idx).map (fun e => e.diff)).sum := by
  unfold numPeople
  rw [hs]
  exact sumUntil_all t _ (fun e he => le_trans (h.1 e he) ht) _

/-- Boarding at one station keeps the bookkeeping invariant and boards a
number between zero and the available capacity. -/
theorem stationInv_board {pa pd : stationDiffs} {idx : Nat} {lo : Int} (s : String)
    (hs : stationIndex s = idx) (hpa : ∀ e ∈ pa idx, 0 ≤ e.diff)
    (h : stationInv pa pd idx lo) (t : Int) (ht : lo ≤ t) (cap : Int) (hcap : 0 ≤ cap) :
    0 ≤ min cap (numPeople pa pd s t) ∧ min cap (numPeople pa pd s t) ≤ cap ∧
      stationInv pa (appendDiff pd idx ⟨t, -(min cap (numPeople pa pd s t))⟩) idx t := by
  have hn := numPeople_eq s hs h t ht
  have h0 : 0 ≤ numPeople pa pd s t := by rw [hn]; exact h.2 t ht
  refine ⟨min_nonneg hcap h0, min_le_left _ _, ?_, ?_⟩
  · intro e he
    simp only [appendDiff, if_true, List.mem_append, List.mem_singleton] at he
    rcases he with he | he
    · exact le_trans (h.1 e he) ht
    · rw [he]
  · intro t1 ht1
    simp only [appendDiff, if_true, List.map_append, List.sum_append, List.map_cons,
      List.map_nil, List.sum_cons, List.sum_nil]
    have h1 := sumUntil_mono (pa idx) hpa t t1 ht1
    have h2 := min_le_right cap (numPeople pa pd s t)
    omega

theorem readyAt_init (pa : stationDiffs) (hpa : ∀ idx, ∀ e ∈ pa idx, 0 ≤ e.diff) (ts : Int) :
    readyAt pa (fun _ => []) ts := by
  refine ⟨⟨?_, ?_⟩, ⟨?_, ?_⟩, ⟨?_, ?_⟩⟩ <;>
    first
    | (intro e he; simp at he)
    | (intro t _; simpa using sumUntil_nonneg t _ (hpa _))

/-- One iteration of the main loop: the entry is well formed and the
invariant holds again for every later departure. -/
theorem scheduleStep_ok (pa pd : stationDiffs) (hpa : ∀ idx, ∀ e ∈ pa idx, 0 ≤ e.diff)
    (i : Nat) (d : departure) (h : readyAt pa pd d.timestamp) :
    entryOk (scheduleStep pa pd i d).2 ∧
      ∀ ts, d.timestamp ≤ ts → readyAt pa (scheduleStep pa pd i d).1 ts := by
  obtain ⟨hA, hB, hC⟩ := h
  have capA := trainCapacity_nonneg d.ttype
  -- station A
  obtain ⟨a0, a1, a2⟩ := stationInv_board "A" stationIndex_A (hpa 0) hA
    (d.timestamp + delay) (by have h1 : delay = 3 := rfl; have h2 : AB = 8 := rfl; have h3 : BC = 9 := rfl; omega) (trainCapacity d.ttype) capA
  have hB1 := stationInv_other (j := 0)
    ⟨d.timestamp + delay, -(min (trainCapacity d.ttype)
      (numPeople pa pd "A" (d.timestamp + delay)))⟩ hB (by decide)
  have hC1 := stationInv_other (j := 0)
    ⟨d.timestamp + delay, -(min (trainCapacity d.ttype)
      (numPeople pa pd "A" (d.timestamp + delay)))⟩ hC (by decide)
  -- station B
  obtain ⟨b0, b1, b2⟩ := stationInv_board "B" stationIndex_B (hpa 1) hB1
    (d.timestamp + delay + AB) (by have h1 : delay = 3 := rfl; have h2 : AB = 8 := rfl; have h3 : BC = 9 := rfl; omega)
    (trainCapacity d.ttype - min (trainCapacity d.ttype)
      (numPeople pa pd "A" (d.timestamp + delay))) (by omega)
  have hA2 := stationInv_other (j := 1) ⟨d.timestamp + delay + AB, -(min
    (trainCapacity d.ttype - min (trainCapacity d.ttype)
      (numPeople pa pd "A" (d.timestamp + delay)))
    (numPeople pa (appendDiff pd 0 ⟨d.timestamp + delay, -(min (trainCapacity d.ttype)
      (numPeople pa pd "A" (d.timestamp + delay)))⟩) "B" (d.timestamp + delay + AB)))⟩
    a2 (by decide)
  have hC2 := stationInv_other (j := 1) ⟨d.timestamp + delay + AB, -(min
    (trainCapacity d.ttype - min (trainCapacity d.ttype)
      (numPeople pa pd "A" (d.timestamp + delay)))
    (numPeople pa (appendDiff pd 0 ⟨d.timestamp + delay, -(min (trainCapacity d.ttype)
      (numPeople pa pd "A" (d.timestamp + delay)))⟩) "B" (d.timestamp + delay + AB)))⟩
    hC1 (by decide)
  -- station C
  obtain ⟨c0, c1, c2⟩ := stationInv_board "C" stationIndex_C (hpa 2) hC2
    (d.timestamp + delay + AB + delay + BC) (by have h1 : delay = 3 := rfl; have h2 : AB = 8 := rfl; have h3 : BC = 9 := rfl; omega) _
    (sub_nonneg.mpr b1)
  refine ⟨?_, ?_⟩
  · simp only [entryOk, scheduleStep, stationIndex_A, stationIndex_B, stationIndex_C]
    refine ⟨a1, a0, b1, b0, c1, c0, ?_, ?_⟩ <;> omega
  · intro ts hts
    simp only [scheduleStep, stationIndex_A, stationIndex_B, stationIndex_C]
    refine ⟨?_, ?_, ?_⟩
    · exact stationInv_mono (stationInv_other (j := 2) _ (stationInv_other (j := 1) _ a2
        (by decide)) (by decide)) (by have h1 : delay = 3 := rfl; have h2 : AB = 8 := rfl; have h3 : BC = 9 := rfl; omega)
    · exact stationInv_mono (stationInv_other (j := 2) _ b2 (by decide))
        (by have h1 : delay = 3 := rfl; have h2 : AB = 8 := rfl; have h3 : BC = 9 := rfl; omega)
    · exact stationInv_mono c2 (by have h1 : delay = 3 := rfl; have h2 : AB = 8 := rfl; have h3 : BC = 9 := rfl; omega)

theorem scheduleLoop_ok (pa : stationDiffs) (hpa : ∀ idx, ∀ e ∈ pa idx, 0 ≤ e.diff)
    (ds : List departure) (hs : ds.Pairwise byTimestamp) :
    ∀ (i : Nat) (pd : stationDiffs), (∀ d ∈ ds, readyAt pa pd d.timestamp) →
      ∀ e ∈ scheduleLoop pa i pd ds, entryOk e := by
  induction ds with
  | nil => intro i pd _ e he; simp [scheduleLoop] at he
  | cons d rest ih =>
    intro i pd hr e he
    obtain ⟨h1, h2⟩ := scheduleStep_ok pa pd hpa i d (hr d (List.mem_cons_self _ _))
    rw [List.pairwise_cons] at hs
    simp only [scheduleLoop, List.mem_cons] at he
    rcases he with he | he
    · rw [he]; exact h1
    · exact ih hs.2 (i + 1) _ (fun d1 hd1 => h2 _ (hs.1 d1 hd1)) e he

theorem scheduleLoop_length (pa : stationDiffs) (ds : List departure) :
    ∀ (i : Nat) (pd : stationDiffs), (scheduleLoop pa i pd ds).length = ds.length := by
  induction ds with
  | nil => intro i pd; rfl
  | cons d rest ih => intro i pd; simp [scheduleLoop, ih]

/-- Every entry of the loop is the second component of some `scheduleStep`. -/
theorem scheduleLoop_mem (pa : stationDiffs) (ds : List departure) :
    ∀ (i : Nat) (pd : stationDiffs) (e : scheduleEntry), e ∈ scheduleLoop pa i pd ds →
      ∃ pd1 j d, d ∈ ds ∧ e = (scheduleStep pa pd1 j d).2 := by
  induction ds with
  | nil => intro i pd e h; simp [scheduleLoop] at h
  | cons d rest ih =>
    intro i pd e h
    simp only [scheduleLoop, List.mem_cons] at h
    rcases h with h | h
    · exact ⟨pd, i, d, List.mem_cons_self _ _, h⟩
    · obtain ⟨pd1, j, d1, hd1, he⟩ := ih _ _ _ h
      exact ⟨pd1, j, d1, List.mem_cons_of_mem _ hd1, he⟩

theorem scheduleLoop_getElem? (pa : stationDiffs) (ds : List departure) :
    ∀ (i0 : Nat) (pd : stationDiffs) (i : Nat) (d : departure), ds[i]? = some d →
      ∃ pd1, (scheduleLoop pa i0 pd ds)[i]? = some (scheduleStep pa pd1 (i0 + i) d).2 := by
  induction ds with
  | nil => intro i0 pd i d h; simp at h
  | cons d0 rest ih =>
    intro i0 pd i d h
    cases i with
    | zero =>
      simp only [List.getElem?_cons_zero, Option.some.injEq] at h
      subst h
      exact ⟨pd, by simp [scheduleLoop]⟩
    | succ k =>
      simp only [List.getElem?_cons_succ] at h
      obtain ⟨pd1, h1⟩ := ih (i0 + 1) (scheduleStep pa pd i0 d0).1 k d h
      refine ⟨pd1, ?_⟩
      simp only [scheduleLoop, List.getElem?_cons_succ, h1]
      congr 3
      omega

theorem scheduleStep_offloading (pa pd : stationDiffs) (j : Nat) (d : departure) :
    (scheduleStep pa pd j d).2.UOffloading =
        (scheduleStep pa pd j d).2.ABoarding + (scheduleStep pa pd j d).2.BBoarding +
          (scheduleStep pa pd j d).2.CBoarding ∧
      (scheduleStep pa pd j d).2.UAvailCap =
        (scheduleStep pa pd j d).2.AAvailCap - (scheduleStep pa pd j d).2.UOffloading := by
  constructor
  · rfl
  · simp only [scheduleStep]; omega

/-- C2. Every entry returned by `generateSchedule`, for any arrival list and
any departure sequence, has `UOffloading = ABoarding + BBoarding + CBoarding`
and `UAvailCap = AAvailCap - UOffloading`. -/
theorem generateSchedule_offloading (arrivals : List arrivalSample)
    (departures : List departure) :
    ∀ e ∈ generateSchedule arrivals departures,
      e.UOffloading = e.ABoarding + e.BBoarding + e.CBoarding ∧
      e.UAvailCap = e.AAvailCap - e.UOffloading := by
  intro e he
  obtain ⟨pd1, j, d, _, rfl⟩ := scheduleLoop_mem _ _ _ _ _ he
  exact scheduleStep_offloading _ _ _ _

/-- C2, at the second of two trains with arrivals at all three stations. -/
theorem generateSchedule_offloading_witness :
    exampleEntry ∈ generateSchedule exampleArrivals exampleDepartures ∧
      exampleEntry.UOffloading = exampleEntry.ABoarding + exampleEntry.BBoarding +
        exampleEntry.CBoarding ∧
      exampleEntry.UAvailCap = exampleEntry.AAvailCap - exampleEntry.UOffloading :=
  ⟨by decide, generateSchedule_offloading exampleArrivals exampleDepartures exampleEntry
    (by decide)⟩

/-- C10. `generateSchedule` returns exactly one entry per departure, in the
same order; entry `i` has `TrainNum = i + 1`, the type and timestamp of
departure `i`, `AAvailCap` 200 for `L4` and 400 for `L8`, and the arrival times
at B, C and U obtained by adding `3 + 8`, `3 + 9` and `3 + 11` in turn. The
right-hand sides do not mention the arrivals. -/
theorem generateSchedule_entries (arrivals : List arrivalSample)
    (departures : List departure) :
    (generateSchedule arrivals departures).length = departures.length ∧
    ∀ (i : Nat) (d : departure), departures[i]? = some d →
      ∃ e, (generateSchedule arrivals departures)[i]? = some e ∧
        e.TrainNum = (i : Int) + 1 ∧ e.TrainType = d.ttype ∧
        e.AArrivalTime = d.timestamp ∧
        e.AAvailCap = trainCapacity d.ttype ∧
        (d.ttype = trainTypeL4 → e.AAvailCap = 200) ∧
        (d.ttype = trainTypeL8 → e.AAvailCap = 400) ∧
        e.BArrivalTime = e.AArrivalTime + 3 + 8 ∧
        e.CArrivalTime = e.BArrivalTime + 3 + 9 ∧
        e.UArrivalTime = e.CArrivalTime + 3 + 11 := by
  refine ⟨scheduleLoop_length _ _ _ _, ?_⟩
  intro i d h
  obtain ⟨pd1, h1⟩ := scheduleLoop_getElem? (buildArrivals arrivals) departures 0
    (fun _ => []) i d h
  refine ⟨_, h1, ?_⟩
  simp only [scheduleStep, delay, AB, BC, CU, Nat.zero_add, true_and]
  refine ⟨?_, ?_, trivial⟩
  · intro h4; rw [h4]; exact trainCapacity_L4
  · intro h8; rw [h8]; exact trainCapacity_L8

/-- C10, at the third departure of a concrete sequence. -/
theorem generateSchedule_entries_witness :
    ([⟨trainTypeL4, 0⟩, ⟨trainTypeL8, 10⟩, ⟨trainTypeL4, 15⟩] : List departure)[2]? =
        some ⟨trainTypeL4, 15⟩ ∧
      ∃ e, (generateSchedule [⟨"A", 0, 500⟩]
          [⟨trainTypeL4, 0⟩, ⟨trainTypeL8, 10⟩, ⟨trainTypeL4, 15⟩])[2]? = some e ∧
        e.TrainNum = ((2 : Nat) : Int) + 1 ∧ e.TrainType = trainTypeL4 ∧
        e.AArrivalTime = 15 ∧
        e.AAvailCap = trainCapacity trainTypeL4 ∧
        (trainTypeL4 = trainTypeL4 → e.AAvailCap = 200) ∧
        (trainTypeL4 = trainTypeL8 → e.AAvailCap = 400) ∧
        e.BArrivalTime = e.AArrivalTime + 3 + 8 ∧
        e.CArrivalTime = e.BArrivalTime + 3 + 9 ∧
        e.UArrivalTime = e.CArrivalTime + 3 + 11 :=
  ⟨rfl, (generateSchedule_entries [⟨"A", 0, 500⟩]
      [⟨trainTypeL4, 0⟩, ⟨trainTypeL8, 10⟩, ⟨trainTypeL4, 15⟩]).2 2 ⟨trainTypeL4, 15⟩ rfl⟩

/-- C1. For arrival counts that are all non-negative and departures sorted
ascending by timestamp, every entry returned by `generateSchedule` has
`AAvailCap ≥ ABoarding ≥ 0`, `BAvailCap ≥ BBoarding ≥ 0`,
`CAvailCap ≥ CBoarding ≥ 0` and `AAvailCap ≥ BAvailCap ≥ CAvailCap`. -/
theorem generateSchedule_capacity (arrivals : List arrivalSample)
    (departures : List departure) (hcount : ∀ a ∈ arrivals, 0 ≤ a.arrivals)
    (hsorted : departures.Pairwise byTimestamp) :
    ∀ e ∈ generateSchedule arrivals departures,
      (e.AAvailCap ≥ e.ABoarding ∧ e.ABoarding ≥ 0) ∧
      (e.BAvailCap ≥ e.BBoarding ∧ e.BBoarding ≥ 0) ∧
      (e.CAvailCap ≥ e.CBoarding ∧ e.CBoarding ≥ 0) ∧
      (e.AAvailCap ≥ e.BAvailCap ∧ e.BAvailCap ≥ e.CAvailCap) := by
  intro e he
  have hpa := buildArrivals_nonneg arrivals hcount
  have h := scheduleLoop_ok (buildArrivals arrivals) hpa departures hsorted 0 (fun _ => [])
    (fun d _ => readyAt_init _ hpa d.timestamp) e he
  obtain ⟨h1, h2, h3, h4, h5, h6, h7, h8⟩ := h
  exact ⟨⟨h1, h2⟩, ⟨h3, h4⟩, ⟨h5, h6⟩, ⟨h7, h8⟩⟩

/-- C1, at the second of two trains with arrivals at all three stations. -/
theorem generateSchedule_capacity_witness :
    (∀ a ∈ exampleArrivals, 0 ≤ a.arrivals) ∧ exampleDepartures.Pairwise byTimestamp ∧
    exampleEntry ∈ generateSchedule exampleArrivals exampleDepartures ∧
      (exampleEntry.AAvailCap ≥ exampleEntry.ABoarding ∧ exampleEntry.ABoarding ≥ 0) ∧
      (exampleEntry.BAvailCap ≥ exampleEntry.BBoarding ∧ exampleEntry.BBoarding ≥ 0) ∧
      (exampleEntry.CAvailCap ≥ exampleEntry.CBoarding ∧ exampleEntry.CBoarding ≥ 0) ∧
      (exampleEntry.AAvailCap ≥ exampleEntry.BAvailCap ∧
        exampleEntry.BAvailCap ≥ exampleEntry.CAvailCap) :=
  ⟨by decide, by decide, by decide,
    generateSchedule_capacity exampleArrivals exampleDepartures (by decide) (by decide)
      exampleEntry (by decide)⟩

end Rail

namespace Rail

/-! ## Facts about `Evaluate` -/

theorem getD_of_getElem? {l : List departure} {i : Nat} {d : departure}
    (h : l[i]? = some d) : l.getD i zeroDeparture = d := by
  rw [List.getD_eq_getElem?_getD, h]; rfl

theorem getElem?_of_lt {l : List departure} {i : Nat} (h : i < l.length) :
    l[i]? = some (l.getD i zeroDeparture) := by
  rw [List.getD_eq_getElem?_getD, List.getElem?_eq_getElem h]; rfl

theorem headwayViolated_iff (l : List departure) :
    headwayViolated l = true ↔
      ∃ i, i < 15 ∧
        (l.getD (i + 1) zeroDeparture).timestamp - (l.getD i zeroDeparture).timestamp < 3 := by
  simp [headwayViolated, List.any_eq_true]

/-- `Evaluate` on a genome with at least 16 departures, as one case
distinction. -/
theorem Evaluate_eq (fuel : Nat) (ds : departureSchedule) (hlen : 16 ≤ ds.departures.length) :
    Evaluate fuel ds =
      if (ds.departures.getD 0 zeroDeparture).timestamp < 0 then some (maxScore, none)
      else if (ds.departures.getD 15 zeroDeparture).timestamp > 180 then some (maxScore, none)
      else if headwayViolated ds.departures = true then some (maxScore, none)
      else if ((generateSchedule ds.arrivals ds.departures).map (fun e => e.UOffloading)).sum <
          (ds.arrivals.map (fun a => a.arrivals)).sum then some (maxScore, none)
      else (scoreSchedule fuel ds.arrivals (generateSchedule ds.arrivals ds.departures)).map
        (fun score => (fitness.ofScore score, none)) := by
  have h0 : ds.departures[0]? = some (ds.departures.getD 0 zeroDeparture) :=
    getElem?_of_lt (by omega)
  have h15 : ds.departures[15]? = some (ds.departures.getD 15 zeroDeparture) :=
    getElem?_of_lt (by omega)
  unfold Evaluate
  rw [h0, h15]
  rfl

theorem scheduleStep_offload_le (pa pd : stationDiffs) (i : Nat) (d : departure) :
    (scheduleStep pa pd i d).2.UOffloading ≤ trainCapacity d.ttype := by
  simp only [scheduleStep]
  have h1 := min_le_left (trainCapacity d.ttype) (numPeople pa pd "A" (d.timestamp + delay))
  generalize min (trainCapacity d.ttype) (numPeople pa pd "A" (d.timestamp + delay)) = a at *
  have h2 := min_le_left (trainCapacity d.ttype - a)
    (numPeople pa (appendDiff pd (stationIndex "A") ⟨d.timestamp + delay, -a⟩) "B"
      (d.timestamp + delay + AB))
  generalize min (trainCapacity d.ttype - a)
    (numPeople pa (appendDiff pd (stationIndex "A") ⟨d.timestamp + delay, -a⟩) "B"
      (d.timestamp + delay + AB)) = b at *
  have h3 := min_le_left (trainCapacity d.ttype - a - b)
    (numPeople pa (appendDiff (appendDiff pd (stationIndex "A") ⟨d.timestamp + delay, -a⟩)
      (stationIndex "B") ⟨d.timestamp + delay + AB, -b⟩) "C"
      (d.timestamp + delay + AB + delay + BC))
  omega

/-- The trains never offload more than their combined capacity. -/
theorem scheduleLoop_offload_le (pa : stationDiffs) (ds : List departure) :
    ∀ (i : Nat) (pd : stationDiffs),
      ((scheduleLoop pa i pd ds).map (fun e => e.UOffloading)).sum ≤
        (ds.map (fun d => trainCapacity d.ttype)).sum := by
  induction ds with
  | nil => intro i pd; simp [scheduleLoop]
  | cons d rest ih =>
    intro i pd
    simp only [scheduleLoop, List.map_cons, List.sum_cons]
    have h1 := scheduleStep_offload_le pa pd i d
    have h2 := ih (i + 1) (scheduleStep pa pd i d).1
    omega

/-- C4. Timing gate: a genome with 16 departures whose first timestamp is
negative, or whose sixteenth timestamp exceeds 180, or in which two consecutive
departures are less than 3 minutes apart, evaluates to `maxScore` with a nil
error, for every arrival list. -/
theorem Evaluate_timing_gate (fuel : Nat) (ds : departureSchedule)
    (hlen : ds.departures.length = 16)
    (hbad : (∃ d, ds.departures[0]? = some d ∧ d.timestamp < 0) ∨
      (∃ d, ds.departures[15]? = some d ∧ d.timestamp > 180) ∨
      (∃ i a b, i < 15 ∧ ds.departures[i]? = some a ∧ ds.departures[i + 1]? = some b ∧
        b.timestamp - a.timestamp < 3)) :
    Evaluate fuel ds = some (maxScore, none) := by
  rw [Evaluate_eq fuel ds (by omega)]
  rcases hbad with ⟨d, hd, h⟩ | ⟨d, hd, h⟩ | ⟨i, a, b, hi, ha, hb, h⟩
  · rw [getD_of_getElem? hd, if_pos h]
  · rw [getD_of_getElem? hd, if_pos h]
    split <;> rfl
  · have hv : headwayViolated ds.departures = true := by
      rw [headwayViolated_iff]
      exact ⟨i, hi, by rw [getD_of_getElem? ha, getD_of_getElem? hb]; exact h⟩
    rw [if_pos hv]
    split
    · rfl
    · split <;> rfl

/-- C4, at sixteen departures of which the second follows the first after 2
minutes. -/
theorem Evaluate_timing_gate_witness :
    (closeDepartures.length = 16 ∧
      ∃ i a b, i < 15 ∧ closeDepartures[i]? = some a ∧ closeDepartures[i + 1]? = some b ∧
        b.timestamp - a.timestamp < 3) ∧
    Evaluate 0 ⟨exampleArrivals, closeDepartures⟩ = some (maxScore, none) :=
  ⟨⟨by decide, 0, ⟨trainTypeL8, 0⟩, ⟨trainTypeL8, 2⟩, by decide, by decide, by decide,
      by decide⟩,
    Evaluate_timing_gate 0 ⟨exampleArrivals, closeDepartures⟩ (by decide)
      (Or.inr (Or.inr ⟨0, ⟨trainTypeL8, 0⟩, ⟨trainTypeL8, 2⟩, by decide, by decide,
        by decide, by decide⟩))⟩

/-- C5. Capacity gate: when the arrival counts add up to more than the
combined capacity of the 16 trains of a genome, `Evaluate` returns `maxScore`
(whatever the fuel, so never a score); and no train offloads more than its
capacity. -/
theorem Evaluate_capacity_gate (ds : departureSchedule)
    (hlen : ds.departures.length = 16)
    (hover : (ds.departures.map (fun d => trainCapacity d.ttype)).sum <
      (ds.arrivals.map (fun a => a.arrivals)).sum) :
    (∀ fuel, Evaluate fuel ds = some (maxScore, none)) ∧
    (∀ fuel v err, Evaluate fuel ds = some (v, err) → ∀ s, v ≠ fitness.ofScore s) ∧
    (∀ e ∈ generateSchedule ds.arrivals ds.departures, e.UOffloading ≤ e.AAvailCap) ∧
    trainCapacity trainTypeL4 = 200 ∧ trainCapacity trainTypeL8 = 400 := by
  have hmain : ∀ fuel, Evaluate fuel ds = some (maxScore, none) := by
    intro fuel
    rw [Evaluate_eq fuel ds (by omega)]
    have h1 := scheduleLoop_offload_le (buildArrivals ds.arrivals) ds.departures 0 (fun _ => [])
    have h2 : ((generateSchedule ds.arrivals ds.departures).map (fun e => e.UOffloading)).sum <
        (ds.arrivals.map (fun a => a.arrivals)).sum := by
      unfold generateSchedule; omega
    rw [if_pos h2]
    split
    · rfl
    · split
      · rfl
      · split <;> rfl
  refine ⟨hmain, ?_, ?_, trainCapacity_L4, trainCapacity_L8⟩
  · intro fuel v err h s hv
    rw [hmain fuel] at h
    simp only [Option.some.injEq, Prod.mk.injEq] at h
    rw [hv] at h
    exact absurd h.1 (by simp [maxScore])
  · intro e he
    obtain ⟨pd1, j, d, _, rfl⟩ := scheduleLoop_mem _ _ _ _ _ he
    exact scheduleStep_offload_le _ _ _ _

/-- C5, at the template timetable (capacity 5600) with 6000 arrivals. -/
theorem Evaluate_capacity_gate_witness :
    ((genomeMachine [⟨"A", 0, 6000⟩]).departures.length = 16 ∧
      ((genomeMachine [⟨"A", 0, 6000⟩]).departures.map (fun d => trainCapacity d.ttype)).sum <
        ((genomeMachine [⟨"A", 0, 6000⟩]).arrivals.map (fun a => a.arrivals)).sum) ∧
    ∀ fuel, Evaluate fuel (genomeMachine [⟨"A", 0, 6000⟩]) = some (maxScore, none) :=
  ⟨⟨by decide, by decide⟩,
    (Evaluate_capacity_gate (genomeMachine [⟨"A", 0, 6000⟩]) (by decide) (by decide)).1⟩

end Rail

namespace Rail

/-! ## Facts about `Mutate`, `Crossover` and `Clone` -/

theorem swapTtype_length {l l1 : List departure} {i j : Nat}
    (h : swapTtype l i j = some l1) : l1.length = l.length := by
  unfold swapTtype at h
  split at h
  · simp only [Option.some.injEq] at h
    rw [← h]; simp
  · simp at h

theorem swapTtype_isSome (l : List departure) {i j : Nat} (hi : i < l.length)
    (hj : j < l.length) : (swapTtype l i j).isSome = true := by
  unfold swapTtype
  rw [List.getElem?_eq_getElem hi, List.getElem?_eq_getElem hj]
  rfl

theorem distinctPair_lt (n : Nat) :
    ∀ (k : Nat) (tape : List Nat), tape.length ≤ k → ∀ i j,
      distinctPair n tape = some (i, j) → i < n ∧ j < n ∧ i ≠ j := by
  intro k
  induction k with
  | zero =>
    intro tape hk i j h
    have : tape = [] := List.length_eq_zero.mp (by omega)
    subst this
    simp [distinctPair] at h
  | succ k ih =>
    intro tape hk i j h
    match tape, hk, h with
    | [], _, h => simp [distinctPair] at h
    | [_], _, h => simp [distinctPair] at h
    | r1 :: r2 :: rest, hk, h =>
      simp only [distinctPair] at h
      split at h
      · simp at h
      · rename_i hn
        split at h
        · exact ih rest (by simp only [List.length_cons] at hk; omega) i j h
        · rename_i hne
          simp only [Option.some.injEq, Prod.mk.injEq] at h
          obtain ⟨rfl, rfl⟩ := h
          exact ⟨Nat.mod_lt _ (by omega), Nat.mod_lt _ (by omega), hne⟩

theorem perturbLoop_length :
    ∀ (n : Nat) (tape : List Nat) (l l1 : List departure),
      perturbLoop n tape l = some l1 → l1.length = l.length := by
  intro n
  induction n with
  | zero => intro tape l l1 h; simp only [perturbLoop, Option.some.injEq] at h; rw [h]
  | succ n ih =>
    intro tape l l1 h
    unfold perturbLoop at h
    split at h
    · rename_i d rest r tape1 _
      cases hr : perturbLoop n tape1 rest with
      | none => rw [hr] at h; simp at h
      | some rest1 =>
        rw [hr] at h
        simp only [Option.map_some', Option.some.injEq] at h
        rw [← h]
        simp [ih tape1 rest rest1 hr]
    · simp at h

theorem perturbLoop_isSome :
    ∀ (n : Nat) (tape : List Nat) (l : List departure), n ≤ tape.length → n ≤ l.length →
      (perturbLoop n tape l).isSome = true := by
  intro n
  induction n with
  | zero => intro tape l _ _; rfl
  | succ n ih =>
    intro tape l ht hl
    match tape, l, ht, hl with
    | [], _, ht, _ => simp at ht
    | _ :: _, [], _, hl => simp at hl
    | r :: tape1, d :: rest, ht, hl =>
      have h := ih tape1 rest (by simp only [List.length_cons] at ht; omega)
        (by simp only [List.length_cons] at hl; omega)
      simp only [perturbLoop, Intn]
      simp only [Nat.succ_ne_zero, OfNat.ofNat_ne_zero, if_false]
      cases hr : perturbLoop n tape1 rest with
      | none => rw [hr] at h; simp at h
      | some rest1 => rfl

/-- C7. For a genome with 16 departures in any order and any contents of the
two random tapes, a call of `Mutate` that returns leaves 16 departures sorted
ascending by timestamp; and the call returns as soon as the tapes hold the
draws it asks for (the branch choice, then a pair of distinct indices or 16
offsets). -/
theorem Mutate_sorted (S : SliceSort) (rng grand : List Nat) (ds : departureSchedule)
    (hlen : ds.departures.length = 16) :
    (∀ ds1, Mutate S rng grand ds = some ds1 →
      ds1.departures.Pairwise byTimestamp ∧ ds1.departures.length = 16) ∧
    (∀ r rest, rng = r :: rest →
      (r % 2 = 0 → (distinctPair 16 grand).isSome = true →
        (Mutate S rng grand ds).isSome = true) ∧
      (r % 2 = 1 → 16 ≤ grand.length → (Mutate S rng grand ds).isSome = true)) := by
  constructor
  · intro ds1 h
    unfold Mutate at h
    split at h
    · simp at h
    · rename_i opt tape1 _
      split at h
      · split at h
        · simp at h
        · rename_i idx1 idx2 _
          cases hs : swapTtype ds.departures idx1 idx2 with
          | none => rw [hs] at h; simp at h
          | some l =>
            rw [hs] at h
            simp only [Option.map_some', Option.some.injEq] at h
            rw [← h]
            exact ⟨S.sorted l, by rw [(S.perm l).length_eq, swapTtype_length hs, hlen]⟩
      · split at h
        · cases hs : perturbLoop 16 grand ds.departures with
          | none => rw [hs] at h; simp at h
          | some l =>
            rw [hs] at h
            simp only [Option.map_some', Option.some.injEq] at h
            rw [← h]
            exact ⟨S.sorted l, by
              rw [(S.perm l).length_eq, perturbLoop_length 16 grand _ l hs, hlen]⟩
        · simp only [Option.some.injEq] at h
          rw [← h]
          exact ⟨S.sorted _, by rw [(S.perm _).length_eq, hlen]⟩
  · intro r rest hr
    subst hr
    constructor
    · intro h0 hp
      cases hd : distinctPair 16 grand with
      | none => rw [hd] at hp; simp at hp
      | some p =>
        obtain ⟨i, j⟩ := p
        obtain ⟨hi, hj, _⟩ := distinctPair_lt 16 grand.length grand (le_refl _) i j hd
        have hsw := swapTtype_isSome ds.departures (i := i) (j := j) (by omega) (by omega)
        cases hs : swapTtype ds.departures i j with
        | none => rw [hs] at hsw; simp at hsw
        | some l => simp [Mutate, Intn, h0, hlen, hd, hs]
    · intro h1 hg
      have hp := perturbLoop_isSome 16 grand ds.departures hg (by omega)
      cases hs : perturbLoop 16 grand ds.departures with
      | none => rw [hs] at hp; simp at hp
      | some l => simp [Mutate, Intn, h1, hs]

/-- C7, at the template timetable in the perturbation branch with the offsets
`-2, -1, 0, 1` in rotation. -/
theorem Mutate_sorted_witness :
    (genomeMachine []).departures.length = 16 ∧
    ∃ ds1, Mutate insertionSliceSort [1] (List.range 16) (genomeMachine []) = some ds1 ∧
      ds1.departures.Pairwise byTimestamp ∧ ds1.departures.length = 16 :=
  ⟨by decide,
    Option.isSome_iff_exists.mp
        (((Mutate_sorted insertionSliceSort [1] (List.range 16) (genomeMachine [])
          (by decide)).2 1 [] rfl).2 (by decide) (by decide)) |>.elim
      (fun ds1 h => ⟨ds1, h,
        (Mutate_sorted insertionSliceSort [1] (List.range 16) (genomeMachine [])
          (by decide)).1 ds1 h⟩)⟩

theorem crossLoop_eq :
    ∀ (n : Nat) (l o : List departure), l.length = n → o.length = n →
      crossLoop n l o = some (List.zipWith
        (fun d e => (⟨d.ttype, Int.tdiv (d.timestamp + e.timestamp) 2⟩ : departure)) l o) := by
  intro n
  induction n with
  | zero =>
    intro l o hl ho
    have : l = [] := List.length_eq_zero.mp hl
    subst this
    simp [crossLoop]
  | succ n ih =>
    intro l o hl ho
    match l, o, hl, ho with
    | [], _, hl, _ => simp at hl
    | _ :: _, [], _, ho => simp at ho
    | d :: rest, e :: orest, hl, ho =>
      simp only [crossLoop, List.zipWith_cons_cons]
      rw [ih rest orest (by simpa using hl) (by simpa using ho)]
      rfl

theorem Clone_eq (ds : departureSchedule) (hlen : ds.departures.length = 16) :
    Clone ds = ds := by
  unfold Clone
  have h1 : ds.departures.take 16 = ds.departures := List.take_of_length_le (by omega)
  rw [h1, hlen]
  simp

theorem tdiv_self_add (t : Int) : Int.tdiv (t + t) 2 = t := by
  have h : t + t = t * 2 := by ring
  rw [h, Int.mul_tdiv_cancel _ (by decide)]

theorem zipWith_self (l : List departure) :
    List.zipWith (fun d e => (⟨d.ttype, Int.tdiv (d.timestamp + e.timestamp) 2⟩ : departure))
      l l = l := by
  induction l with
  | nil => rfl
  | cons d rest ih =>
    simp only [List.zipWith_cons_cons, ih, tdiv_self_add]

/-- Sorting a slice that is already in order leaves the timestamps where they
are. -/
theorem sort_timestamps (S : SliceSort) (l : List departure) (h : l.Pairwise byTimestamp) :
    (S.sort l).map (fun d => d.timestamp) = l.map (fun d => d.timestamp) := by
  apply List.eq_of_perm_of_sorted (r := (· ≤ ·)) ((S.perm l).map _)
  · exact (List.pairwise_map).mpr (S.sorted l)
  · exact (List.pairwise_map).mpr h

/-- C8. Crossover of a genome with 16 departures sorted ascending by
timestamp with a clone of itself returns and leaves the timestamp at every
index unchanged (negative timestamps included). -/
theorem Crossover_clone (S : SliceSort) (ds : departureSchedule)
    (hlen : ds.departures.length = 16) (hsorted : ds.departures.Pairwise byTimestamp) :
    ∃ r, Crossover S ds (Clone ds) = some r ∧
      r.1.departures.map (fun d => d.timestamp) = ds.departures.map (fun d => d.timestamp) ∧
      ∀ i d, i < 16 → ds.departures[i]? = some d →
        ∃ d1, r.1.departures[i]? = some d1 ∧ d1.timestamp = d.timestamp := by
  have hc : Crossover S ds (Clone ds) =
      some ({ ds with departures := S.sort ds.departures }, ds) := by
    rw [Clone_eq ds hlen]
    unfold Crossover
    rw [crossLoop_eq 16 _ _ hlen hlen, zipWith_self]
    rfl
  have hm := sort_timestamps S ds.departures hsorted
  refine ⟨_, hc, hm, ?_⟩
  intro i d _ hd
  have h1 : ((S.sort ds.departures).map (fun d => d.timestamp))[i]? = some d.timestamp := by
    rw [hm, List.getElem?_map, hd]; rfl
  rw [List.getElem?_map] at h1
  cases hx : (S.sort ds.departures)[i]? with
  | none => rw [hx] at h1; simp at h1
  | some d1 =>
    rw [hx] at h1
    simp only [Option.map_some', Option.some.injEq] at h1
    exact ⟨d1, rfl, h1⟩

/-- C8, at sixteen sorted departures that start at minute -9. -/
theorem Crossover_clone_witness :
    earlyGenome.departures.length = 16 ∧ earlyGenome.departures.Pairwise byTimestamp ∧
    ∃ r, Crossover insertionSliceSort earlyGenome (Clone earlyGenome) = some r ∧
      r.1.departures.map (fun d => d.timestamp) =
        earlyGenome.departures.map (fun d => d.timestamp) :=
  ⟨by decide, by decide,
    (Crossover_clone insertionSliceSort earlyGenome (by decide) (by decide)).elim
      (fun r h => ⟨r, h.1, h.2.1⟩)⟩

/-- C9. After `ds.Crossover(other)` on two genomes with 16 departures each,
the receiver's departures are sorted ascending by timestamp and are a
permutation of the pairs (type of `ds` at `i`, truncated half of the sum of
the two timestamps at `i`), `i = 0..15`; the other genome is unchanged. -/
theorem Crossover_post (S : SliceSort) (ds other : departureSchedule)
    (hlen : ds.departures.length = 16) (holen : other.departures.length = 16) :
    ∃ r, Crossover S ds other = some r ∧
      r.1.departures.Pairwise byTimestamp ∧
      r.1.departures.Perm (List.zipWith
        (fun d e => (⟨d.ttype, Int.tdiv (d.timestamp + e.timestamp) 2⟩ : departure))
        ds.departures other.departures) ∧
      r.1.departures.length = 16 ∧
      r.2 = other := by
  refine ⟨_, by unfold Crossover; rw [crossLoop_eq 16 _ _ hlen holen]; rfl,
    S.sorted _, S.perm _, ?_, rfl⟩
  rw [(S.perm _).length_eq]
  simp [hlen, holen]

/-- C9, at the template timetable crossed with sixteen departures that start
at minute -9. -/
theorem Crossover_post_witness :
    (genomeMachine []).departures.length = 16 ∧ earlyGenome.departures.length = 16 ∧
    ∃ r, Crossover insertionSliceSort (genomeMachine []) earlyGenome = some r ∧
      r.1.departures.Pairwise byTimestamp ∧ r.2 = earlyGenome :=
  ⟨by decide, by decide,
    (Crossover_post insertionSliceSort (genomeMachine []) earlyGenome (by decide)
      (by decide)).elim (fun r h => ⟨r, h.1, h.2.1, h.2.2.2.2⟩)⟩

end Rail

namespace Rail

/-! ## Facts about the minute loop of `scoreSchedule` -/

theorem foldl_wait (m : Int) (l : List Int) :
    ∀ acc : Int, l.foldl (fun s t => s + (m - t)) acc = acc + (l.map (fun t => m - t)).sum := by
  induction l with
  | nil => intro acc; simp
  | cons a rest ih =>
    intro acc
    simp only [List.foldl_cons, List.map_cons, List.sum_cons]
    rw [ih]; omega

theorem min_toNat_le (v : Int) (n : Nat) : (min v n).toNat ≤ n := by
  unfold min; split <;> omega

theorem min_zero_toNat (n : Nat) : (min 0 n).toNat = 0 := by
  unfold min; split <;> omega

/-- With a non-negative capacity the station step does not panic. -/
theorem boardStation_eq (arrived : List Int) (v m : Int) (q : List Int) (sum count : Int)
    (hv : 0 ≤ v) :
    boardStation arrived v m (q, sum, count) =
      some ((q ++ arrived).drop (min v (q ++ arrived).length).toNat,
        sum + (((q ++ arrived).take (min v (q ++ arrived).length).toNat).map
          (fun t => m - t)).sum,
        count + (min v (q ++ arrived).length).toNat) := by
  unfold boardStation
  by_cases h0 : v = 0
  · subst h0
    have h := min_zero_toNat (q ++ arrived).length
    simp only [ne_eq, not_true_eq_false, if_false, h, List.drop_zero, List.take_zero,
      List.map_nil, List.sum_nil, add_zero, Nat.cast_zero]
  · have hl : ¬ min v ((q ++ arrived).length : Int) < 0 := by
      unfold min; split <;> omega
    have hle := min_toNat_le v (q ++ arrived).length
    simp only [ne_eq, h0, not_false_eq_true, if_true, hl, if_false, foldl_wait,
      List.length_take, Nat.min_eq_left hle]

theorem scoreIter_succ (par : Nat → Int → List Int) (tar : Nat → Int → Int) :
    ∀ (n : Nat) (s : scoreState),
      scoreIter par tar (n + 1) s =
        match scoreIter par tar n s with
        | none => none
        | some s1 => scoreBody par tar s1 := by
  intro n
  induction n with
  | zero =>
    intro s
    simp only [scoreIter]
    cases scoreBody par tar s <;> rfl
  | succ n ih =>
    intro s
    rw [scoreIter]
    cases h : scoreBody par tar s with
    | none => simp [scoreIter, h]
    | some s1 =>
      simp only []
      rw [ih s1]
      simp [scoreIter, h]

/-- The loop returns the state at which its condition first fails. -/
theorem scoreLoop_exact (par : Nat → Int → List Int) (tar : Nat → Int → Int) :
    ∀ (K : Nat) (s sK : scoreState), scoreIter par tar K s = some sK →
      scoreCond sK = false →
      (∀ j sj, j < K → scoreIter par tar j s = some sj → scoreCond sj = true) →
      ∀ fuel, K ≤ fuel → scoreLoop par tar fuel s = some sK := by
  intro K
  induction K with
  | zero =>
    intro s sK h hc _ fuel _
    simp only [scoreIter, Option.some.injEq] at h
    subst h
    cases fuel <;> simp [scoreLoop, hc]
  | succ K ih =>
    intro s sK h hc hbefore fuel hfuel
    have hs : scoreCond s = true := hbefore 0 s (by omega) rfl
    cases fuel with
    | zero => omega
    | succ fuel =>
      rw [scoreIter] at h
      cases hb : scoreBody par tar s with
      | none => rw [hb] at h; simp at h
      | some s1 =>
        rw [hb] at h
        simp only [scoreLoop, hs, if_true, hb]
        apply ih s1 sK h hc _ fuel (by omega)
        intro j sj hj hsj
        apply hbefore (j + 1) sj (by omega)
        rw [scoreIter, hb]
        exact hsj

/-- The loop ends once the condition fails at some iteration. -/
theorem scoreLoop_exit (par : Nat → Int → List Int) (tar : Nat → Int → Int) :
    ∀ (K : Nat) (s sK : scoreState), scoreIter par tar K s = some sK →
      scoreCond sK = false →
      ∃ s1, scoreCond s1 = false ∧ ∀ fuel, K ≤ fuel → scoreLoop par tar fuel s = some s1 := by
  intro K
  induction K with
  | zero =>
    intro s sK h hc
    simp only [scoreIter, Option.some.injEq] at h
    subst h
    exact ⟨s, hc, fun fuel _ => by cases fuel <;> simp [scoreLoop, hc]⟩
  | succ K ih =>
    intro s sK h hc
    by_cases hs : scoreCond s = true
    · rw [scoreIter] at h
      cases hb : scoreBody par tar s with
      | none => rw [hb] at h; simp at h
      | some s1 =>
        rw [hb] at h
        obtain ⟨s2, hc2, h2⟩ := ih s1 sK h hc
        refine ⟨s2, hc2, ?_⟩
        intro fuel hfuel
        cases fuel with
        | zero => omega
        | succ fuel =>
          simp only [scoreLoop, hs, if_true, hb]
          exact h2 fuel (by omega)
    · have hs1 : scoreCond s = false := by simpa using hs
      exact ⟨s, hs1, fun fuel _ => by cases fuel <;> simp [scoreLoop, hs1]⟩

/-- The loop never ends while the condition holds at every iteration. -/
theorem scoreLoop_none (par : Nat → Int → List Int) (tar : Nat → Int → Int) :
    ∀ (fuel : Nat) (s : scoreState),
      (∀ j, j ≤ fuel → ∃ sj, scoreIter par tar j s = some sj ∧ scoreCond sj = true) →
      scoreLoop par tar fuel s = none := by
  intro fuel
  induction fuel with
  | zero =>
    intro s h
    obtain ⟨s0, h0, hc⟩ := h 0 (le_refl _)
    simp only [scoreIter, Option.some.injEq] at h0
    rw [← h0] at hc
    simp [scoreLoop, hc]
  | succ fuel ih =>
    intro s h
    obtain ⟨s0, h0, hc⟩ := h 0 (by omega)
    simp only [scoreIter, Option.some.injEq] at h0
    rw [← h0] at hc
    obtain ⟨s1, h1, _⟩ := h 1 (by omega)
    simp only [scoreIter] at h1
    cases hb : scoreBody par tar s with
    | none => rw [hb] at h1; simp at h1
    | some s2 =>
      simp only [scoreLoop, hc, if_true, hb]
      apply ih
      intro j hj
      obtain ⟨sj, hsj, hcj⟩ := h (j + 1) (by omega)
      rw [scoreIter, hb] at hsj
      exact ⟨sj, hsj, hcj⟩

/-- The state of the minute loop after `K` iterations, station by station. -/
theorem scoreIter_stations (par : Nat → Int → List Int) (tar : Nat → Int → Int)
    (htar : ∀ i k, 0 ≤ tar i k) (K : Nat) :
    scoreIter par tar K scoreInit = some
      { pbuf0 := (stationRun (par 0) (tar 0) K).1,
        pbuf1 := (stationRun (par 1) (tar 1) K).1,
        pbuf2 := (stationRun (par 2) (tar 2) K).1,
        m := K,
        sum := (stationRun (par 0) (tar 0) K).2.1 + (stationRun (par 1) (tar 1) K).2.1 +
          (stationRun (par 2) (tar 2) K).2.1,
        count := (stationRun (par 0) (tar 0) K).2.2 + (stationRun (par 1) (tar 1) K).2.2 +
          (stationRun (par 2) (tar 2) K).2.2 } := by
  induction K with
  | zero => rfl
  | succ K ih =>
    rw [scoreIter_succ, ih]
    simp only [scoreBody, boardStation_eq _ _ _ _ _ _ (htar _ _), stationRun,
      Option.some.injEq, scoreState.mk.injEq]
    refine ⟨trivial, trivial, trivial, ?_, ?_, ?_⟩
    · push_cast; rfl
    · omega
    · omega

theorem stationRun_quiet (arr : Int → List Int) (cap : Int → Int) (k : Nat)
    (hq : (stationRun arr cap k).1 = []) (ha : arr k = []) :
    stationRun arr cap (k + 1) = stationRun arr cap k := by
  have hl : (min (cap k) ((([] : List Int) ++ []).length : Int)).toNat = 0 := by
    have := min_toNat_le (cap k) 0
    simpa using this
  rw [stationRun]
  simp only [hq, ha, hl]
  ext <;> simp [hq]

theorem stationRun_idle (arr : Int → List Int) (cap : Int → Int) (k : Nat)
    (ha : arr k = []) (hc : cap k = 0) :
    stationRun arr cap (k + 1) = stationRun arr cap k := by
  rw [stationRun]
  simp only [ha, hc, min_zero_toNat]
  ext <;> simp

theorem stationRun_quiet_range (arr : Int → List Int) (cap : Int → Int) (a : Nat)
    (hq : (stationRun arr cap a).1 = []) :
    ∀ b, a ≤ b → (∀ k, a ≤ k → k < b → arr k = []) →
      stationRun arr cap b = stationRun arr cap a := by
  intro b
  induction b with
  | zero => intro hab _; have : a = 0 := by omega
            subst this; rfl
  | succ b ih =>
    intro hab h
    by_cases hb : a = b + 1
    · rw [hb]
    · have h1 := ih (by omega) (fun k hk1 hk2 => h k hk1 (by omega))
      rw [stationRun_quiet arr cap b (by rw [h1]; exact hq) (h b (by omega) (by omega)), h1]

theorem stationRun_idle_range (arr : Int → List Int) (cap : Int → Int) (a : Nat) :
    ∀ b, a ≤ b → (∀ k, a ≤ k → k < b → arr k = [] ∧ cap k = 0) →
      stationRun arr cap b = stationRun arr cap a := by
  intro b
  induction b with
  | zero => intro hab _; have : a = 0 := by omega
            subst this; rfl
  | succ b ih =>
    intro hab h
    by_cases hb : a = b + 1
    · rw [hb]
    · have h1 := ih (by omega) (fun k hk1 hk2 => h k hk1 (by omega))
      have h2 := h b (by omega) (by omega)
      rw [stationRun_idle arr cap b h2.1 h2.2, h1]

/-- A station at which nobody ever arrives stays empty. -/
theorem stationRun_nobody (arr : Int → List Int) (cap : Int → Int)
    (ha : ∀ k : Nat, arr k = []) (K : Nat) : stationRun arr cap K = ([], 0, 0) :=
  stationRun_quiet_range arr cap 0 rfl K (Nat.zero_le _) (fun k _ _ => ha k)

end Rail

namespace Rail

/-! ## One sample at station A and one train -/

theorem min_eq_right_of_le {a b : Int} (h : b ≤ a) : min a b = b := by
  unfold min; split <;> omega

theorem stationRun_single_wait (arr : Int → List Int) (cap : Int → Int) (mn tn nn : Nat)
    (c : Int)
    (harr : ∀ k : Nat, arr k = if (k : Int) = mn then List.replicate nn (mn : Int) else [])
    (hcap : ∀ k : Nat, cap k = if (k : Int) = tn then c else 0) :
    ∀ j, mn < j → j ≤ tn → stationRun arr cap j = (List.replicate nn (mn : Int), 0, 0) := by
  intro j hj1 hj2
  have h0 : stationRun arr cap mn = ([], 0, 0) :=
    stationRun_quiet_range arr cap 0 rfl mn (Nat.zero_le _)
      (fun k _ hk => by rw [harr k, if_neg (by omega)])
  have h1 : stationRun arr cap (mn + 1) = (List.replicate nn (mn : Int), 0, 0) := by
    rw [stationRun]
    simp only [h0, harr mn, hcap mn, if_true]
    rw [if_neg (by omega), min_zero_toNat]
    simp
  rw [stationRun_idle_range arr cap (mn + 1) j (by omega)
    (fun k hk1 hk2 => ⟨by rw [harr k, if_neg (by omega)], by rw [hcap k, if_neg (by omega)]⟩)]
  exact h1

theorem stationRun_single_done (arr : Int → List Int) (cap : Int → Int) (mn tn nn : Nat)
    (c : Int)
    (harr : ∀ k : Nat, arr k = if (k : Int) = mn then List.replicate nn (mn : Int) else [])
    (hcap : ∀ k : Nat, cap k = if (k : Int) = tn then c else 0)
    (hn : (nn : Int) ≤ c) (hmt : mn ≤ tn) :
    ∀ K, tn < K → stationRun arr cap K = ([], (nn : Int) * ((tn : Int) - mn), (nn : Int)) := by
  intro K hK
  have hbuf : (stationRun arr cap tn).1 ++ arr tn = List.replicate nn (mn : Int) ∧
      (stationRun arr cap tn).2 = (0, 0) := by
    by_cases hmn : mn = tn
    · subst hmn
      have h0 : stationRun arr cap mn = ([], 0, 0) :=
        stationRun_quiet_range arr cap 0 rfl mn (Nat.zero_le _)
          (fun k _ hk => by rw [harr k, if_neg (by omega)])
      rw [h0, harr mn]; simp
    · rw [stationRun_single_wait arr cap mn tn nn c harr hcap tn (by omega) (le_refl _),
        harr tn, if_neg (by omega)]
      simp
  have h1 : stationRun arr cap (tn + 1) = ([], (nn : Int) * ((tn : Int) - mn), (nn : Int)) := by
    have hl : (min c ((List.replicate nn (mn : Int)).length : Int)).toNat = nn := by
      rw [List.length_replicate, min_eq_right_of_le hn]; simp
    rw [stationRun]
    simp only [hbuf.1, hcap tn, if_true, hl]
    rw [hbuf.2]
    simp
  rw [stationRun_quiet_range arr cap (tn + 1) (by rw [h1]) K (by omega)
    (fun k hk1 hk2 => by rw [harr k, if_neg (by omega)])]
  exact h1

theorem single_schedule (m n t : Int) (ty : trainType)
    (hcap : n ≤ trainCapacity ty) (ht : m ≤ t + 3) :
    generateSchedule [⟨"A", m, n⟩] [⟨ty, t⟩] =
      [{ TrainNum := 1, TrainType := ty,
         AArrivalTime := t, AAvailCap := trainCapacity ty, ABoarding := n,
         BArrivalTime := t + 3 + 8, BAvailCap := trainCapacity ty - n, BBoarding := 0,
         CArrivalTime := t + 3 + 8 + 3 + 9, CAvailCap := trainCapacity ty - n - 0,
         CBoarding := 0,
         UArrivalTime := t + 3 + 8 + 3 + 9 + 3 + 11,
         UAvailCap := trainCapacity ty - n - 0 - 0, UOffloading := n + 0 + 0 }] := by
  have hA : numPeople (buildArrivals [⟨"A", m, n⟩]) (fun _ => []) "A" (t + delay) = n := by
    have h1 : ¬ m > t + 3 := by omega
    simp [numPeople, buildArrivals, appendDiff, stationIndex_A, sumUntil, delay, h1]
  have hB : ∀ (pd : stationDiffs) (x : Int), pd 1 = [] →
      numPeople (buildArrivals [⟨"A", m, n⟩]) pd "B" x = 0 := by
    intro pd x hpd
    simp [numPeople, buildArrivals, appendDiff, stationIndex_A, stationIndex_B, sumUntil, hpd]
  have hC : ∀ (pd : stationDiffs) (x : Int), pd 2 = [] →
      numPeople (buildArrivals [⟨"A", m, n⟩]) pd "C" x = 0 := by
    intro pd x hpd
    simp [numPeople, buildArrivals, appendDiff, stationIndex_A, stationIndex_C, sumUntil, hpd]
  have hminA : min (trainCapacity ty) n = n := min_eq_right_of_le hcap
  have hmin0 : min (trainCapacity ty - n) 0 = 0 := min_eq_right_of_le (by omega)
  have hmin1 : min (trainCapacity ty - n - 0) 0 = 0 := min_eq_right_of_le (by omega)
  simp only [generateSchedule, scheduleLoop, scheduleStep, hA, hminA]
  rw [hB _ _ (by simp [appendDiff, stationIndex_A])]
  simp only [hmin0]
  rw [hC _ _ (by simp [appendDiff, stationIndex_A, stationIndex_B])]
  simp only [hmin1]
  simp [delay, AB, BC, CU]

theorem tarrivals_nonneg_single (e : scheduleEntry) (hA : 0 ≤ e.AAvailCap)
    (hB : 0 ≤ e.BAvailCap) (hC : 0 ≤ e.CAvailCap) (i : Nat) (k : Int) :
    0 ≤ tarrivals [e] i k := by
  simp only [tarrivals, List.foldl_cons, List.foldl_nil, addTrain, mapAdd]
  repeat' split
  all_goals omega

/-- The result of `scoreSchedule` for one sample at station A and one entry
whose train takes every passenger of the sample: the loop ends after `K`
minutes, the later of minute 180 and the minute after the boarding, with the
sum `nn * (tn - mn)` and the count `nn`. -/
theorem single_loop (mn tn nn : Nat) (e : scheduleEntry)
    (hA : e.AArrivalTime + 3 = tn) (hB : 0 ≤ e.BAvailCap) (hC : 0 ≤ e.CAvailCap)
    (hn : 1 ≤ nn) (hcap : (nn : Int) ≤ e.AAvailCap) (hmt : mn ≤ tn) (hm : mn < 180)
    (K : Nat) (hK1 : 180 ≤ K) (hK2 : tn < K) (hK3 : K ≤ 180 ∨ K ≤ tn + 1)
    (fuel : Nat) :
    scoreSchedule fuel [⟨"A", (mn : Int), (nn : Int)⟩] [e] =
      if fuel < K then none
      else some (floatDiv ((nn : Int) * ((tn : Int) - mn)) (nn : Int)) := by
  have htar : ∀ i k, 0 ≤ tarrivals [e] i k := by
    intro i k
    apply tarrivals_nonneg_single <;> omega
  have hpar0 : ∀ k : Nat, parrivals [⟨"A", (mn : Int), (nn : Int)⟩] 0 k =
      if (k : Int) = mn then List.replicate nn (mn : Int) else [] := by
    intro k
    simp [parrivals, addPassengers, stationIndex_A]
  have hpar1 : ∀ k : Nat, parrivals [⟨"A", (mn : Int), (nn : Int)⟩] 1 k = [] := by
    intro k
    simp [parrivals, addPassengers, stationIndex_A]
  have hpar2 : ∀ k : Nat, parrivals [⟨"A", (mn : Int), (nn : Int)⟩] 2 k = [] := by
    intro k
    simp [parrivals, addPassengers, stationIndex_A]
  have htar0 : ∀ k : Nat, tarrivals [e] 0 k =
      if (k : Int) = tn then e.AAvailCap else 0 := by
    intro k
    have hd : e.AArrivalTime + delay = tn := hA
    simp [tarrivals, addTrain, mapAdd, hd]
  have hwait := stationRun_single_wait _ _ mn tn nn e.AAvailCap hpar0 htar0
  have hdone := stationRun_single_done _ _ mn tn nn e.AAvailCap hpar0 htar0 hcap hmt
  have hq1 := stationRun_nobody _ (tarrivals [e] 1) hpar1
  have hq2 := stationRun_nobody _ (tarrivals [e] 2) hpar2
  have hiter := scoreIter_stations (parrivals [⟨"A", (mn : Int), (nn : Int)⟩])
    (tarrivals [e]) htar
  have hcond : ∀ j sj, j < K → scoreIter (parrivals [⟨"A", (mn : Int), (nn : Int)⟩])
      (tarrivals [e]) j scoreInit = some sj → scoreCond sj = true := by
    intro j sj hj hsj
    rw [hiter j] at hsj
    simp only [Option.some.injEq] at hsj
    rw [← hsj]
    simp only [scoreCond, hq1, hq2]
    by_cases hj180 : j < 180
    · simp only [Bool.or_eq_true, decide_eq_true_eq]
      left; left; left; omega
    · have hjt : j ≤ tn := by omega
      rw [hwait j (by omega) hjt]
      have : nn ≠ 0 := by omega
      simp [this]
  unfold scoreSchedule
  by_cases hf : fuel < K
  · rw [if_pos hf, scoreLoop_none _ _ fuel scoreInit (fun j hj =>
      ⟨_, hiter j, hcond j _ (by omega) (hiter j)⟩)]
    rfl
  · rw [if_neg hf, scoreLoop_exact _ _ K scoreInit _ (hiter _) ?_ hcond fuel (by omega)]
    · simp only [Option.map_some', hdone _ hK2, hq1, hq2, add_zero]
    · simp only [scoreCond, hdone _ hK2, hq1, hq2]
      simp; omega

/-- The score of one sample at station A and one entry whose train takes
every passenger of the sample, the sum of the waits being below `2 ^ 24` (where
the `float32` conversion is exact). -/
theorem single_score (mn tn nn : Nat) (e : scheduleEntry)
    (hA : e.AArrivalTime + 3 = tn) (hB : 0 ≤ e.BAvailCap) (hC : 0 ≤ e.CAvailCap)
    (hn : 1 ≤ nn) (hcap : (nn : Int) ≤ e.AAvailCap) (hmt : mn ≤ tn) (hm : mn < 180)
    (hn24 : (nn : Int) < 2 ^ 24) (h24 : (nn : Int) * ((tn : Int) - mn) < 2 ^ 24)
    (K : Nat) (hK1 : 180 ≤ K) (hK2 : tn < K) (hK3 : K ≤ 180 ∨ K ≤ tn + 1)
    (fuel : Nat) (hfuel : K ≤ fuel) :
    scoreSchedule fuel [⟨"A", (mn : Int), (nn : Int)⟩] [e] =
      some (scoreValue.real ((((tn : Int) - mn : Int) : ℚ))) := by
  rw [single_loop mn tn nn e hA hB hC hn hcap hmt hm K hK1 hK2 hK3 fuel, if_neg (by omega),
    floatDiv_exact (nn : Int) ((tn : Int) - mn) (by omega) (by omega) hn24 h24]

/-- The amended C3 (single train). One sample at station A at a minute `m` with
`0 ≤ m < 180` and a count `n` with `1 ≤ n ≤` the capacity of the train, and one
train departing at `t` with `t + 3 ≥ m` and `n * (t + 3 - m) < 2 ^ 24` (the sum of
the waits is then a `float32` value): `generateSchedule` yields one entry with
`ABoarding = n` and `UOffloading = n`, and `scoreSchedule` returns `t + 3 - m`
once the fuel covers the minutes up to the boarding. -/
theorem single_train (m n t : Int) (ty : trainType) (hm : 0 ≤ m) (hm180 : m < 180)
    (hn : 1 ≤ n) (hcap : n ≤ trainCapacity ty) (ht : t + 3 ≥ m)
    (h24 : n * (t + 3 - m) < 2 ^ 24) :
    ∃ e, generateSchedule [⟨"A", m, n⟩] [⟨ty, t⟩] = [e] ∧ e.ABoarding = n ∧
      e.UOffloading = n ∧
      ∃ fuel0, ∀ fuel, fuel0 ≤ fuel →
        scoreSchedule fuel [⟨"A", m, n⟩] (generateSchedule [⟨"A", m, n⟩] [⟨ty, t⟩]) =
          some (scoreValue.real (((t + 3 - m : Int) : ℚ))) := by
  have hsch := single_schedule m n t ty hcap (by omega)
  refine ⟨_, hsch, rfl, by simp, ?_⟩
  rw [hsch]
  obtain ⟨mn, rfl⟩ := Int.eq_ofNat_of_zero_le hm
  obtain ⟨tn, htn⟩ := Int.eq_ofNat_of_zero_le (show 0 ≤ t + 3 by omega)
  obtain ⟨nn, rfl⟩ := Int.eq_ofNat_of_zero_le (show 0 ≤ n by omega)
  refine ⟨180 + (tn + 1), ?_⟩
  intro fuel hfuel
  have hle := trainCapacity_le ty
  rw [htn] at h24 ⊢
  exact single_score mn tn nn _ htn (by simp only []; omega) (by simp only []; omega)
    (by omega) hcap (by omega) (by omega) (by omega) h24
    (if 180 ≤ tn + 1 then tn + 1 else 180)
    (by split <;> omega) (by split <;> omega) (by split <;> omega) fuel
    (by split <;> omega)

/-- The scenario of the specification: sample (A, minute 0, count 50) and one
`L8` train at minute 0 give `ABoarding = 50`, `UOffloading = 50` and the score
`3`. -/
theorem single_train_witness :
    ((0 : Int) ≤ 0 ∧ (0 : Int) < 180 ∧ (1 : Int) ≤ 50 ∧ (50 : Int) ≤ trainCapacity trainTypeL8 ∧
      (0 : Int) + 3 ≥ 0 ∧ (50 : Int) * (0 + 3 - 0) < 2 ^ 24) ∧
    ∃ e, generateSchedule [⟨"A", 0, 50⟩] [⟨trainTypeL8, 0⟩] = [e] ∧ e.ABoarding = 50 ∧
      e.UOffloading = 50 ∧
      ∃ fuel0, ∀ fuel, fuel0 ≤ fuel →
        scoreSchedule fuel [⟨"A", 0, 50⟩] (generateSchedule [⟨"A", 0, 50⟩] [⟨trainTypeL8, 0⟩]) =
          some (scoreValue.real (((0 + 3 - 0 : Int) : ℚ))) :=
  ⟨by decide, single_train 0 50 0 trainTypeL8 (by decide) (by decide) (by decide) (by decide)
    (by decide) (by decide)⟩

end Rail

namespace Rail

/-! ## Sums over selected elements -/

theorem sumIf_nil {α : Type} (p : α → Prop) [DecidablePred p] (v : α → Int) :
    sumIf p v [] = 0 := rfl

theorem sumIf_cons {α : Type} (p : α → Prop) [DecidablePred p] (v : α → Int) (x : α)
    (l : List α) : sumIf p v (x :: l) = (if p x then v x else 0) + sumIf p v l := by
  simp [sumIf]

theorem sumIf_nonneg {α : Type} (p : α → Prop) [DecidablePred p] (v : α → Int) (l : List α)
    (h : ∀ x ∈ l, 0 ≤ v x) : 0 ≤ sumIf p v l := by
  induction l with
  | nil => simp [sumIf_nil]
  | cons x rest ih =>
    rw [sumIf_cons]
    have h1 := h x (List.mem_cons_self _ _)
    have h2 := ih (fun y hy => h y (List.mem_cons_of_mem _ hy))
    split <;> omega

theorem sumIf_mono {α : Type} (p q : α → Prop) [DecidablePred p] [DecidablePred q]
    (v w : α → Int) (l : List α) (hpq : ∀ x ∈ l, p x → q x)
    (hv : ∀ x ∈ l, p x → v x ≤ w x) (hw : ∀ x ∈ l, 0 ≤ w x) :
    sumIf p v l ≤ sumIf q w l := by
  induction l with
  | nil => simp [sumIf_nil]
  | cons x rest ih =>
    rw [sumIf_cons, sumIf_cons]
    have h1 := ih (fun y hy => hpq y (List.mem_cons_of_mem _ hy))
      (fun y hy => hv y (List.mem_cons_of_mem _ hy))
      (fun y hy => hw y (List.mem_cons_of_mem _ hy))
    have h2 := hw x (List.mem_cons_self _ _)
    by_cases hp : p x
    · have hq := hpq x (List.mem_cons_self _ _) hp
      have h3 := hv x (List.mem_cons_self _ _) hp
      rw [if_pos hp, if_pos hq]; omega
    · rw [if_neg hp]
      split <;> omega

theorem sumIf_congr {α : Type} (p q : α → Prop) [DecidablePred p] [DecidablePred q]
    (v w : α → Int) (l : List α) (hpq : ∀ x ∈ l, (p x ↔ q x))
    (hv : ∀ x ∈ l, p x → v x = w x) : sumIf p v l = sumIf q w l := by
  induction l with
  | nil => simp [sumIf_nil]
  | cons x rest ih =>
    rw [sumIf_cons, sumIf_cons, ih (fun y hy => hpq y (List.mem_cons_of_mem _ hy))
      (fun y hy => hv y (List.mem_cons_of_mem _ hy))]
    have h1 := hpq x (List.mem_cons_self _ _)
    by_cases hp : p x
    · rw [if_pos hp, if_pos (h1.mp hp), hv x (List.mem_cons_self _ _) hp]
    · rw [if_neg hp, if_neg (fun hq => hp (h1.mpr hq))]

theorem sumIf_all {α : Type} (p : α → Prop) [DecidablePred p] (v : α → Int) (l : List α)
    (h : ∀ x ∈ l, p x) : sumIf p v l = (l.map v).sum := by
  induction l with
  | nil => simp [sumIf_nil]
  | cons x rest ih =>
    rw [sumIf_cons, ih (fun y hy => h y (List.mem_cons_of_mem _ hy)),
      if_pos (h x (List.mem_cons_self _ _))]
    simp

theorem sumIf_none {α : Type} (p : α → Prop) [DecidablePred p] (v : α → Int) (l : List α)
    (h : ∀ x ∈ l, ¬ p x) : sumIf p v l = 0 := by
  induction l with
  | nil => simp [sumIf_nil]
  | cons x rest ih =>
    rw [sumIf_cons, ih (fun y hy => h y (List.mem_cons_of_mem _ hy)),
      if_neg (h x (List.mem_cons_self _ _))]
    simp

/-- Splitting off the elements that sit exactly at `k`. -/
theorem sumIf_lt_succ {α : Type} (f : α → Int) (g : α → Prop) [DecidablePred g]
    (v : α → Int) (l : List α) (k : Int) :
    sumIf (fun x => g x ∧ f x < k + 1) v l =
      sumIf (fun x => g x ∧ f x < k) v l + sumIf (fun x => g x ∧ f x = k) v l := by
  induction l with
  | nil => simp [sumIf_nil]
  | cons x rest ih =>
    rw [sumIf_cons, sumIf_cons, sumIf_cons, ih]
    by_cases hg : g x
    · by_cases h1 : f x < k
      · have h2 : f x < k + 1 := by omega
        have h3 : ¬ f x = k := by omega
        simp only [hg, h1, h2, h3, true_and, if_true, if_false]; omega
      · by_cases h3 : f x = k
        · have h2 : f x < k + 1 := by omega
          simp only [hg, h1, h2, h3, true_and, if_true, if_false]; omega
        · have h2 : ¬ f x < k + 1 := by omega
          simp only [hg, h1, h2, h3, true_and, if_false]; omega
    · simp only [hg, false_and, if_false]; omega

theorem sum_le_of_sumIf {α : Type} (p : α → Prop) [DecidablePred p] (v : α → Int)
    (l : List α) (h : ∀ x ∈ l, 0 ≤ v x) : sumIf p v l ≤ (l.map v).sum := by
  rw [← sumIf_all (fun _ => True) v l (fun _ _ => trivial)]
  exact sumIf_mono _ _ _ _ _ (fun _ _ _ => trivial) (fun _ _ _ => le_refl _) h

/-! ## The maps of `scoreSchedule` as sums -/

theorem parrivals_foldl_length (arrivals : List arrivalSample) (i : Nat) (k : Int) :
    ∀ p : Nat → Int → List Int,
      ((arrivals.foldl addPassengers p i k).length : Int) =
        (p i k).length +
          sumIf (fun a => stationIndex a.station = i ∧ a.minutes = k)
            (fun a => (a.arrivals.toNat : Int)) arrivals := by
  induction arrivals with
  | nil => intro p; simp [sumIf_nil]
  | cons a rest ih =>
    intro p
    rw [List.foldl_cons, ih, sumIf_cons]
    by_cases h : stationIndex a.station = i ∧ a.minutes = k
    · rw [if_pos h]
      obtain ⟨h1, h2⟩ := h
      subst h1 h2
      simp only [addPassengers, and_self, if_true, List.length_append,
        List.length_replicate]
      push_cast
      omega
    · have h1 : ¬ (i = stationIndex a.station ∧ k = a.minutes) :=
        fun hh => h ⟨hh.1.symm, hh.2.symm⟩
      rw [if_neg h]
      simp only [addPassengers, h1, if_false]
      omega

/-- The number of passengers that `parrivals` lists for a station and a
minute. -/
theorem parrivals_length (arrivals : List arrivalSample) (i : Nat) (k : Int) :
    ((parrivals arrivals i k).length : Int) =
      sumIf (fun a => stationIndex a.station = i ∧ a.minutes = k)
        (fun a => (a.arrivals.toNat : Int)) arrivals := by
  unfold parrivals
  rw [parrivals_foldl_length]
  simp

theorem parrivals_nil (arrivals : List arrivalSample) (i : Nat) (k : Int)
    (h : ∀ a ∈ arrivals, a.minutes ≠ k) : parrivals arrivals i k = [] := by
  have h1 := parrivals_length arrivals i k
  rw [sumIf_none _ _ _ (fun a ha hh => h a ha hh.2)] at h1
  exact List.length_eq_zero.mp (by omega)

theorem addTrain_apply (t : Nat → Int → Int) (e : scheduleEntry) (i : Nat) (hi : i < 3)
    (k : Int) :
    addTrain t e i k = t i k + (if boardTime i e = k then availCap i e else 0) := by
  have h : i = 0 ∨ i = 1 ∨ i = 2 := by omega
  rcases h with h | h | h <;> subst h <;>
    simp [addTrain, mapAdd, boardTime, availCap] <;>
    split_ifs <;> omega

theorem tarrivals_foldl (entries : List scheduleEntry) (i : Nat) (hi : i < 3) (k : Int) :
    ∀ t : Nat → Int → Int,
      entries.foldl addTrain t i k =
        t i k + sumIf (fun e => boardTime i e = k) (availCap i) entries := by
  induction entries with
  | nil => intro t; simp [sumIf_nil]
  | cons e rest ih =>
    intro t
    rw [List.foldl_cons, ih, sumIf_cons, addTrain_apply t e i hi]
    omega

/-- The capacity that `tarrivals` records for a station and a minute. -/
theorem tarrivals_eq (entries : List scheduleEntry) (i : Nat) (hi : i < 3) (k : Int) :
    tarrivals entries i k = sumIf (fun e => boardTime i e = k) (availCap i) entries := by
  unfold tarrivals
  rw [tarrivals_foldl entries i hi]
  simp

theorem tarrivals_out (entries : List scheduleEntry) (i : Nat) (hi : 3 ≤ i) (k : Int) :
    tarrivals entries i k = 0 := by
  unfold tarrivals
  have h : ∀ t : Nat → Int → Int, entries.foldl addTrain t i k = t i k := by
    induction entries with
    | nil => intro t; rfl
    | cons e rest ih =>
      intro t
      rw [List.foldl_cons, ih]
      have h0 : ¬ i = 0 := by omega
      have h1 : ¬ i = 1 := by omega
      have h2 : ¬ i = 2 := by omega
      simp [addTrain, mapAdd, h0, h1, h2]
  rw [h]

end Rail

namespace Rail

/-! ## Passengers boarded by `generateSchedule` never outnumber the arrivals -/

theorem stationIndex_lt (s : String) : stationIndex s < 3 := by
  unfold stationIndex
  split_ifs <;> omega

theorem scheduleStep_diffs (pa pd : stationDiffs) (j : Nat) (d : departure) (i : Nat)
    (hi : i < 3) :
    (((scheduleStep pa pd j d).1 i).map (fun e => e.diff)).sum =
      ((pd i).map (fun e => e.diff)).sum - boarding i (scheduleStep pa pd j d).2 := by
  have h : i = 0 ∨ i = 1 ∨ i = 2 := by omega
  rcases h with h | h | h <;> subst h <;>
    simp [scheduleStep, appendDiff, stationIndex_A, stationIndex_B, stationIndex_C, boarding] <;>
    omega

theorem scheduleStep_boardTime (pa pd : stationDiffs) (j : Nat) (d : departure) (i : Nat)
    (hi : i < 3) :
    d.timestamp + lookupOffset i ≤ boardTime i (scheduleStep pa pd j d).2 := by
  have h : i = 0 ∨ i = 1 ∨ i = 2 := by omega
  rcases h with h | h | h <;> subst h <;>
    simp [scheduleStep, boardTime, lookupOffset, delay, AB, BC] <;> omega

theorem scheduleStep_availCap_nonneg (pa pd : stationDiffs) (j : Nat) (d : departure)
    (i : Nat) : 0 ≤ availCap i (scheduleStep pa pd j d).2 := by
  have hc := trainCapacity_nonneg d.ttype
  have h1 := min_le_left (trainCapacity d.ttype) (numPeople pa pd "A" (d.timestamp + delay))
  have h2 := min_le_left (trainCapacity d.ttype -
      min (trainCapacity d.ttype) (numPeople pa pd "A" (d.timestamp + delay)))
    (numPeople pa (appendDiff pd (stationIndex "A") ⟨d.timestamp + delay,
      -(min (trainCapacity d.ttype) (numPeople pa pd "A" (d.timestamp + delay)))⟩) "B"
      (d.timestamp + delay + AB))
  simp only [scheduleStep, availCap]
  split_ifs <;> omega

theorem scheduleStep_boarding_le (pa pd : stationDiffs) (j : Nat) (d : departure)
    (i : Nat) :
    boarding i (scheduleStep pa pd j d).2 ≤ availCap i (scheduleStep pa pd j d).2 := by
  simp only [scheduleStep, availCap, boarding]
  split_ifs <;> exact min_le_left _ _

theorem readyAt_station {pa pd : stationDiffs} {ts : Int} (h : readyAt pa pd ts) (i : Nat)
    (hi : i < 3) : stationInv pa pd i (ts + lookupOffset i) := by
  have h3 : i = 0 ∨ i = 1 ∨ i = 2 := by omega
  rcases h3 with h3 | h3 | h3 <;> subst h3
  · exact h.1
  · exact h.2.1
  · exact h.2.2

theorem entryOk_boarding_nonneg {e : scheduleEntry} (h : entryOk e) (i : Nat) :
    0 ≤ boarding i e := by
  obtain ⟨_, h2, _, h4, _, h6, _, _⟩ := h
  unfold boarding
  split_ifs <;> omega

/-- The passengers boarded at station `i` by the trains that board no later
than `T`, counted from any point of the main loop on. -/
theorem scheduleLoop_boarded (pa : stationDiffs) (hpa : ∀ idx, ∀ e ∈ pa idx, 0 ≤ e.diff)
    (i : Nat) (hi : i < 3) (T : Int) (ds : List departure) (hs : ds.Pairwise byTimestamp) :
    ∀ (i0 : Nat) (pd : stationDiffs), (∀ d ∈ ds, readyAt pa pd d.timestamp) →
      sumIf (fun e => boardTime i e ≤ T) (boarding i) (scheduleLoop pa i0 pd ds) = 0 ∨
      sumIf (fun e => boardTime i e ≤ T) (boarding i) (scheduleLoop pa i0 pd ds) ≤
        sumUntil T 0 (pa i) + ((pd i).map (fun e => e.diff)).sum := by
  induction ds with
  | nil => intro i0 pd _; left; rfl
  | cons d rest ih =>
    intro i0 pd hr
    obtain ⟨hok, hnext⟩ := scheduleStep_ok pa pd hpa i0 d (hr d (List.mem_cons_self _ _))
    rw [List.pairwise_cons] at hs
    have hih := ih hs.2 (i0 + 1) (scheduleStep pa pd i0 d).1
      (fun d1 hd1 => hnext _ (hs.1 d1 hd1))
    have hdiff := scheduleStep_diffs pa pd i0 d i hi
    have hb := entryOk_boarding_nonneg hok i
    have hinv := (readyAt_station (hnext d.timestamp (le_refl _)) i hi).2
    have hbt := scheduleStep_boardTime pa pd i0 d i hi
    simp only [scheduleLoop, sumIf_cons]
    by_cases hT : boardTime i (scheduleStep pa pd i0 d).2 ≤ T
    · rw [if_pos hT]
      right
      have h1 := hinv T (by omega)
      rcases hih with h0 | h0 <;> omega
    · rw [if_neg hT]
      rcases hih with h0 | h0
      · left; omega
      · right; omega

theorem sumUntil_le_arrived (arrivals : List arrivalSample)
    (hcount : ∀ a ∈ arrivals, 0 ≤ a.arrivals) (i : Nat) (T : Int) :
    sumUntil T 0 (buildArrivals arrivals i) ≤
      sumIf (fun a => stationIndex a.station = i ∧ a.minutes ≤ T) (fun a => a.arrivals)
        arrivals := by
  rw [buildArrivals_eq]
  induction arrivals with
  | nil => simp [sumUntil, sumIf_nil]
  | cons a rest ih =>
    have h1 := ih (fun b hb => hcount b (List.mem_cons_of_mem _ hb))
    have h2 := hcount a (List.mem_cons_self _ _)
    have h3 := sumIf_nonneg (fun a => stationIndex a.station = i ∧ a.minutes ≤ T)
      (fun a => a.arrivals) rest (fun b hb => hcount b (List.mem_cons_of_mem _ hb))
    rw [sumIf_cons]
    by_cases hidx : stationIndex a.station = i
    · simp only [List.filter_cons, hidx, decide_True, if_true, List.map_cons, sumUntil,
        true_and]
      by_cases hm : a.minutes > T
      · rw [if_pos hm, if_neg (by omega)]; omega
      · rw [if_neg hm, if_pos (by omega), sumUntil_acc]
        simp only [hidx, decide_True] at h1
        omega
    · simp only [List.filter_cons, hidx, decide_False, Bool.false_eq_true, if_false,
        false_and]
      omega

/-- Conservation by time: the passengers boarded at a station by the trains
that board there no later than `T` are at most the passengers of the samples
of that station with a minute no later than `T`. -/
theorem boarded_le_arrived (arrivals : List arrivalSample) (departures : List departure)
    (hcount : ∀ a ∈ arrivals, 0 ≤ a.arrivals) (hsorted : departures.Pairwise byTimestamp)
    (i : Nat) (hi : i < 3) (T : Int) :
    sumIf (fun e => boardTime i e ≤ T) (boarding i) (generateSchedule arrivals departures) ≤
      sumIf (fun a => stationIndex a.station = i ∧ a.minutes ≤ T) (fun a => a.arrivals)
        arrivals := by
  have hpa := buildArrivals_nonneg arrivals hcount
  have h1 := scheduleLoop_boarded (buildArrivals arrivals) hpa i hi T departures hsorted 0
    (fun _ => []) (fun d _ => readyAt_init _ hpa d.timestamp)
  have h2 := sumUntil_le_arrived arrivals hcount i T
  have h3 := sumUntil_nonneg T (buildArrivals arrivals i) (hpa i)
  unfold generateSchedule
  simp only [List.map_nil, List.sum_nil, add_zero] at h1
  rcases h1 with h1 | h1 <;> omega

end Rail

namespace Rail

/-! ## Termination of the minute loop -/

theorem stationRun_length_succ (arr : Int → List Int) (cap : Int → Int) (k : Nat) :
    (((stationRun arr cap (k + 1)).1.length : Nat) : Int) =
      ((stationRun arr cap k).1.length : Int) + ((arr k).length : Int) -
        ((min (cap k) (((stationRun arr cap k).1 ++ arr k).length : Int)).toNat : Int) := by
  have h := min_toNat_le (cap k) ((stationRun arr cap k).1 ++ arr k).length
  rw [stationRun]
  simp only [List.length_drop, List.length_append] at h ⊢
  omega

/-- A queue is no longer than the arrivals `As` exceed the boardings `Gs`
that the capacities allow for. -/
theorem stationRun_drained (arr : Int → List Int) (cap : Int → Int) (As Gs : Nat → Int)
    (h0 : Gs 0 ≤ As 0)
    (hA : ∀ k : Nat, As (k + 1) = As k + ((arr k).length : Int))
    (hG : ∀ k : Nat, Gs (k + 1) ≤ Gs k + cap k)
    (hGA : ∀ k : Nat, Gs (k + 1) ≤ As (k + 1)) :
    ∀ k : Nat, ((stationRun arr cap k).1.length : Int) + Gs k ≤ As k := by
  intro k
  induction k with
  | zero => simpa [stationRun] using h0
  | succ k ih =>
    rw [stationRun_length_succ]
    have h1 := hA k
    have h2 := hG k
    have h3 := hGA k
    simp only [List.length_append, Nat.cast_add]
    unfold min
    split <;> omega

theorem exists_bound {α : Type} (f : α → Int) (l : List α) :
    ∃ M : Nat, ∀ x ∈ l, f x < M := by
  induction l with
  | nil => exact ⟨0, fun x hx => by simp at hx⟩
  | cons a rest ih =>
    obtain ⟨M, hM⟩ := ih
    refine ⟨M + (f a).toNat + 1, ?_⟩
    intro x hx
    simp only [List.mem_cons] at hx
    rcases hx with hx | hx
    · subst hx; push_cast; omega
    · have := hM x hx; push_cast; omega

theorem offload_sum (l : List scheduleEntry)
    (h : ∀ e ∈ l, e.UOffloading = e.ABoarding + e.BBoarding + e.CBoarding) :
    (l.map (fun e => e.UOffloading)).sum =
      (l.map (boarding 0)).sum + (l.map (boarding 1)).sum + (l.map (boarding 2)).sum := by
  induction l with
  | nil => simp
  | cons e rest ih =>
    have h1 := h e (List.mem_cons_self _ _)
    have h2 := ih (fun x hx => h x (List.mem_cons_of_mem _ hx))
    simp only [List.map_cons, List.sum_cons, boarding] at h2 ⊢
    simp only [OfNat.ofNat_ne_zero, OfNat.one_ne_ofNat, one_ne_zero, if_true, if_false] at h2 ⊢
    omega

theorem arrivals_sum (arrivals : List arrivalSample) :
    (arrivals.map (fun a => a.arrivals)).sum =
      sumIf (fun a => stationIndex a.station = 0) (fun a => a.arrivals) arrivals +
      sumIf (fun a => stationIndex a.station = 1) (fun a => a.arrivals) arrivals +
      sumIf (fun a => stationIndex a.station = 2) (fun a => a.arrivals) arrivals := by
  induction arrivals with
  | nil => simp [sumIf_nil]
  | cons a rest ih =>
    simp only [List.map_cons, List.sum_cons, sumIf_cons, ih]
    have h := stationIndex_lt a.station
    have h3 : stationIndex a.station = 0 ∨ stationIndex a.station = 1 ∨
        stationIndex a.station = 2 := by omega
    rcases h3 with h3 | h3 | h3 <;> simp [h3] <;> omega

theorem generateSchedule_availCap_nonneg (arrivals : List arrivalSample)
    (departures : List departure) (i : Nat) :
    ∀ e ∈ generateSchedule arrivals departures, 0 ≤ availCap i e := by
  intro e he
  obtain ⟨pd1, j, d, _, rfl⟩ := scheduleLoop_mem _ _ _ _ _ he
  exact scheduleStep_availCap_nonneg _ _ _ _ _

theorem generateSchedule_boarding_le (arrivals : List arrivalSample)
    (departures : List departure) (i : Nat) :
    ∀ e ∈ generateSchedule arrivals departures, boarding i e ≤ availCap i e := by
  intro e he
  obtain ⟨pd1, j, d, _, rfl⟩ := scheduleLoop_mem _ _ _ _ _ he
  exact scheduleStep_boarding_le _ _ _ _ _

/-- The capacities recorded in `tarrivals` for a generated schedule are never
negative, so the slice bounds of the minute loop are in range. -/
theorem tarrivals_nonneg (arrivals : List arrivalSample) (departures : List departure)
    (i : Nat) (k : Int) : 0 ≤ tarrivals (generateSchedule arrivals departures) i k := by
  by_cases hi : i < 3
  · rw [tarrivals_eq _ i hi]
    exact sumIf_nonneg _ _ _ (generateSchedule_availCap_nonneg arrivals departures i)
  · rw [tarrivals_out _ i (by omega)]

/-- Before any minute `T`, the trains have been planned to board no more
passengers at a station than have arrived there. -/
theorem boarded_before (arrivals : List arrivalSample) (departures : List departure)
    (hcount : ∀ a ∈ arrivals, 0 ≤ a.arrivals) (hsorted : departures.Pairwise byTimestamp)
    (i : Nat) (hi : i < 3) (T : Int) :
    sumIf (fun e => True ∧ boardTime i e < T) (boarding i)
        (generateSchedule arrivals departures) ≤
      sumIf (fun a => stationIndex a.station = i ∧ a.minutes < T) (fun a => a.arrivals)
        arrivals := by
  have h := boarded_le_arrived arrivals departures hcount hsorted i hi (T - 1)
  have e1 : sumIf (fun e => True ∧ boardTime i e < T) (boarding i)
        (generateSchedule arrivals departures) =
      sumIf (fun e => boardTime i e ≤ T - 1) (boarding i)
        (generateSchedule arrivals departures) :=
    sumIf_congr _ _ _ _ _
      (fun e _ => ⟨fun h => by have := h.2; omega, fun h => ⟨trivial, by omega⟩⟩)
      (fun _ _ _ => rfl)
  have e2 : sumIf (fun a => stationIndex a.station = i ∧ a.minutes < T)
        (fun a => a.arrivals) arrivals =
      sumIf (fun a => stationIndex a.station = i ∧ a.minutes ≤ T - 1)
        (fun a => a.arrivals) arrivals :=
    sumIf_congr _ _ _ _ _
      (fun a _ => ⟨fun h => ⟨h.1, by have := h.2; omega⟩, fun h => ⟨h.1, by have := h.2; omega⟩⟩)
      (fun _ _ _ => rfl)
  rw [e1, e2]
  exact h

/-- The queue of a station is empty at any minute after the last train and
the last sample, when the trains take all the passengers of that station. -/
theorem station_queue_empty (arrivals : List arrivalSample) (departures : List departure)
    (hcount : ∀ a ∈ arrivals, 0 ≤ a.arrivals) (hsorted : departures.Pairwise byTimestamp)
    (i : Nat) (hi : i < 3) (K : Nat)
    (hK1 : ∀ e ∈ generateSchedule arrivals departures, boardTime i e < K)
    (hall : sumIf (fun a => stationIndex a.station = i) (fun a => a.arrivals) arrivals ≤
      ((generateSchedule arrivals departures).map (boarding i)).sum) :
    (stationRun (parrivals arrivals i) (tarrivals (generateSchedule arrivals departures) i)
      K).1 = [] := by
  have h := stationRun_drained (parrivals arrivals i)
    (tarrivals (generateSchedule arrivals departures) i)
    (fun k => sumIf (fun a => stationIndex a.station = i ∧ a.minutes < (k : Int))
      (fun a => a.arrivals) arrivals)
    (fun k => sumIf (fun e => True ∧ boardTime i e < (k : Int)) (boarding i)
      (generateSchedule arrivals departures))
    (boarded_before arrivals departures hcount hsorted i hi _)
    (fun k => by
      have e1 : sumIf (fun a => stationIndex a.station = i ∧ a.minutes < (k : Int) + 1)
            (fun a => a.arrivals) arrivals =
          sumIf (fun a => stationIndex a.station = i ∧ a.minutes < (k : Int))
            (fun a => a.arrivals) arrivals +
          sumIf (fun a => stationIndex a.station = i ∧ a.minutes = (k : Int))
            (fun a => a.arrivals) arrivals :=
        sumIf_lt_succ (fun a : arrivalSample => a.minutes)
          (fun a : arrivalSample => stationIndex a.station = i) _ _ _
      have e2 : sumIf (fun a => stationIndex a.station = i ∧ a.minutes = (k : Int))
            (fun a => a.arrivals) arrivals =
          sumIf (fun a => stationIndex a.station = i ∧ a.minutes = (k : Int))
            (fun a => (a.arrivals.toNat : Int)) arrivals :=
        sumIf_congr _ _ _ _ _ (fun _ _ => Iff.rfl)
          (fun a ha _ => (Int.toNat_of_nonneg (hcount a ha)).symm)
      simp only [Nat.cast_add, Nat.cast_one]
      rw [e1, e2, parrivals_length])
    (fun k => by
      have e1 : sumIf (fun e => True ∧ boardTime i e < (k : Int) + 1) (boarding i)
            (generateSchedule arrivals departures) =
          sumIf (fun e => True ∧ boardTime i e < (k : Int)) (boarding i)
            (generateSchedule arrivals departures) +
          sumIf (fun e => True ∧ boardTime i e = (k : Int)) (boarding i)
            (generateSchedule arrivals departures) :=
        sumIf_lt_succ (fun e : scheduleEntry => boardTime i e) (fun _ => True) _ _ _
      have e2 := sumIf_mono (fun e => True ∧ boardTime i e = (k : Int))
        (fun e => boardTime i e = (k : Int)) (boarding i) (availCap i)
        (generateSchedule arrivals departures) (fun _ _ h => h.2)
        (fun e he _ => generateSchedule_boarding_le arrivals departures i e he)
        (generateSchedule_availCap_nonneg arrivals departures i)
      simp only [Nat.cast_add, Nat.cast_one]
      rw [e1, tarrivals_eq _ i hi]
      omega)
    (fun k => boarded_before arrivals departures hcount hsorted i hi _)
    K
  simp only at h
  rw [sumIf_all _ _ _ (fun e he => ⟨trivial, hK1 e he⟩)] at h
  have h2 := sumIf_mono (fun a => stationIndex a.station = i ∧ a.minutes < (K : Int))
    (fun a => stationIndex a.station = i) (fun a => a.arrivals) (fun a => a.arrivals)
    arrivals (fun _ _ h => h.1) (fun _ _ _ => le_refl _) hcount
  exact List.length_eq_zero.mp (by omega)

/-- Conservation per station: the trains board at most the passengers that
arrive at the station. -/
theorem boarding_le_station (arrivals : List arrivalSample) (departures : List departure)
    (hcount : ∀ a ∈ arrivals, 0 ≤ a.arrivals) (hsorted : departures.Pairwise byTimestamp)
    (i : Nat) (hi : i < 3) :
    ((generateSchedule arrivals departures).map (boarding i)).sum ≤
      sumIf (fun a => stationIndex a.station = i) (fun a => a.arrivals) arrivals := by
  obtain ⟨M, hM⟩ := exists_bound (boardTime i) (generateSchedule arrivals departures)
  have h := boarded_before arrivals departures hcount hsorted i hi M
  rw [sumIf_all _ _ _ (fun e he => ⟨trivial, hM e he⟩)] at h
  have h2 := sumIf_mono (fun a => stationIndex a.station = i ∧ a.minutes < (M : Int))
    (fun a => stationIndex a.station = i) (fun a => a.arrivals) (fun a => a.arrivals)
    arrivals (fun _ _ h => h.1) (fun _ _ _ => le_refl _) hcount
  omega

/-- The minute loop ends on the schedule generated for sorted departures and
non-negative counts whenever the trains offload at least the arrivals. -/
theorem scoreSchedule_returns (arrivals : List arrivalSample) (departures : List departure)
    (hcount : ∀ a ∈ arrivals, 0 ≤ a.arrivals) (hsorted : departures.Pairwise byTimestamp)
    (hoff : (arrivals.map (fun a => a.arrivals)).sum ≤
      ((generateSchedule arrivals departures).map (fun e => e.UOffloading)).sum) :
    ∃ fuel0 s, ∀ fuel, fuel0 ≤ fuel →
      scoreSchedule fuel arrivals (generateSchedule arrivals departures) = some s := by
  have hsum := offload_sum (generateSchedule arrivals departures) (fun e he => by
    obtain ⟨pd1, j, d, _, rfl⟩ := scheduleLoop_mem _ _ _ _ _ he
    exact (scheduleStep_offloading _ _ _ _).1)
  have harr := arrivals_sum arrivals
  have hb0 := boarding_le_station arrivals departures hcount hsorted 0 (by omega)
  have hb1 := boarding_le_station arrivals departures hcount hsorted 1 (by omega)
  have hb2 := boarding_le_station arrivals departures hcount hsorted 2 (by omega)
  obtain ⟨M0, hM0⟩ := exists_bound (boardTime 0) (generateSchedule arrivals departures)
  obtain ⟨M1, hM1⟩ := exists_bound (boardTime 1) (generateSchedule arrivals departures)
  obtain ⟨M2, hM2⟩ := exists_bound (boardTime 2) (generateSchedule arrivals departures)
  have hq : ∀ i, i < 3 → (∀ e ∈ generateSchedule arrivals departures,
        boardTime i e < ((180 + M0 + M1 + M2 : Nat) : Int)) →
      sumIf (fun a => stationIndex a.station = i) (fun a => a.arrivals) arrivals ≤
        ((generateSchedule arrivals departures).map (boarding i)).sum →
      (stationRun (parrivals arrivals i) (tarrivals (generateSchedule arrivals departures) i)
        (180 + M0 + M1 + M2)).1 = [] := fun i hi hK1 hall =>
    station_queue_empty arrivals departures hcount hsorted i hi _ hK1 hall
  have hq0 := hq 0 (by omega) (fun e he => by have := hM0 e he; push_cast; omega) (by omega)
  have hq1 := hq 1 (by omega) (fun e he => by have := hM1 e he; push_cast; omega) (by omega)
  have hq2 := hq 2 (by omega) (fun e he => by have := hM2 e he; push_cast; omega) (by omega)
  have hiter := scoreIter_stations (parrivals arrivals)
    (tarrivals (generateSchedule arrivals departures))
    (tarrivals_nonneg arrivals departures) (180 + M0 + M1 + M2)
  obtain ⟨s1, _, hs1⟩ := scoreLoop_exit _ _ _ scoreInit _ hiter (by
    simp only [scoreCond, hq0, hq1, hq2]
    simp; omega)
  exact ⟨_, floatDiv s1.sum s1.count, fun fuel hfuel => by
    unfold scoreSchedule; rw [hs1 fuel hfuel]; rfl⟩

end Rail

namespace Rail

/-! ## Samples that arrive at or after minute 180 -/

/-- When every sample arrives at minute 180 or later, the minute loop stops at
minute 180 with empty queues and nobody boarded: the score is `0/0`. -/
theorem scoreSchedule_late (arrivals : List arrivalSample) (departures : List departure)
    (hlate : ∀ a ∈ arrivals, 180 ≤ a.minutes) (fuel : Nat) :
    scoreSchedule fuel arrivals (generateSchedule arrivals departures) =
      if fuel < 180 then none else some scoreValue.nan := by
  have hq : ∀ i, ∀ j, j ≤ 180 →
      stationRun (parrivals arrivals i) (tarrivals (generateSchedule arrivals departures) i) j =
        ([], 0, 0) := fun i j hj =>
    stationRun_quiet_range _ _ 0 rfl j (Nat.zero_le _)
      (fun k _ hk => parrivals_nil arrivals i k
        (fun a ha => by have := hlate a ha; omega))
  have hiter := scoreIter_stations (parrivals arrivals)
    (tarrivals (generateSchedule arrivals departures)) (tarrivals_nonneg arrivals departures)
  have hcond : ∀ j sj, j < 180 → scoreIter (parrivals arrivals)
      (tarrivals (generateSchedule arrivals departures)) j scoreInit = some sj →
      scoreCond sj = true := by
    intro j sj hj hsj
    rw [hiter j] at hsj
    simp only [Option.some.injEq] at hsj
    rw [← hsj]
    simp only [scoreCond, Bool.or_eq_true, decide_eq_true_eq]
    left; left; left; omega
  unfold scoreSchedule
  by_cases hf : fuel < 180
  · rw [if_pos hf, scoreLoop_none _ _ fuel scoreInit (fun j hj =>
      ⟨_, hiter j, hcond j _ (by omega) (hiter j)⟩)]
    rfl
  · rw [if_neg hf, scoreLoop_exact _ _ 180 scoreInit _ (hiter 180) (by
      simp [hq _ 180 (le_refl _), scoreCond]) hcond fuel (by omega)]
    simp only [Option.map_some', hq _ 180 (le_refl _)]
    rfl

/-- The one train at minute 42046 and the 399 passengers of minute 0: the loop
runs for 42050 minutes and the quotient of the rounded sum is returned. -/
theorem single_rounded (fuel : Nat) :
    scoreSchedule fuel [⟨"A", 0, 399⟩]
        (generateSchedule [⟨"A", 0, 399⟩] [⟨trainTypeL8, 42046⟩]) =
      if fuel < 42050 then none else some (scoreValue.real (10764545 / 256)) := by
  rw [single_schedule 0 399 42046 trainTypeL8 (by decide) (by decide)]
  have h := single_loop 0 42049 399
    { TrainNum := 1, TrainType := trainTypeL8,
      AArrivalTime := 42046, AAvailCap := trainCapacity trainTypeL8, ABoarding := 399,
      BArrivalTime := 42046 + 3 + 8, BAvailCap := trainCapacity trainTypeL8 - 399,
      BBoarding := 0,
      CArrivalTime := 42046 + 3 + 8 + 3 + 9, CAvailCap := trainCapacity trainTypeL8 - 399 - 0,
      CBoarding := 0,
      UArrivalTime := 42046 + 3 + 8 + 3 + 9 + 3 + 11,
      UAvailCap := trainCapacity trainTypeL8 - 399 - 0 - 0, UOffloading := 399 + 0 + 0 }
    (by decide) (by decide) (by decide) (by decide) (by decide) (by decide) (by decide)
    42050 (by decide) (by decide) (by decide) fuel
  have e : ((399 : Nat) : Int) * (((42049 : Nat) : Int) - ((0 : Nat) : Int)) = 16777551 := by
    decide
  rw [e] at h
  rw [← floatDiv_rounds]
  exact h

/-- C3 as stated fails in two ways. A sample at minute 180: with (A, minute
180, count 50) and one `L8` train at minute 180 all premises of the claim hold,
the train boards the 50 passengers, but `scoreSchedule` returns `0/0` and, for
no fuel, the value `180 + 3 - 180`. A sum of waits that is not a `float32`
value: with (A, minute 0, count 399) and one `L8` train at minute 42046 all
premises hold, the train boards the 399 passengers, the sum `399 * 42049` is
converted to 16777552 and `scoreSchedule` returns `10764545 / 256`, which is
42049.00390625, and for no fuel the value `42046 + 3 - 0`. -/
theorem single_train_late :
    ((0 : Int) ≤ 180 ∧ (1 : Int) ≤ 50 ∧ (50 : Int) ≤ trainCapacity trainTypeL8 ∧
      (180 : Int) + 3 ≥ 180) ∧
    (generateSchedule [⟨"A", 180, 50⟩] [⟨trainTypeL8, 180⟩]).map (fun e => e.ABoarding) = [50] ∧
    scoreSchedule 180 [⟨"A", 180, 50⟩]
      (generateSchedule [⟨"A", 180, 50⟩] [⟨trainTypeL8, 180⟩]) = some scoreValue.nan ∧
    (¬ ∃ fuel, scoreSchedule fuel [⟨"A", 180, 50⟩]
      (generateSchedule [⟨"A", 180, 50⟩] [⟨trainTypeL8, 180⟩]) =
        some (scoreValue.real (((180 + 3 - 180 : Int) : ℚ)))) ∧
    ((0 : Int) ≤ 0 ∧ (1 : Int) ≤ 399 ∧ (399 : Int) ≤ trainCapacity trainTypeL8 ∧
      (42046 : Int) + 3 ≥ 0) ∧
    (generateSchedule [⟨"A", 0, 399⟩] [⟨trainTypeL8, 42046⟩]).map (fun e => e.ABoarding) =
      [399] ∧
    (∀ fuel, scoreSchedule (42050 + fuel) [⟨"A", 0, 399⟩]
      (generateSchedule [⟨"A", 0, 399⟩] [⟨trainTypeL8, 42046⟩]) =
        some (scoreValue.real (10764545 / 256))) ∧
    ¬ ∃ fuel, scoreSchedule fuel [⟨"A", 0, 399⟩]
      (generateSchedule [⟨"A", 0, 399⟩] [⟨trainTypeL8, 42046⟩]) =
        some (scoreValue.real (((42046 + 3 - 0 : Int) : ℚ))) := by
  have h := scoreSchedule_late [⟨"A", 180, 50⟩] [⟨trainTypeL8, 180⟩]
    (fun a ha => by simp only [List.mem_singleton] at ha; rw [ha])
  refine ⟨by decide, by decide, by rw [h 180]; rfl, ?_, by decide, by decide, ?_, ?_⟩
  · rintro ⟨fuel, hf⟩
    rw [h fuel] at hf
    split at hf <;> simp at hf
  · intro fuel
    rw [single_rounded, if_neg (by omega)]
  · rintro ⟨fuel, hf⟩
    rw [single_rounded] at hf
    split at hf
    · simp at hf
    · simp only [Option.some.injEq, scoreValue.real.injEq] at hf
      norm_num at hf

/-! ## `Evaluate` on feasible genomes -/

theorem pairwise_of_steps (l : List departure)
    (h : ∀ i, i + 1 < l.length →
      (l.getD i zeroDeparture).timestamp ≤ (l.getD (i + 1) zeroDeparture).timestamp) :
    l.Pairwise byTimestamp := by
  induction l with
  | nil => exact List.Pairwise.nil
  | cons a rest ih =>
    have hrest : rest.Pairwise byTimestamp := by
      apply ih
      intro i hi
      have := h (i + 1) (by simp only [List.length_cons]; omega)
      simpa using this
    refine List.Pairwise.cons ?_ hrest
    intro c hc
    cases rest with
    | nil => simp at hc
    | cons b rest1 =>
      have hab : a.timestamp ≤ b.timestamp := by
        have := h 0 (by simp)
        simpa using this
      simp only [List.mem_cons] at hc
      rcases hc with hc | hc
      · rw [hc]; exact hab
      · exact le_trans hab ((List.pairwise_cons.mp hrest).1 c hc)

theorem timingOk_sorted (l : List departure) (hlen : l.length = 16) (h : timingOk l) :
    l.Pairwise byTimestamp := by
  apply pairwise_of_steps
  intro i hi
  have := h.2.2 i (by omega)
  omega

/-- Under the four feasibility conditions `Evaluate` runs `scoreSchedule` on the
generated schedule and converts its result. -/
theorem Evaluate_eq_score (ds : departureSchedule) (hlen : ds.departures.length = 16)
    (ht : timingOk ds.departures) (ho : offloadOk ds) (fuel : Nat) :
    Evaluate fuel ds =
      (scoreSchedule fuel ds.arrivals (generateSchedule ds.arrivals ds.departures)).map
        (fun s => (fitness.ofScore s, none)) := by
  obtain ⟨h1, h2, h3⟩ := ht
  have hv : ¬ headwayViolated ds.departures = true := by
    rw [headwayViolated_iff]
    rintro ⟨i, hi, hlt⟩
    have := h3 i hi
    omega
  unfold offloadOk at ho
  rw [Evaluate_eq fuel ds (by omega), if_neg (by omega), if_neg (by omega), if_neg hv,
    if_neg (by omega)]

/-- The amended C6. For a genome with 16 departures: if the arrival counts are
non-negative and the four feasibility conditions hold, `Evaluate` returns the
value of `scoreSchedule` on the generated schedule with a nil error, for every
fuel from some point on; for any counts, under the four conditions `Evaluate`
gives what `scoreSchedule` gives at the same fuel; and whenever `Evaluate`
returns a value other than `maxScore`, the four conditions hold. -/
theorem Evaluate_feasible (ds : departureSchedule) (hlen : ds.departures.length = 16) :
    ((∀ a ∈ ds.arrivals, 0 ≤ a.arrivals) → timingOk ds.departures → offloadOk ds →
      ∃ fuel0 s, ∀ fuel, fuel0 ≤ fuel →
        scoreSchedule fuel ds.arrivals (generateSchedule ds.arrivals ds.departures) = some s ∧
        Evaluate fuel ds = some (fitness.ofScore s, none)) ∧
    (timingOk ds.departures → offloadOk ds → ∀ fuel,
      Evaluate fuel ds =
        (scoreSchedule fuel ds.arrivals (generateSchedule ds.arrivals ds.departures)).map
          (fun s => (fitness.ofScore s, none))) ∧
    (∀ fuel v err, Evaluate fuel ds = some (v, err) → v ≠ maxScore →
      timingOk ds.departures ∧ offloadOk ds) := by
  have heq : timingOk ds.departures → offloadOk ds → ∀ fuel,
      Evaluate fuel ds =
        (scoreSchedule fuel ds.arrivals (generateSchedule ds.arrivals ds.departures)).map
          (fun s => (fitness.ofScore s, none)) :=
    fun ht ho fuel => Evaluate_eq_score ds hlen ht ho fuel
  refine ⟨?_, heq, ?_⟩
  · intro hcount ht ho
    obtain ⟨fuel0, s, hs⟩ := scoreSchedule_returns ds.arrivals ds.departures hcount
      (timingOk_sorted ds.departures hlen ht) ho
    refine ⟨fuel0, s, fun fuel hfuel => ⟨hs fuel hfuel, ?_⟩⟩
    rw [heq ht ho fuel, hs fuel hfuel]
    rfl
  · intro fuel v err h hv
    rw [Evaluate_eq fuel ds (by omega)] at h
    have hne : some (v, err) ≠ some (maxScore, (none : Option String)) := by
      intro hh
      simp only [Option.some.injEq, Prod.mk.injEq] at hh
      exact hv hh.1
    by_cases c1 : (ds.departures.getD 0 zeroDeparture).timestamp < 0
    · rw [if_pos c1] at h; exact absurd h.symm hne
    · rw [if_neg c1] at h
      by_cases c2 : (ds.departures.getD 15 zeroDeparture).timestamp > 180
      · rw [if_pos c2] at h; exact absurd h.symm hne
      · rw [if_neg c2] at h
        by_cases c3 : headwayViolated ds.departures = true
        · rw [if_pos c3] at h; exact absurd h.symm hne
        · rw [if_neg c3] at h
          by_cases c4 : ((generateSchedule ds.arrivals ds.departures).map
              (fun e => e.UOffloading)).sum < (ds.arrivals.map (fun a => a.arrivals)).sum
          · rw [if_pos c4] at h; exact absurd h.symm hne
          · refine ⟨⟨by omega, by omega, ?_⟩, by unfold offloadOk; omega⟩
            intro i hi
            by_contra hlt
            exact c3 ((headwayViolated_iff _).mpr ⟨i, hi, by omega⟩)

/-- The amended C6 at the template timetable with the sample arrivals. -/
theorem Evaluate_feasible_witness :
    ((genomeMachine exampleArrivals).departures.length = 16 ∧
      (∀ a ∈ (genomeMachine exampleArrivals).arrivals, 0 ≤ a.arrivals) ∧
      timingOk (genomeMachine exampleArrivals).departures ∧
      offloadOk (genomeMachine exampleArrivals)) ∧
    ∃ fuel0 s, ∀ fuel, fuel0 ≤ fuel →
      scoreSchedule fuel (genomeMachine exampleArrivals).arrivals
        (generateSchedule (genomeMachine exampleArrivals).arrivals
          (genomeMachine exampleArrivals).departures) = some s ∧
      Evaluate fuel (genomeMachine exampleArrivals) = some (fitness.ofScore s, none) :=
  ⟨⟨by decide, by decide, by decide, by decide⟩,
    (Evaluate_feasible (genomeMachine exampleArrivals) (by decide)).1 (by decide) (by decide)
      (by decide)⟩

/-! ## A feasible genome on which `Evaluate` does not return -/

theorem loopGenome_tar (k : Nat) (hk : 179 ≤ k) :
    tarrivals (generateSchedule loopGenome.arrivals loopGenome.departures) 0 k = 0 := by
  rw [tarrivals_eq _ 0 (by omega)]
  apply sumIf_none
  intro e he
  obtain ⟨pd1, j, d, hd, rfl⟩ := scheduleLoop_mem _ _ _ _ _ he
  have hd45 : ∀ d ∈ loopGenome.departures, d.timestamp ≤ 45 := by decide
  have := hd45 d hd
  simp only [boardTime, scheduleStep, delay, if_true]
  omega

theorem loopGenome_queue :
    ∀ j : Nat, 180 ≤ j →
      5 ≤ (stationRun (parrivals loopGenome.arrivals 0)
        (tarrivals (generateSchedule loopGenome.arrivals loopGenome.departures) 0) j).1.length := by
  have hstep : ∀ k : Nat, 179 ≤ k →
      (((stationRun (parrivals loopGenome.arrivals 0)
        (tarrivals (generateSchedule loopGenome.arrivals loopGenome.departures) 0)
          (k + 1)).1.length : Nat) : Int) =
      ((stationRun (parrivals loopGenome.arrivals 0)
        (tarrivals (generateSchedule loopGenome.arrivals loopGenome.departures) 0)
          k).1.length : Int) + ((parrivals loopGenome.arrivals 0 k).length : Int) := by
    intro k hk
    rw [stationRun_length_succ, loopGenome_tar k hk, min_zero_toNat]
    simp
  have h179 : ((parrivals loopGenome.arrivals 0 ((179 : Nat) : Int)).length : Int) = 5 := by
    rw [parrivals_length]
    decide
  intro j hj
  induction j with
  | zero => omega
  | succ j ih =>
    have h1 := hstep j (by omega)
    by_cases hj1 : j = 179
    · subst hj1
      omega
    · have := ih (by omega)
      omega

/-- C6 as stated fails when an arrival count is negative: `loopGenome` has 16
departures and meets the four feasibility conditions, yet the minute loop of
`scoreSchedule` keeps five passengers in the queue of station A for ever, so
`Evaluate` returns for no fuel. -/
theorem Evaluate_feasible_diverges :
    loopGenome.departures.length = 16 ∧ timingOk loopGenome.departures ∧
      offloadOk loopGenome ∧ ¬ ∃ fuel, (Evaluate fuel loopGenome).isSome = true := by
  have ht : timingOk loopGenome.departures := by decide
  have ho : offloadOk loopGenome := by decide
  have hlen : loopGenome.departures.length = 16 := by decide
  refine ⟨hlen, ht, ho, ?_⟩
  rintro ⟨fuel, hf⟩
  rw [Evaluate_eq_score loopGenome hlen ht ho fuel] at hf
  have hiter := scoreIter_stations (parrivals loopGenome.arrivals)
    (tarrivals (generateSchedule loopGenome.arrivals loopGenome.departures))
    (tarrivals_nonneg loopGenome.arrivals loopGenome.departures)
  have hnone : scoreLoop (parrivals loopGenome.arrivals)
      (tarrivals (generateSchedule loopGenome.arrivals loopGenome.departures)) fuel
      scoreInit = none := by
    apply scoreLoop_none
    intro j _
    refine ⟨_, hiter j, ?_⟩
    simp only [scoreCond, Bool.or_eq_true, decide_eq_true_eq]
    by_cases hj : j < 180
    · left; left; left; omega
    · left; left; right
      intro hnil
      have := loopGenome_queue j (by omega)
      rw [hnil] at this
      simp at this
  unfold scoreSchedule at hf
  rw [hnone] at hf
  simp at hf

end Rail

namespace Rail

/-! ## Conservation and termination for accepted genomes -/

theorem scoreCond_false_iff (s : scoreState) :
    scoreCond s = false ↔ 180 ≤ s.m ∧ s.pbuf0 = [] ∧ s.pbuf1 = [] ∧ s.pbuf2 = [] := by
  simp only [scoreCond, Bool.or_eq_false_iff, decide_eq_false_iff_not, ne_eq, not_not]
  constructor
  · rintro ⟨⟨⟨h1, h2⟩, h3⟩, h4⟩
    exact ⟨by omega, h2, h3, h4⟩
  · rintro ⟨h1, h2, h3, h4⟩
    exact ⟨⟨⟨by omega, h2⟩, h3⟩, h4⟩

/-- The loop only returns a state at which its condition fails. -/
theorem scoreLoop_cond (par : Nat → Int → List Int) (tar : Nat → Int → Int) :
    ∀ (fuel : Nat) (s0 s : scoreState), scoreLoop par tar fuel s0 = some s →
      scoreCond s = false := by
  intro fuel
  induction fuel with
  | zero =>
    intro s0 s h
    simp only [scoreLoop] at h
    split at h
    · simp at h
    · rename_i hc
      simp only [Option.some.injEq] at h
      rw [← h]; simpa using hc
  | succ fuel ih =>
    intro s0 s h
    simp only [scoreLoop] at h
    split at h
    · cases hb : scoreBody par tar s0 with
      | none => rw [hb] at h; simp at h
      | some s1 => rw [hb] at h; exact ih s1 s h
    · rename_i hc
      simp only [Option.some.injEq] at h
      rw [← h]; simpa using hc

/-- The minute loop ends, at a state with empty queues, on the schedule
generated for sorted departures and non-negative counts whenever the trains
offload at least the arrivals. -/
theorem scoreLoop_returns (arrivals : List arrivalSample) (departures : List departure)
    (hcount : ∀ a ∈ arrivals, 0 ≤ a.arrivals) (hsorted : departures.Pairwise byTimestamp)
    (hoff : (arrivals.map (fun a => a.arrivals)).sum ≤
      ((generateSchedule arrivals departures).map (fun e => e.UOffloading)).sum) :
    ∃ fuel0 s, scoreCond s = false ∧ ∀ fuel, fuel0 ≤ fuel →
      scoreLoop (parrivals arrivals) (tarrivals (generateSchedule arrivals departures)) fuel
        scoreInit = some s := by
  have hsum := offload_sum (generateSchedule arrivals departures) (fun e he => by
    obtain ⟨pd1, j, d, _, rfl⟩ := scheduleLoop_mem _ _ _ _ _ he
    exact (scheduleStep_offloading _ _ _ _).1)
  have harr := arrivals_sum arrivals
  have hb0 := boarding_le_station arrivals departures hcount hsorted 0 (by omega)
  have hb1 := boarding_le_station arrivals departures hcount hsorted 1 (by omega)
  have hb2 := boarding_le_station arrivals departures hcount hsorted 2 (by omega)
  obtain ⟨M0, hM0⟩ := exists_bound (boardTime 0) (generateSchedule arrivals departures)
  obtain ⟨M1, hM1⟩ := exists_bound (boardTime 1) (generateSchedule arrivals departures)
  obtain ⟨M2, hM2⟩ := exists_bound (boardTime 2) (generateSchedule arrivals departures)
  have hq0 := station_queue_empty arrivals departures hcount hsorted 0 (by omega)
    (180 + M0 + M1 + M2) (fun e he => by have := hM0 e he; push_cast; omega) (by omega)
  have hq1 := station_queue_empty arrivals departures hcount hsorted 1 (by omega)
    (180 + M0 + M1 + M2) (fun e he => by have := hM1 e he; push_cast; omega) (by omega)
  have hq2 := station_queue_empty arrivals departures hcount hsorted 2 (by omega)
    (180 + M0 + M1 + M2) (fun e he => by have := hM2 e he; push_cast; omega) (by omega)
  have hiter := scoreIter_stations (parrivals arrivals)
    (tarrivals (generateSchedule arrivals departures))
    (tarrivals_nonneg arrivals departures) (180 + M0 + M1 + M2)
  obtain ⟨s1, hc1, hs1⟩ := scoreLoop_exit _ _ _ scoreInit _ hiter (by
    rw [scoreCond_false_iff]
    refine ⟨?_, hq0, hq1, hq2⟩
    simp only []
    push_cast
    omega)
  exact ⟨_, s1, hc1, hs1⟩

/-- A value other than `maxScore` is returned only under the four feasibility
conditions, and it is the converted score. -/
theorem Evaluate_accepted (ds : departureSchedule) (hlen : ds.departures.length = 16)
    (fuel : Nat) (v : fitness) (err : Option String)
    (h : Evaluate fuel ds = some (v, err)) (hv : v ≠ maxScore) :
    timingOk ds.departures ∧ offloadOk ds := by
  rw [Evaluate_eq fuel ds (by omega)] at h
  have hne : some (v, err) ≠ some (maxScore, (none : Option String)) := by
    intro hh
    simp only [Option.some.injEq, Prod.mk.injEq] at hh
    exact hv hh.1
  by_cases c1 : (ds.departures.getD 0 zeroDeparture).timestamp < 0
  · rw [if_pos c1] at h; exact absurd h.symm hne
  · rw [if_neg c1] at h
    by_cases c2 : (ds.departures.getD 15 zeroDeparture).timestamp > 180
    · rw [if_pos c2] at h; exact absurd h.symm hne
    · rw [if_neg c2] at h
      by_cases c3 : headwayViolated ds.departures = true
      · rw [if_pos c3] at h; exact absurd h.symm hne
      · rw [if_neg c3] at h
        by_cases c4 : ((generateSchedule ds.arrivals ds.departures).map
            (fun e => e.UOffloading)).sum < (ds.arrivals.map (fun a => a.arrivals)).sum
        · rw [if_pos c4] at h; exact absurd h.symm hne
        · refine ⟨⟨by omega, by omega, ?_⟩, by unfold offloadOk; omega⟩
          intro i hi
          by_contra hlt
          exact c3 ((headwayViolated_iff _).mpr ⟨i, hi, by omega⟩)

theorem offload_le_arrivals (arrivals : List arrivalSample) (departures : List departure)
    (hcount : ∀ a ∈ arrivals, 0 ≤ a.arrivals) (hsorted : departures.Pairwise byTimestamp) :
    ((generateSchedule arrivals departures).map (fun e => e.UOffloading)).sum ≤
      (arrivals.map (fun a => a.arrivals)).sum := by
  have hsum := offload_sum (generateSchedule arrivals departures) (fun e he => by
    obtain ⟨pd1, j, d, _, rfl⟩ := scheduleLoop_mem _ _ _ _ _ he
    exact (scheduleStep_offloading _ _ _ _).1)
  have harr := arrivals_sum arrivals
  have hb0 := boarding_le_station arrivals departures hcount hsorted 0 (by omega)
  have hb1 := boarding_le_station arrivals departures hcount hsorted 1 (by omega)
  have hb2 := boarding_le_station arrivals departures hcount hsorted 2 (by omega)
  omega

/-- C19. Passenger conservation. For non-negative counts and departures sorted
ascending by timestamp, the trains board at each station at most the total of
the samples of that station (a station name other than A, B, C counts at A),
hence the offload total is at most the arrival total; and a genome with 16
departures for which `Evaluate` returns a value other than `maxScore` offloads
exactly the arrival total. -/
theorem passenger_conservation (arrivals : List arrivalSample) (departures : List departure)
    (hcount : ∀ a ∈ arrivals, 0 ≤ a.arrivals) :
    (departures.Pairwise byTimestamp →
      ((generateSchedule arrivals departures).map (fun e => e.ABoarding)).sum ≤
        sumIf (fun a => stationIndex a.station = 0) (fun a => a.arrivals) arrivals ∧
      ((generateSchedule arrivals departures).map (fun e => e.BBoarding)).sum ≤
        sumIf (fun a => stationIndex a.station = 1) (fun a => a.arrivals) arrivals ∧
      ((generateSchedule arrivals departures).map (fun e => e.CBoarding)).sum ≤
        sumIf (fun a => stationIndex a.station = 2) (fun a => a.arrivals) arrivals ∧
      ((generateSchedule arrivals departures).map (fun e => e.UOffloading)).sum ≤
        (arrivals.map (fun a => a.arrivals)).sum) ∧
    (departures.length = 16 → ∀ fuel v err,
      Evaluate fuel ⟨arrivals, departures⟩ = some (v, err) → v ≠ maxScore →
      ((generateSchedule arrivals departures).map (fun e => e.UOffloading)).sum =
        (arrivals.map (fun a => a.arrivals)).sum) := by
  constructor
  · intro hsorted
    have hb0 := boarding_le_station arrivals departures hcount hsorted 0 (by omega)
    have hb1 := boarding_le_station arrivals departures hcount hsorted 1 (by omega)
    have hb2 := boarding_le_station arrivals departures hcount hsorted 2 (by omega)
    exact ⟨hb0, hb1, hb2, offload_le_arrivals arrivals departures hcount hsorted⟩
  · intro hlen fuel v err h hv
    obtain ⟨ht, ho⟩ := Evaluate_accepted ⟨arrivals, departures⟩ hlen fuel v err h hv
    have hle := offload_le_arrivals arrivals departures hcount
      (timingOk_sorted departures hlen ht)
    unfold offloadOk at ho
    simp only [] at ho
    omega

/-- C19 at the sample arrivals (550 passengers) and the two sample
departures. -/
theorem passenger_conservation_witness :
    ((∀ a ∈ exampleArrivals, 0 ≤ a.arrivals) ∧ exampleDepartures.Pairwise byTimestamp) ∧
      ((generateSchedule exampleArrivals exampleDepartures).map (fun e => e.UOffloading)).sum ≤
        (exampleArrivals.map (fun a => a.arrivals)).sum :=
  ⟨⟨by decide, by decide⟩,
    ((passenger_conservation exampleArrivals exampleDepartures (by decide)).1
      (by decide)).2.2.2⟩

/-- C20. For non-negative counts and a genome with 16 departures that passes
all gates of `Evaluate`, the minute loop of `scoreSchedule` on the generated
schedule ends, with every station queue empty, and `Evaluate` returns the
score; and whenever the loop ends, the three queues are empty. -/
theorem scoring_terminates (ds : departureSchedule) (hlen : ds.departures.length = 16)
    (hcount : ∀ a ∈ ds.arrivals, 0 ≤ a.arrivals) (ht : timingOk ds.departures)
    (ho : offloadOk ds) :
    (∃ fuel0 s, s.pbuf0 = [] ∧ s.pbuf1 = [] ∧ s.pbuf2 = [] ∧ ∀ fuel, fuel0 ≤ fuel →
      scoreLoop (parrivals ds.arrivals)
        (tarrivals (generateSchedule ds.arrivals ds.departures)) fuel scoreInit = some s ∧
      Evaluate fuel ds = some (fitness.ofScore (floatDiv s.sum s.count), none)) ∧
    (∀ fuel s, scoreLoop (parrivals ds.arrivals)
        (tarrivals (generateSchedule ds.arrivals ds.departures)) fuel scoreInit = some s →
      s.pbuf0 = [] ∧ s.pbuf1 = [] ∧ s.pbuf2 = []) := by
  constructor
  · obtain ⟨fuel0, s, hc, hs⟩ := scoreLoop_returns ds.arrivals ds.departures hcount
      (timingOk_sorted ds.departures hlen ht) ho
    obtain ⟨_, h0, h1, h2⟩ := (scoreCond_false_iff s).mp hc
    refine ⟨fuel0, s, h0, h1, h2, fun fuel hfuel => ⟨hs fuel hfuel, ?_⟩⟩
    rw [Evaluate_eq_score ds hlen ht ho fuel]
    unfold scoreSchedule
    rw [hs fuel hfuel]
    rfl
  · intro fuel s h
    obtain ⟨_, h0, h1, h2⟩ := (scoreCond_false_iff s).mp (scoreLoop_cond _ _ fuel _ s h)
    exact ⟨h0, h1, h2⟩

/-- C20 at the template timetable with the sample arrivals. -/
theorem scoring_terminates_witness :
    ((genomeMachine exampleArrivals).departures.length = 16 ∧
      (∀ a ∈ (genomeMachine exampleArrivals).arrivals, 0 ≤ a.arrivals) ∧
      timingOk (genomeMachine exampleArrivals).departures ∧
      offloadOk (genomeMachine exampleArrivals)) ∧
    ∃ fuel0 s, s.pbuf0 = [] ∧ s.pbuf1 = [] ∧ s.pbuf2 = [] ∧ ∀ fuel, fuel0 ≤ fuel →
      scoreLoop (parrivals (genomeMachine exampleArrivals).arrivals)
        (tarrivals (generateSchedule (genomeMachine exampleArrivals).arrivals
          (genomeMachine exampleArrivals).departures)) fuel scoreInit = some s ∧
      Evaluate fuel (genomeMachine exampleArrivals) =
        some (fitness.ofScore (floatDiv s.sum s.count), none) :=
  ⟨⟨by decide, by decide, by decide, by decide⟩,
    (scoring_terminates (genomeMachine exampleArrivals) (by decide) (by decide) (by decide)
      (by decide)).1⟩

end Rail

namespace Rail

/-! ## Timing feasibility under `Crossover` -/

theorem getD_timestamp (l : List departure) (i : Nat) :
    (l.getD i zeroDeparture).timestamp = (l.map (fun d => d.timestamp)).getD i 0 := by
  induction l generalizing i with
  | nil => simp [zeroDeparture]
  | cons a rest ih =>
    cases i with
    | zero => simp
    | succ k => simpa using ih k

theorem timingOk_congr {l l1 : List departure}
    (h : l.map (fun d => d.timestamp) = l1.map (fun d => d.timestamp)) (ht : timingOk l) :
    timingOk l1 := by
  unfold timingOk at ht ⊢
  simp only [getD_timestamp] at ht ⊢
  rw [← h]
  exact ht

theorem getD_zipWith (f : departure → departure → departure) :
    ∀ (l o : List departure) (i : Nat), i < l.length → i < o.length →
      (List.zipWith f l o).getD i zeroDeparture =
        f (l.getD i zeroDeparture) (o.getD i zeroDeparture) := by
  intro l
  induction l with
  | nil => intro o i hi _; simp at hi
  | cons a rest ih =>
    intro o i hi ho
    cases o with
    | nil => simp at ho
    | cons b orest =>
      cases i with
      | zero => simp
      | succ k =>
        simp only [List.zipWith_cons_cons, List.getD_cons_succ]
        exact ih orest k (by simpa using hi) (by simpa using ho)

theorem timingOk_nonneg {l : List departure} (ht : timingOk l) :
    ∀ i : Nat, i ≤ 15 → 3 * (i : Int) ≤ (l.getD i zeroDeparture).timestamp := by
  intro i
  induction i with
  | zero => intro _; have := ht.1; simpa using this
  | succ k ih =>
    intro hk
    have h1 := ih (by omega)
    have h2 := ht.2.2 k (by omega)
    push_cast
    omega

/-- The averaged timetable of two timing-feasible timetables is timing
feasible. -/
theorem timingOk_average (l o : List departure) (hl : l.length = 16) (ho : o.length = 16)
    (ht : timingOk l) (hto : timingOk o) :
    timingOk (List.zipWith
      (fun d e => (⟨d.ttype, Int.tdiv (d.timestamp + e.timestamp) 2⟩ : departure)) l o) := by
  have hz : ∀ i, i ≤ 15 →
      ((List.zipWith
        (fun d e => (⟨d.ttype, Int.tdiv (d.timestamp + e.timestamp) 2⟩ : departure))
        l o).getD i zeroDeparture).timestamp =
        ((l.getD i zeroDeparture).timestamp + (o.getD i zeroDeparture).timestamp) / 2 := by
    intro i hi
    rw [getD_zipWith _ l o i (by omega) (by omega)]
    have h1 := timingOk_nonneg ht i hi
    have h2 := timingOk_nonneg hto i hi
    exact Int.tdiv_eq_ediv (by omega) (by decide)
  refine ⟨?_, ?_, ?_⟩
  · rw [hz 0 (by omega)]
    have h1 := ht.1
    have h2 := hto.1
    omega
  · rw [hz 15 (by omega)]
    have h1 := ht.2.1
    have h2 := hto.2.1
    omega
  · intro i hi
    rw [hz i (by omega), hz (i + 1) (by omega)]
    have h1 := ht.2.2 i hi
    have h2 := hto.2.2 i hi
    omega

/-- C17. `Crossover` of two genomes with 16 departures each that both have a
first timestamp of at least 0, a last timestamp of at most 180 and consecutive
gaps of at least 3 returns, and the receiver again has these three properties,
so none of the timing tests of `Evaluate` rejects it. -/
theorem Crossover_timing (S : SliceSort) (ds other : departureSchedule)
    (hlen : ds.departures.length = 16) (holen : other.departures.length = 16)
    (ht : timingOk ds.departures) (hto : timingOk other.departures) :
    ∃ r, Crossover S ds other = some r ∧ r.1.departures.length = 16 ∧
      timingOk r.1.departures ∧
      ¬ (r.1.departures.getD 0 zeroDeparture).timestamp < 0 ∧
      ¬ (r.1.departures.getD 15 zeroDeparture).timestamp > 60 * 3 ∧
      headwayViolated r.1.departures = false := by
  have hz := timingOk_average ds.departures other.departures hlen holen ht hto
  have hzlen : (List.zipWith
      (fun d e => (⟨d.ttype, Int.tdiv (d.timestamp + e.timestamp) 2⟩ : departure))
      ds.departures other.departures).length = 16 := by
    simp [hlen, holen]
  have hsort := sort_timestamps S _ (timingOk_sorted _ hzlen hz)
  have hr := timingOk_congr hsort.symm hz
  refine ⟨_, by unfold Crossover; rw [crossLoop_eq 16 _ _ hlen holen]; rfl, ?_, hr, ?_, ?_, ?_⟩
  · rw [(S.perm _).length_eq]; exact hzlen
  · have := hr.1; simp only [] at this ⊢; omega
  · have := hr.2.1; simp only [] at this ⊢; omega
  · cases hv : headwayViolated (S.sort (List.zipWith
        (fun d e => (⟨d.ttype, Int.tdiv (d.timestamp + e.timestamp) 2⟩ : departure))
        ds.departures other.departures)) with
    | false => rfl
    | true =>
      obtain ⟨i, hi, hlt⟩ := (headwayViolated_iff _).mp hv
      have := hr.2.2 i hi
      omega

/-- C17 at the template timetable crossed with sixteen departures three
minutes apart. -/
theorem Crossover_timing_witness :
    ((genomeMachine []).departures.length = 16 ∧ denseGenome.departures.length = 16 ∧
      timingOk (genomeMachine []).departures ∧ timingOk denseGenome.departures) ∧
    ∃ r, Crossover insertionSliceSort (genomeMachine []) denseGenome = some r ∧
      r.1.departures.length = 16 ∧ timingOk r.1.departures :=
  ⟨⟨by decide, by decide, by decide, by decide⟩,
    (Crossover_timing insertionSliceSort (genomeMachine []) denseGenome (by decide)
      (by decide) (by decide) (by decide)).elim (fun r h => ⟨r, h.1, h.2.1, h.2.2.1⟩)⟩

end Rail

namespace Rail

/-! ## The two branches of `Mutate` and the fleet -/

/-- Exchanging two entries of a list permutes it. -/
theorem list_swap_perm (L : List trainType) (i j : Nat) (hi : i < L.length)
    (hj : j < L.length) :
    ((L.set i (L.get ⟨j, hj⟩)).set j (L.get ⟨i, hi⟩)).Perm L := by
  by_cases hij : i = j
  · subst hij
    have e : L.set i L[i] = L := by
      apply List.ext_getElem (by simp)
      intro k h1 h2
      by_cases hk : i = k
      · subst hk; simp
      · rw [List.getElem_set_ne hk]
    simp [e]
  · rw [List.perm_iff_count]
    intro b
    have hj1 : j < (L.set i (L.get ⟨j, hj⟩)).length := by simpa using hj
    rw [List.count_set _ _ _ _ hj1, List.count_set _ _ _ _ hi]
    have hget : (L.set i (L.get ⟨j, hj⟩))[j] = L[j] := by
      rw [List.getElem_set_ne hij]
    rw [hget]
    have h1 : (if L[i] == b then 1 else 0) ≤ L.count b := by
      split
      · rename_i h
        have hb : L[i] = b := by simpa using h
        have hm : b ∈ L := hb ▸ List.getElem_mem hi
        exact List.count_pos_iff.mpr hm
      · omega
    simp only [List.get_eq_getElem]
    omega

theorem swapTtype_spec {l l1 : List departure} {i j : Nat} (h : swapTtype l i j = some l1) :
    ∃ a b, l[i]? = some a ∧ l[j]? = some b ∧
      l1 = (l.set i ⟨b.ttype, a.timestamp⟩).set j ⟨a.ttype, b.timestamp⟩ := by
  unfold swapTtype at h
  split at h
  · rename_i a b ha hb
    simp only [Option.some.injEq] at h
    exact ⟨a, b, ha, hb, h.symm⟩
  · simp at h

theorem swapTtype_timestamps {l l1 : List departure} {i j : Nat}
    (h : swapTtype l i j = some l1) :
    l1.map (fun d => d.timestamp) = l.map (fun d => d.timestamp) := by
  obtain ⟨a, b, ha, hb, rfl⟩ := swapTtype_spec h
  obtain ⟨hi, hai⟩ := List.getElem?_eq_some_iff.mp ha
  obtain ⟨hj, hbj⟩ := List.getElem?_eq_some_iff.mp hb
  simp only [List.map_set]
  have e1 : (l.map (fun d => d.timestamp)).set i a.timestamp = l.map (fun d => d.timestamp) := by
    apply List.ext_getElem (by simp)
    intro k h1 h2
    by_cases hk : i = k
    · subst hk; simp [hai]
    · rw [List.getElem_set_ne hk]
  rw [e1]
  apply List.ext_getElem (by simp)
  intro k h1 h2
  by_cases hk : j = k
  · subst hk; simp [hbj]
  · rw [List.getElem_set_ne hk]

theorem swapTtype_types {l l1 : List departure} {i j : Nat}
    (h : swapTtype l i j = some l1) :
    (l1.map (fun d => d.ttype)).Perm (l.map (fun d => d.ttype)) := by
  obtain ⟨a, b, ha, hb, rfl⟩ := swapTtype_spec h
  obtain ⟨hi, hai⟩ := List.getElem?_eq_some_iff.mp ha
  obtain ⟨hj, hbj⟩ := List.getElem?_eq_some_iff.mp hb
  simp only [List.map_set]
  have h1 := list_swap_perm (l.map (fun d => d.ttype)) i j (by simpa using hi)
    (by simpa using hj)
  simpa [hai, hbj] using h1

theorem perturbLoop_eq :
    ∀ (n : Nat) (tape : List Nat) (l : List departure), l.length = n → n ≤ tape.length →
      perturbLoop n tape l = some (List.zipWith
        (fun d x => (⟨d.ttype, d.timestamp + (((x % 4 : Nat) : Int) - 2)⟩ : departure))
        l tape) := by
  intro n
  induction n with
  | zero =>
    intro tape l hl _
    have : l = [] := List.length_eq_zero.mp hl
    subst this
    simp [perturbLoop]
  | succ n ih =>
    intro tape l hl ht
    match l, tape, hl, ht with
    | [], _, hl, _ => simp at hl
    | _ :: _, [], _, ht => simp at ht
    | d :: rest, x :: tape1, hl, ht =>
      simp only [perturbLoop, Intn, OfNat.ofNat_ne_zero, if_false, List.zipWith_cons_cons]
      rw [ih tape1 rest (by simpa using hl) (by simpa using ht)]
      rfl

theorem perturbLoop_types :
    ∀ (n : Nat) (tape : List Nat) (l l1 : List departure),
      perturbLoop n tape l = some l1 →
      l1.map (fun d => d.ttype) = l.map (fun d => d.ttype) := by
  intro n
  induction n with
  | zero => intro tape l l1 h; simp only [perturbLoop, Option.some.injEq] at h; rw [h]
  | succ n ih =>
    intro tape l l1 h
    unfold perturbLoop at h
    split at h
    · rename_i d rest r tape1 _
      cases hr : perturbLoop n tape1 rest with
      | none => rw [hr] at h; simp at h
      | some rest1 =>
        rw [hr] at h
        simp only [Option.map_some', Option.some.injEq] at h
        rw [← h]
        simp [ih tape1 rest rest1 hr]
    · simp at h

theorem crossLoop_types :
    ∀ (n : Nat) (l o l1 : List departure), crossLoop n l o = some l1 →
      l1.map (fun d => d.ttype) = l.map (fun d => d.ttype) := by
  intro n
  induction n with
  | zero => intro l o l1 h; simp only [crossLoop, Option.some.injEq] at h; rw [h]
  | succ n ih =>
    intro l o l1 h
    unfold crossLoop at h
    split at h
    · rename_i d rest e orest
      cases hr : crossLoop n rest orest with
      | none => rw [hr] at h; simp at h
      | some rest1 =>
        rw [hr] at h
        simp only [Option.map_some', Option.some.injEq] at h
        rw [← h]
        simp [ih rest orest rest1 hr]
    · simp at h

theorem crossLoop_length :
    ∀ (n : Nat) (l o l1 : List departure), crossLoop n l o = some l1 →
      l1.length = l.length := by
  intro n l o l1 h
  have := congrArg List.length (crossLoop_types n l o l1 h)
  simpa using this

/-- `Mutate` keeps the train types of a genome, up to their order. -/
theorem Mutate_types (S : SliceSort) (rng grand : List Nat) (ds ds1 : departureSchedule)
    (h : Mutate S rng grand ds = some ds1) :
    (ds1.departures.map (fun d => d.ttype)).Perm (ds.departures.map (fun d => d.ttype)) := by
  unfold Mutate at h
  split at h
  · simp at h
  · split at h
    · split at h
      · simp at h
      · rename_i idx1 idx2 _
        cases hs : swapTtype ds.departures idx1 idx2 with
        | none => rw [hs] at h; simp at h
        | some l =>
          rw [hs] at h
          simp only [Option.map_some', Option.some.injEq] at h
          rw [← h]
          exact ((S.perm l).map _).trans (swapTtype_types hs)
    · split at h
      · cases hs : perturbLoop 16 grand ds.departures with
        | none => rw [hs] at h; simp at h
        | some l =>
          rw [hs] at h
          simp only [Option.map_some', Option.some.injEq] at h
          rw [← h]
          have := perturbLoop_types 16 grand _ l hs
          exact ((S.perm l).map _).trans (by rw [this])
      · simp only [Option.some.injEq] at h
        rw [← h]
        exact (S.perm _).map _

/-- `Crossover` keeps the train types of the receiver, up to their order. -/
theorem Crossover_types (S : SliceSort) (ds other : departureSchedule)
    (r : departureSchedule × departureSchedule) (h : Crossover S ds other = some r) :
    (r.1.departures.map (fun d => d.ttype)).Perm (ds.departures.map (fun d => d.ttype)) := by
  unfold Crossover at h
  cases hs : crossLoop 16 ds.departures other.departures with
  | none => rw [hs] at h; simp at h
  | some l =>
    rw [hs] at h
    simp only [Option.map_some', Option.some.injEq] at h
    rw [← h]
    have := crossLoop_types 16 _ _ l hs
    exact ((S.perm l).map _).trans (by rw [this])

/-- Every reachable genome carries the train types of the template, in some
order. -/
theorem Reachable_types (arrivals : List arrivalSample) (ds : departureSchedule)
    (h : Reachable arrivals ds) :
    (ds.departures.map (fun d => d.ttype)).Perm
      ((genomeMachine []).departures.map (fun d => d.ttype)) := by
  induction h with
  | template => exact List.Perm.refl _
  | mutate S rng grand ds ds1 _ hm ih => exact (Mutate_types S rng grand ds ds1 hm).trans ih
  | crossover S ds other r _ _ hc ih _ => exact (Crossover_types S ds other r hc).trans ih
  | clone ds _ ih =>
    have hlen : ds.departures.length = 16 := by
      have := ih.length_eq
      simpa using this
    rw [Clone_eq ds hlen]
    exact ih

end Rail

namespace Rail

/-- C16. The two branches of `Mutate` on a genome with 16 departures, with the
draws fixed. Swap branch (first draw even, the index loop ends with `i`, `j`):
`i ≠ j`, the result is the sorted permutation of the departures in which the
types at `i` and `j` are exchanged and every timestamp is kept, so the
timestamps and the types are the same up to order. Perturbation branch (first
draw odd, 16 further draws `x`): the result is the sorted permutation of the
departures with the type kept and the timestamp moved by `x % 4 - 2`, an offset
between `-2` and `1`. -/
theorem Mutate_branches (S : SliceSort) (rng grand : List Nat) (ds : departureSchedule)
    (hlen : ds.departures.length = 16) (r : Nat) (rest : List Nat) (hrng : rng = r :: rest) :
    (r % 2 = 0 → ∀ i j, distinctPair 16 grand = some (i, j) →
      i ≠ j ∧ ∃ a b ds1, ds.departures[i]? = some a ∧ ds.departures[j]? = some b ∧
        Mutate S rng grand ds = some ds1 ∧
        ds1.departures.Perm
          ((ds.departures.set i ⟨b.ttype, a.timestamp⟩).set j ⟨a.ttype, b.timestamp⟩) ∧
        ds1.departures.Pairwise byTimestamp ∧
        (ds1.departures.map (fun d => d.timestamp)).Perm
          (ds.departures.map (fun d => d.timestamp)) ∧
        (ds1.departures.map (fun d => d.ttype)).Perm
          (ds.departures.map (fun d => d.ttype))) ∧
    (r % 2 = 1 → 16 ≤ grand.length →
      ∃ ds1, Mutate S rng grand ds = some ds1 ∧
        ds1.departures.Perm (List.zipWith
          (fun d x => (⟨d.ttype, d.timestamp + (((x % 4 : Nat) : Int) - 2)⟩ : departure))
          ds.departures grand) ∧
        ds1.departures.Pairwise byTimestamp ∧
        ∀ x : Nat, -2 ≤ ((x % 4 : Nat) : Int) - 2 ∧ ((x % 4 : Nat) : Int) - 2 ≤ 1) := by
  subst hrng
  constructor
  · intro h0 i j hd
    obtain ⟨hi, hj, hij⟩ := distinctPair_lt 16 grand.length grand (le_refl _) i j hd
    refine ⟨hij, ?_⟩
    have hsw := swapTtype_isSome ds.departures (i := i) (j := j) (by omega) (by omega)
    cases hs : swapTtype ds.departures i j with
    | none => rw [hs] at hsw; simp at hsw
    | some l =>
      obtain ⟨a, b, ha, hb, hl⟩ := swapTtype_spec hs
      refine ⟨a, b, { ds with departures := S.sort l }, ha, hb, ?_, ?_, S.sorted l, ?_, ?_⟩
      · simp [Mutate, Intn, h0, hlen, hd, hs]
      · rw [← hl]; exact S.perm l
      · have := swapTtype_timestamps hs
        exact ((S.perm l).map _).trans (by rw [this])
      · exact ((S.perm l).map _).trans (swapTtype_types hs)
  · intro h1 hg
    have hp := perturbLoop_eq 16 grand ds.departures hlen hg
    refine ⟨{ ds with departures := S.sort _ }, ?_, S.perm _, S.sorted _, ?_⟩
    · simp [Mutate, Intn, h1, hp]
    · intro x
      omega

/-- C16 at the template timetable: the swap branch with the indices 0 and 1. -/
theorem Mutate_branches_witness :
    ((genomeMachine []).departures.length = 16 ∧ [0] = 0 :: ([] : List Nat) ∧ 0 % 2 = 0 ∧
      distinctPair 16 [0, 1] = some (0, 1)) ∧
    ((0 : Nat) ≠ 1 ∧ ∃ a b ds1, (genomeMachine []).departures[0]? = some a ∧
      (genomeMachine []).departures[1]? = some b ∧
      Mutate insertionSliceSort [0] [0, 1] (genomeMachine []) = some ds1 ∧
      ds1.departures.Perm
        (((genomeMachine []).departures.set 0 ⟨b.ttype, a.timestamp⟩).set 1
          ⟨a.ttype, b.timestamp⟩) ∧
      ds1.departures.Pairwise byTimestamp ∧
      (ds1.departures.map (fun d => d.timestamp)).Perm
        ((genomeMachine []).departures.map (fun d => d.timestamp)) ∧
      (ds1.departures.map (fun d => d.ttype)).Perm
        ((genomeMachine []).departures.map (fun d => d.ttype))) :=
  ⟨⟨by decide, rfl, by decide, by decide⟩,
    (Mutate_branches insertionSliceSort [0] [0, 1] (genomeMachine []) (by decide) 0 [] rfl).1
      (by decide) 0 1 (by decide)⟩

/-- C18. Every genome reachable from the template of `genomeMachine` by calls
of `Mutate`, `Crossover` and `Clone` has 16 departures, 4 of type `L4` and 12 of
type `L8`, hence a combined capacity of `4 * 200 + 12 * 400 = 5600`; the
template is sorted ascending, starts at 0, ends at 180 and has gaps of at least
3 minutes. -/
theorem fleet_invariant (arrivals : List arrivalSample) (ds : departureSchedule)
    (h : Reachable arrivals ds) :
    (ds.departures.length = 16 ∧
      (ds.departures.map (fun d => d.ttype)).count trainTypeL4 = 4 ∧
      (ds.departures.map (fun d => d.ttype)).count trainTypeL8 = 12 ∧
      (ds.departures.map (fun d => trainCapacity d.ttype)).sum = 4 * 200 + 12 * 400 ∧
      (4 * 200 + 12 * 400 : Int) = 5600) ∧
    ((genomeMachine arrivals).departures.Pairwise byTimestamp ∧
      timingOk (genomeMachine arrivals).departures ∧
      ((genomeMachine arrivals).departures.getD 0 zeroDeparture).timestamp = 0 ∧
      ((genomeMachine arrivals).departures.getD 15 zeroDeparture).timestamp = 180) := by
  have hp := Reachable_types arrivals ds h
  constructor
  · refine ⟨?_, ?_, ?_, ?_, by decide⟩
    · have := hp.length_eq
      simpa using this
    · rw [hp.count_eq]; decide
    · rw [hp.count_eq]; decide
    · have e : ds.departures.map (fun d => trainCapacity d.ttype) =
          (ds.departures.map (fun d => d.ttype)).map trainCapacity := by
        simp
      rw [e, (hp.map trainCapacity).sum_eq]
      decide
  · have e : (genomeMachine arrivals).departures = (genomeMachine []).departures := rfl
    rw [e]
    exact ⟨by decide, by decide, by decide, by decide⟩

/-- C18 at a clone of the template. -/
theorem fleet_invariant_witness :
    Reachable exampleArrivals (Clone (genomeMachine exampleArrivals)) ∧
      (Clone (genomeMachine exampleArrivals)).departures.length = 16 ∧
      ((Clone (genomeMachine exampleArrivals)).departures.map
        (fun d => trainCapacity d.ttype)).sum = 4 * 200 + 12 * 400 :=
  ⟨Reachable.clone _ Reachable.template,
    (fleet_invariant exampleArrivals (Clone (genomeMachine exampleArrivals))
      (Reachable.clone _ Reachable.template)).1.1,
    (fleet_invariant exampleArrivals (Clone (genomeMachine exampleArrivals))
      (Reachable.clone _ Reachable.template)).1.2.2.2.1⟩

end Rail

namespace Rail

/-! ## No passengers -/

/-- C14, the code at an empty arrival list: for every departure sequence
`scoreSchedule` ends at minute 180 and returns `0/0`, which is `NaN` and not
zero, and `Evaluate` on the template timetable returns that `NaN`. -/
theorem score_no_passengers (departures : List departure) (fuel : Nat) :
    scoreSchedule fuel [] (generateSchedule [] departures) =
      (if fuel < 180 then none else some scoreValue.nan) ∧
    Evaluate fuel (genomeMachine []) =
      (if fuel < 180 then none else some (fitness.ofScore scoreValue.nan, none)) ∧
    floatDiv 0 0 = scoreValue.nan ∧ scoreValue.nan ≠ scoreValue.real 0 := by
  have h := fun deps => scoreSchedule_late [] deps (fun a ha => by simp at ha) fuel
  refine ⟨h departures, ?_, rfl, by simp⟩
  rw [Evaluate_eq_score (genomeMachine []) (by decide) (by decide) (by decide) fuel]
  have e : (genomeMachine []).arrivals = [] := rfl
  rw [e, h]
  split <;> rfl

/-! ## The waiting counts of `generateSchedule` -/

theorem scheduleStep_boarding_eq (pa pd : stationDiffs) (i : Nat) (d : departure) :
    (scheduleStep pa pd i d).2.ABoarding =
        min (scheduleStep pa pd i d).2.AAvailCap (waiting pa pd d).1 ∧
      (scheduleStep pa pd i d).2.BBoarding =
        min (scheduleStep pa pd i d).2.BAvailCap (waiting pa pd d).2.1 ∧
      (scheduleStep pa pd i d).2.CBoarding =
        min (scheduleStep pa pd i d).2.CAvailCap (waiting pa pd d).2.2 :=
  ⟨rfl, rfl, rfl⟩

theorem scheduleLoop_eq_states (pa : stationDiffs) (ds : List departure) :
    ∀ (i : Nat) (pd : stationDiffs),
      scheduleLoop pa i pd ds =
        (scheduleStates pa i pd ds).map (fun s => (scheduleStep pa s.1 s.2.1 s.2.2).2) := by
  induction ds with
  | nil => intro i pd; rfl
  | cons d rest ih => intro i pd; simp [scheduleLoop, scheduleStates, ih]

/-- With the invariant in force the three waiting counts are not negative. -/
theorem waiting_nonneg (pa pd : stationDiffs) (d : departure)
    (h : readyAt pa pd d.timestamp) :
    0 ≤ (waiting pa pd d).1 ∧ 0 ≤ (waiting pa pd d).2.1 ∧ 0 ≤ (waiting pa pd d).2.2 := by
  obtain ⟨hA, hB, hC⟩ := h
  have capA := trainCapacity_nonneg d.ttype
  have hd1 : d.timestamp + 3 ≤ d.timestamp + delay := by
    have h1 : delay = 3 := rfl
    omega
  have hd2 : d.timestamp + 11 ≤ d.timestamp + delay + AB := by
    have h1 : delay = 3 := rfl
    have h2 : AB = 8 := rfl
    omega
  have hd3 : d.timestamp + 23 ≤ d.timestamp + delay + AB + delay + BC := by
    have h1 : delay = 3 := rfl
    have h2 : AB = 8 := rfl
    have h3 : BC = 9 := rfl
    omega
  have wA : 0 ≤ numPeople pa pd "A" (d.timestamp + delay) := by
    rw [numPeople_eq "A" stationIndex_A hA _ hd1]
    exact hA.2 _ hd1
  have hB1 := stationInv_other (j := 0)
    ⟨d.timestamp + delay, -(min (trainCapacity d.ttype)
      (numPeople pa pd "A" (d.timestamp + delay)))⟩ hB (by decide)
  have hC1 := stationInv_other (j := 0)
    ⟨d.timestamp + delay, -(min (trainCapacity d.ttype)
      (numPeople pa pd "A" (d.timestamp + delay)))⟩ hC (by decide)
  have wB : 0 ≤ numPeople pa (appendDiff pd 0 ⟨d.timestamp + delay,
      -(min (trainCapacity d.ttype) (numPeople pa pd "A" (d.timestamp + delay)))⟩) "B"
      (d.timestamp + delay + AB) := by
    rw [numPeople_eq "B" stationIndex_B hB1 _ hd2]
    exact hB1.2 _ hd2
  have hC2 := stationInv_other (j := 1) ⟨d.timestamp + delay + AB, -(min
    (trainCapacity d.ttype - min (trainCapacity d.ttype)
      (numPeople pa pd "A" (d.timestamp + delay)))
    (numPeople pa (appendDiff pd 0 ⟨d.timestamp + delay, -(min (trainCapacity d.ttype)
      (numPeople pa pd "A" (d.timestamp + delay)))⟩) "B" (d.timestamp + delay + AB)))⟩
    hC1 (by decide)
  have wC : 0 ≤ numPeople pa (appendDiff (appendDiff pd 0 ⟨d.timestamp + delay,
      -(min (trainCapacity d.ttype) (numPeople pa pd "A" (d.timestamp + delay)))⟩) 1
      ⟨d.timestamp + delay + AB, -(min
        (trainCapacity d.ttype - min (trainCapacity d.ttype)
          (numPeople pa pd "A" (d.timestamp + delay)))
        (numPeople pa (appendDiff pd 0 ⟨d.timestamp + delay, -(min (trainCapacity d.ttype)
          (numPeople pa pd "A" (d.timestamp + delay)))⟩) "B" (d.timestamp + delay + AB)))⟩)
      "C" (d.timestamp + delay + AB + delay + BC) := by
    rw [numPeople_eq "C" stationIndex_C hC2 _ hd3]
    exact hC2.2 _ hd3
  simp only [waiting, stationIndex_A, stationIndex_B]
  exact ⟨wA, wB, wC⟩

theorem scheduleStates_ready (pa : stationDiffs) (hpa : ∀ idx, ∀ e ∈ pa idx, 0 ≤ e.diff)
    (ds : List departure) (hs : ds.Pairwise byTimestamp) :
    ∀ (i : Nat) (pd : stationDiffs), (∀ d ∈ ds, readyAt pa pd d.timestamp) →
      ∀ s ∈ scheduleStates pa i pd ds, readyAt pa s.1 s.2.2.timestamp := by
  induction ds with
  | nil => intro i pd _ s hs1; simp [scheduleStates] at hs1
  | cons d rest ih =>
    intro i pd hr s hs1
    obtain ⟨_, h2⟩ := scheduleStep_ok pa pd hpa i d (hr d (List.mem_cons_self _ _))
    rw [List.pairwise_cons] at hs
    simp only [scheduleStates, List.mem_cons] at hs1
    rcases hs1 with hs1 | hs1
    · rw [hs1]; exact hr d (List.mem_cons_self _ _)
    · exact ih hs.2 (i + 1) _ (fun d1 hd1 => h2 _ (hs.1 d1 hd1)) s hs1

theorem min_zero_of_nonneg {a b : Int} (ha : 0 ≤ a) (hb : b ≤ 0) (hb0 : 0 ≤ b) :
    min a b = 0 := by
  unfold min; split <;> omega

/-- The amended C11. For non-negative counts and departures sorted ascending
by timestamp, in every iteration of the main loop of `generateSchedule` the
three computed numbers of people waiting are not negative, the boarding count
at a station is `min` of the available capacity and the number waiting there,
it is zero whenever that number is zero or less, and no `ABoarding`,
`BBoarding` or `CBoarding` is negative. -/
theorem boarding_never_negative (arrivals : List arrivalSample) (departures : List departure)
    (hcount : ∀ a ∈ arrivals, 0 ≤ a.arrivals) (hsorted : departures.Pairwise byTimestamp) :
    generateSchedule arrivals departures =
      (scheduleStates (buildArrivals arrivals) 0 (fun _ => []) departures).map
        (fun s => (scheduleStep (buildArrivals arrivals) s.1 s.2.1 s.2.2).2) ∧
    (∀ s ∈ scheduleStates (buildArrivals arrivals) 0 (fun _ => []) departures,
      (0 ≤ (waiting (buildArrivals arrivals) s.1 s.2.2).1 ∧
        0 ≤ (waiting (buildArrivals arrivals) s.1 s.2.2).2.1 ∧
        0 ≤ (waiting (buildArrivals arrivals) s.1 s.2.2).2.2) ∧
      ((scheduleStep (buildArrivals arrivals) s.1 s.2.1 s.2.2).2.ABoarding =
          min (scheduleStep (buildArrivals arrivals) s.1 s.2.1 s.2.2).2.AAvailCap
            (waiting (buildArrivals arrivals) s.1 s.2.2).1 ∧
        (scheduleStep (buildArrivals arrivals) s.1 s.2.1 s.2.2).2.BBoarding =
          min (scheduleStep (buildArrivals arrivals) s.1 s.2.1 s.2.2).2.BAvailCap
            (waiting (buildArrivals arrivals) s.1 s.2.2).2.1 ∧
        (scheduleStep (buildArrivals arrivals) s.1 s.2.1 s.2.2).2.CBoarding =
          min (scheduleStep (buildArrivals arrivals) s.1 s.2.1 s.2.2).2.CAvailCap
            (waiting (buildArrivals arrivals) s.1 s.2.2).2.2) ∧
      (((waiting (buildArrivals arrivals) s.1 s.2.2).1 ≤ 0 →
          (scheduleStep (buildArrivals arrivals) s.1 s.2.1 s.2.2).2.ABoarding = 0) ∧
        ((waiting (buildArrivals arrivals) s.1 s.2.2).2.1 ≤ 0 →
          (scheduleStep (buildArrivals arrivals) s.1 s.2.1 s.2.2).2.BBoarding = 0) ∧
        ((waiting (buildArrivals arrivals) s.1 s.2.2).2.2 ≤ 0 →
          (scheduleStep (buildArrivals arrivals) s.1 s.2.1 s.2.2).2.CBoarding = 0))) ∧
    (∀ e ∈ generateSchedule arrivals departures,
      0 ≤ e.ABoarding ∧ 0 ≤ e.BBoarding ∧ 0 ≤ e.CBoarding) := by
  have hpa := buildArrivals_nonneg arrivals hcount
  refine ⟨scheduleLoop_eq_states _ _ _ _, ?_, ?_⟩
  · intro s hs
    have hr := scheduleStates_ready (buildArrivals arrivals) hpa departures hsorted 0
      (fun _ => []) (fun d _ => readyAt_init _ hpa d.timestamp) s hs
    have hw := waiting_nonneg (buildArrivals arrivals) s.1 s.2.2 hr
    have hb := scheduleStep_boarding_eq (buildArrivals arrivals) s.1 s.2.1 s.2.2
    obtain ⟨hok, _⟩ := scheduleStep_ok (buildArrivals arrivals) s.1 hpa s.2.1 s.2.2 hr
    obtain ⟨h1, h2, h3, h4, h5, h6, h7, h8⟩ := hok
    refine ⟨hw, hb, ?_, ?_, ?_⟩
    · intro hle
      rw [hb.1]
      exact min_zero_of_nonneg (by omega) hle hw.1
    · intro hle
      rw [hb.2.1]
      exact min_zero_of_nonneg (by omega) hle hw.2.1
    · intro hle
      rw [hb.2.2]
      exact min_zero_of_nonneg (by omega) hle hw.2.2
  · intro e he
    obtain ⟨_, h2, _, h4, _, h6, _, _⟩ := scheduleLoop_ok (buildArrivals arrivals) hpa
      departures hsorted 0 (fun _ => []) (fun d _ => readyAt_init _ hpa d.timestamp) e he
    exact ⟨h2, h4, h6⟩

/-- The amended C11 at the sample arrivals and the two sample departures. -/
theorem boarding_never_negative_witness :
    ((∀ a ∈ exampleArrivals, 0 ≤ a.arrivals) ∧ exampleDepartures.Pairwise byTimestamp) ∧
    ∀ e ∈ generateSchedule exampleArrivals exampleDepartures,
      0 ≤ e.ABoarding ∧ 0 ≤ e.BBoarding ∧ 0 ≤ e.CBoarding :=
  ⟨⟨by decide, by decide⟩,
    (boarding_never_negative exampleArrivals exampleDepartures (by decide) (by decide)).2.2⟩

/-- C11 as stated fails for departures out of order: with 5 passengers at A at
minute 0 and `L4` trains at 7, 0, 7 (in this order) the third train finds
`5 - 5 - 5 = -5` people waiting at A and its `ABoarding` is `-5`, not zero. -/
theorem boarding_negative_unsorted :
    (∀ a ∈ [(⟨"A", 0, 5⟩ : arrivalSample)], 0 ≤ a.arrivals) ∧
    (scheduleStates (buildArrivals [⟨"A", 0, 5⟩]) 0 (fun _ => []) unsortedDepartures).map
      (fun s => (waiting (buildArrivals [⟨"A", 0, 5⟩]) s.1 s.2.2).1) = [5, 5, -5] ∧
    (generateSchedule [⟨"A", 0, 5⟩] unsortedDepartures).map (fun e => e.ABoarding) =
      [5, 5, -5] := by
  decide

end Rail

namespace Rail

/-! ## The lookups of `numPeople` -/

/-- C12, the code at a sample that reaches station B between the arrival of
the train and the end of its boarding delay: with sample (B, minute 12, count
10) and one `L8` train departing at 0 the train arrives at B at 11 with 400
free seats; the code counts the waiting people at minute 11 (nobody) and
boards 0, whereas 10 people have arrived by minute `11 + 3`, for which
`min` gives 10. At A the same code looks up `AArrivalTime + 3`. -/
theorem boarding_B_without_delay :
    (generateSchedule [⟨"B", 12, 10⟩] [⟨trainTypeL8, 0⟩]).map
        (fun e => (e.BArrivalTime, e.BAvailCap, e.BBoarding)) = [(11, 400, 0)] ∧
      (waiting (buildArrivals [⟨"B", 12, 10⟩]) (fun _ => []) ⟨trainTypeL8, 0⟩).2.1 =
        numPeople (buildArrivals [⟨"B", 12, 10⟩]) (fun _ => []) "B" 11 ∧
      numPeople (buildArrivals [⟨"B", 12, 10⟩]) (fun _ => []) "B" 11 = 0 ∧
      numPeople (buildArrivals [⟨"B", 12, 10⟩]) (fun _ => []) "B" (11 + delay) = 10 ∧
      min 400 10 = 10 ∧
      (waiting (buildArrivals [⟨"B", 12, 10⟩]) (fun _ => []) ⟨trainTypeL8, 0⟩).1 =
        numPeople (buildArrivals [⟨"B", 12, 10⟩]) (fun _ => []) "A" (0 + delay) := by
  decide

theorem sumIf_filter {α : Type} (p q : α → Prop) [DecidablePred p] [DecidablePred q]
    (v : α → Int) (l : List α) :
    sumIf p v (l.filter (fun x => decide (q x))) = sumIf (fun x => q x ∧ p x) v l := by
  induction l with
  | nil => rfl
  | cons x rest ih =>
    by_cases hq : q x
    · simp only [List.filter_cons, hq, decide_True, if_true, sumIf_cons, ih, true_and]
    · simp only [List.filter_cons, hq, decide_False, Bool.false_eq_true, if_false, sumIf_cons,
        ih, false_and, zero_add]

/-- On samples in ascending order of minute the loop with `break` adds up
exactly the samples that are not later than `t`. -/
theorem sumUntil_sorted (t : Int) (l : List arrivalSample)
    (hs : l.Pairwise (fun a b => a.minutes ≤ b.minutes)) :
    sumUntil t 0 (l.map (fun a => (⟨a.minutes, a.arrivals⟩ : pplDiff))) =
      sumIf (fun a => a.minutes ≤ t) (fun a => a.arrivals) l := by
  induction l with
  | nil => rfl
  | cons a rest ih =>
    rw [List.pairwise_cons] at hs
    simp only [List.map_cons, sumUntil, sumIf_cons]
    by_cases hm : a.minutes > t
    · rw [if_pos hm, if_neg (by omega),
        sumIf_none _ _ _ (fun b hb => by have := hs.1 b hb; omega)]
      rfl
    · rw [if_neg hm, if_pos (by omega), sumUntil_acc, ih hs.2]
      omega

/-- The lookup of `numPeople` before any train has boarded, on an arrival list
in which the samples filed under the index of `station` are in ascending order
of minute: the total count of those samples with a minute of at most `t`; and
the boarding at A of the first train. -/
theorem numPeople_sorted (arrivals : List arrivalSample) (station : String)
    (hsorted : (arrivals.filter (fun a => stationIndex a.station = stationIndex station)).Pairwise
      (fun a b => a.minutes ≤ b.minutes)) (t : Int) :
    numPeople (buildArrivals arrivals) (fun _ => []) station t =
      sumIf (fun a => stationIndex a.station = stationIndex station ∧ a.minutes ≤ t)
        (fun a => a.arrivals) arrivals ∧
    (station = "A" → ∀ (d : departure) (rest : List departure),
      ∃ e others, generateSchedule arrivals (d :: rest) = e :: others ∧
        e.ABoarding = min (trainCapacity d.ttype)
          (sumIf (fun a => stationIndex a.station = 0 ∧ a.minutes ≤ d.timestamp + 3)
            (fun a => a.arrivals) arrivals)) := by
  have hnum : ∀ t : Int, numPeople (buildArrivals arrivals) (fun _ => []) station t =
      sumIf (fun a => stationIndex a.station = stationIndex station ∧ a.minutes ≤ t)
        (fun a => a.arrivals) arrivals := by
    intro t
    unfold numPeople
    simp only [sumUntil]
    rw [buildArrivals_eq, sumUntil_sorted t _ hsorted]
    exact sumIf_filter _
      (fun a : arrivalSample => stationIndex a.station = stationIndex station) _ _
  refine ⟨hnum t, ?_⟩
  intro hA d rest
  subst hA
  refine ⟨_, _, rfl, ?_⟩
  have h := hnum (d.timestamp + delay)
  rw [stationIndex_A] at h
  simp only [scheduleStep]
  rw [h]
  rfl

end Rail

namespace Rail

/-! ## `scoreSchedule` against the reference FIFO scorer -/

theorem parrivals_foldl_eq (arrivals : List arrivalSample) (i : Nat) (m : Int) :
    ∀ p : Nat → Int → List Int,
      arrivals.foldl addPassengers p i m = p i m ++ passengersAt i m arrivals := by
  induction arrivals with
  | nil => intro p; simp [passengersAt]
  | cons a rest ih =>
    intro p
    rw [List.foldl_cons, ih]
    by_cases h : stationIndex a.station = i ∧ a.minutes = m
    · have h1 : i = stationIndex a.station ∧ m = a.minutes := ⟨h.1.symm, h.2.symm⟩
      simp only [passengersAt, if_pos h, addPassengers, if_pos h1, List.append_assoc]
    · have h1 : ¬ (i = stationIndex a.station ∧ m = a.minutes) :=
        fun hh => h ⟨hh.1.symm, hh.2.symm⟩
      simp only [passengersAt, if_neg h, addPassengers, if_neg h1]

/-- The passengers that `parrivals` lists for a station and a minute. -/
theorem parrivals_eq (arrivals : List arrivalSample) (i : Nat) (m : Int) :
    parrivals arrivals i m = passengersAt i m arrivals := by
  unfold parrivals
  rw [parrivals_foldl_eq]
  simp

theorem sumIf_eq_filter {α : Type} (p : α → Prop) [DecidablePred p] (v : α → Int)
    (l : List α) : sumIf p v l = ((l.filter (fun x => decide (p x))).map v).sum := by
  induction l with
  | nil => rfl
  | cons x rest ih =>
    rw [sumIf_cons, ih]
    by_cases hp : p x
    · simp [List.filter_cons, hp]
    · simp [List.filter_cons, hp]

theorem limitMap_availCap (entries : List scheduleEntry) (i : Nat) (hi : i < 3) (m : Int) :
    limitMap availCap entries i m = tarrivals entries i m := by
  rw [tarrivals_eq entries i hi, sumIf_eq_filter]
  rfl

theorem min_add_min (l r : Int) (n : Nat) (hl : 0 ≤ l) (hr : 0 ≤ r) :
    (min l n).toNat + (min r ((n - (min l n).toNat : Nat) : Int)).toNat =
      (min (l + r) n).toNat := by
  unfold min
  split_ifs <;> omega

/-- Dequeuing train by train takes as much as one dequeue with the total of
the limits, when no limit is negative. -/
theorem dequeue_total (m : Int) (limits : List Int) (h : ∀ l ∈ limits, 0 ≤ l) :
    ∀ (q : List Int) (sum count : Int),
      dequeue m limits (q, sum, count) =
        (q.drop (min limits.sum q.length).toNat,
          sum + ((q.take (min limits.sum q.length).toNat).map (fun t => m - t)).sum,
          count + (min limits.sum q.length).toNat) := by
  induction limits with
  | nil =>
    intro q sum count
    simp [dequeue, min_zero_toNat]
  | cons l rest ih =>
    intro q sum count
    have hl := h l (List.mem_cons_self _ _)
    have hrest : ∀ x ∈ rest, 0 ≤ x := fun x hx => h x (List.mem_cons_of_mem _ hx)
    have hr : 0 ≤ rest.sum := List.sum_nonneg hrest
    have hadd := min_add_min l rest.sum q.length hl hr
    simp only [dequeue, ih hrest, List.length_drop, List.sum_cons, List.drop_drop]
    rw [← hadd]
    refine Prod.ext ?_ (Prod.ext ?_ ?_)
    · rfl
    · show _ + _ + _ = _ + _
      rw [List.take_add, List.map_append, List.sum_append]
      omega
    · show _ + _ + _ = _ + _
      push_cast
      omega

theorem limitMap_nonneg (limit : Nat → scheduleEntry → Int) (entries : List scheduleEntry)
    (h : ∀ i, ∀ e ∈ entries, 0 ≤ limit i e) (i : Nat) (m : Int) :
    0 ≤ limitMap limit entries i m := by
  unfold limitMap trainLimits
  apply List.sum_nonneg
  intro x hx
  simp only [List.mem_map, List.mem_filter] at hx
  obtain ⟨e, ⟨he, _⟩, rfl⟩ := hx
  exact h i e he

/-- One minute of the reference scorer is one iteration of the minute loop of
`scoreSchedule` run on the totals of the limits. -/
theorem scoreBody_reference (limit : Nat → scheduleEntry → Int)
    (arrivals : List arrivalSample) (entries : List scheduleEntry)
    (h : ∀ i, ∀ e ∈ entries, 0 ≤ limit i e) (s : scoreState) :
    scoreBody (parrivals arrivals) (limitMap limit entries) s =
      some (referenceBody limit arrivals entries s) := by
  have hn := limitMap_nonneg limit entries h
  have hd : ∀ i m q sum count,
      referenceStation limit arrivals entries i m (q, sum, count) =
        ((q ++ parrivals arrivals i m).drop
            (min (limitMap limit entries i m) (q ++ parrivals arrivals i m).length).toNat,
          sum + (((q ++ parrivals arrivals i m).take
            (min (limitMap limit entries i m) (q ++ parrivals arrivals i m).length).toNat).map
              (fun t => m - t)).sum,
          count + (min (limitMap limit entries i m)
            (q ++ parrivals arrivals i m).length).toNat) := by
    intro i m q sum count
    unfold referenceStation
    rw [dequeue_total m _ (fun l hl => by
      simp only [trainLimits, List.mem_map, List.mem_filter] at hl
      obtain ⟨e, ⟨he, _⟩, rfl⟩ := hl
      exact h i e he), parrivals_eq]
    rfl
  simp only [scoreBody, boardStation_eq _ _ _ _ _ _ (hn _ _), referenceBody, hd]

theorem scoreLoop_reference (limit : Nat → scheduleEntry → Int)
    (arrivals : List arrivalSample) (entries : List scheduleEntry)
    (h : ∀ i, ∀ e ∈ entries, 0 ≤ limit i e) :
    ∀ (fuel : Nat) (s : scoreState),
      referenceLoop limit arrivals entries fuel s =
        scoreLoop (parrivals arrivals) (limitMap limit entries) fuel s := by
  intro fuel
  induction fuel with
  | zero => intro s; rfl
  | succ fuel ih =>
    intro s
    simp only [referenceLoop, scoreLoop, scoreBody_reference limit arrivals entries h s, ih]

/-- The minute loop reads `tarrivals` at the three station indices only. -/
theorem scoreLoop_congr (par : Nat → Int → List Int) (tar tar1 : Nat → Int → Int)
    (h : ∀ i, i < 3 → ∀ m, tar i m = tar1 i m) :
    ∀ (fuel : Nat) (s : scoreState), scoreLoop par tar fuel s = scoreLoop par tar1 fuel s := by
  have hb : ∀ s, scoreBody par tar s = scoreBody par tar1 s := by
    intro s
    simp only [scoreBody, h 0 (by omega), h 1 (by omega), h 2 (by omega)]
  intro fuel
  induction fuel with
  | zero => intro s; rfl
  | succ fuel ih =>
    intro s
    simp only [scoreLoop, hb, ih]

/-- On every schedule produced by `generateSchedule`, `scoreSchedule` equals
the reference FIFO scorer run with the available capacities `AAvailCap`,
`BAvailCap`, `CAvailCap` as the per-train dequeue limit, each train boarding at
its arrival time plus the delay: at every fuel both give the same result. -/
theorem scoreSchedule_availCap (arrivals : List arrivalSample) (departures : List departure)
    (fuel : Nat) :
    scoreSchedule fuel arrivals (generateSchedule arrivals departures) =
      referenceScore availCap fuel arrivals (generateSchedule arrivals departures) := by
  unfold scoreSchedule referenceScore
  rw [scoreLoop_reference availCap arrivals _
      (fun i => generateSchedule_availCap_nonneg arrivals departures i),
    scoreLoop_congr _ _ _ (fun i hi m => limitMap_availCap _ i hi m)]

end Rail

namespace Rail

/-! ## A schedule on which the boarding counts give another score -/

theorem oneTrain_schedule : generateSchedule platformB oneTrain = [oneTrainEntry] := by
  decide

theorem platformB_par1 (k : Nat) :
    parrivals platformB 1 k =
      if (k : Int) = ((12 : Nat) : Int) then List.replicate 10 (((12 : Nat) : Int)) else [] := by
  simp [parrivals, platformB, addPassengers, stationIndex_B]

theorem platformB_par0 (k : Nat) : parrivals platformB 0 k = [] := by
  simp [parrivals, platformB, addPassengers, stationIndex_B]

theorem platformB_par2 (k : Nat) : parrivals platformB 2 k = [] := by
  simp [parrivals, platformB, addPassengers, stationIndex_B]

theorem oneTrain_tar1 (k : Nat) :
    tarrivals [oneTrainEntry] 1 k = if (k : Int) = ((14 : Nat) : Int) then 400 else 0 := by
  simp [tarrivals, addTrain, mapAdd, oneTrainEntry, delay]

theorem oneTrain_boarding (i : Nat) (m : Int) :
    limitMap boarding [oneTrainEntry] i m = 0 := by
  unfold limitMap trainLimits
  have hz : boarding i oneTrainEntry = 0 := by
    simp only [boarding, oneTrainEntry]
    split_ifs <;> rfl
  by_cases h : boardTime i oneTrainEntry = m
  · simp only [List.filter_cons, h, decide_True, if_true, List.filter_nil, List.map_cons,
      List.map_nil, List.sum_cons, List.sum_nil, hz, add_zero]
  · simp only [List.filter_cons, h, decide_False, Bool.false_eq_true, if_false,
      List.filter_nil, List.map_nil, List.sum_nil]

/-- With the available capacity as limit the ten passengers of `platformB`
board at minute 14 after 2 minutes each. -/
theorem oneTrain_score :
    scoreSchedule 180 platformB (generateSchedule platformB oneTrain) =
      some (scoreValue.real 2) := by
  have htar := tarrivals_nonneg platformB oneTrain
  have hiter := scoreIter_stations (parrivals platformB)
    (tarrivals (generateSchedule platformB oneTrain)) htar
  rw [oneTrain_schedule] at hiter htar ⊢
  have hdone := stationRun_single_done _ _ 12 14 10 400 platformB_par1 oneTrain_tar1
    (by decide) (by decide)
  have hq0 := stationRun_nobody _ (tarrivals [oneTrainEntry] 0) platformB_par0
  have hq2 := stationRun_nobody _ (tarrivals [oneTrainEntry] 2) platformB_par2
  unfold scoreSchedule
  rw [scoreLoop_exact _ _ 180 scoreInit _ (hiter 180) ?_ ?_ 180 (le_refl _)]
  · simp only [Option.map_some', hdone 180 (by decide), hq0, hq2]
    have e := floatDiv_exact 10 2 (by decide) (by decide) (by decide) (by decide)
    norm_num at e ⊢
    exact e
  · simp [scoreCond, hdone 180 (by decide), hq0, hq2]
  · intro j sj hj hsj
    rw [hiter j] at hsj
    simp only [Option.some.injEq] at hsj
    rw [← hsj]
    simp only [scoreCond, Bool.or_eq_true, decide_eq_true_eq]
    left; left; left; omega

/-- With the boarding counts as limit nobody of `platformB` ever boards: the
reference scorer does not end. -/
theorem oneTrain_reference (fuel : Nat) :
    referenceScore boarding fuel platformB (generateSchedule platformB oneTrain) = none := by
  rw [oneTrain_schedule]
  have hb : ∀ i, ∀ e ∈ [oneTrainEntry], 0 ≤ boarding i e := by
    intro i e he
    simp only [List.mem_singleton] at he
    subst he
    simp only [boarding, oneTrainEntry]
    split_ifs <;> decide
  unfold referenceScore
  rw [scoreLoop_reference boarding platformB _ hb]
  have hiter := scoreIter_stations (parrivals platformB) (limitMap boarding [oneTrainEntry])
    (fun i k => by rw [oneTrain_boarding])
  rw [scoreLoop_none _ _ fuel scoreInit]
  · rfl
  · intro j _
    refine ⟨_, hiter j, ?_⟩
    simp only [scoreCond, Bool.or_eq_true, decide_eq_true_eq]
    by_cases hj : j < 180
    · left; left; left; omega
    · left; right
      rw [stationRun_single_wait _ _ 12 j 10 0 platformB_par1
        (fun k => by rw [oneTrain_boarding]; simp) j (by omega) (le_refl _)]
      simp

end Rail

namespace Rail

/-! ## The template of `genomeMachine` with the passengers of `platformB` -/

theorem stationRun_first_wait (arr : Int → List Int) (cap : Int → Int) (mn tn nn : Nat)
    (harr : ∀ k : Nat, arr k = if (k : Int) = mn then List.replicate nn (mn : Int) else [])
    (hcap : ∀ k : Nat, k < tn → cap k = 0) :
    ∀ j, mn < j → j ≤ tn → stationRun arr cap j = (List.replicate nn (mn : Int), 0, 0) := by
  intro j hj1 hj2
  have h0 : stationRun arr cap mn = ([], 0, 0) :=
    stationRun_quiet_range arr cap 0 rfl mn (Nat.zero_le _)
      (fun k _ hk => by rw [harr k, if_neg (by omega)])
  have h1 : stationRun arr cap (mn + 1) = (List.replicate nn (mn : Int), 0, 0) := by
    rw [stationRun]
    simp only [h0, harr mn, hcap mn (by omega), if_true]
    rw [min_zero_toNat]
    simp
  rw [stationRun_idle_range arr cap (mn + 1) j (by omega)
    (fun k hk1 hk2 => ⟨by rw [harr k, if_neg (by omega)], hcap k (by omega)⟩)]
  exact h1

/-- The passengers of one sample all board the first train that offers any
capacity after they have arrived, when it has room for them. -/
theorem stationRun_first_done (arr : Int → List Int) (cap : Int → Int) (mn tn nn : Nat)
    (c : Int)
    (harr : ∀ k : Nat, arr k = if (k : Int) = mn then List.replicate nn (mn : Int) else [])
    (hcap : ∀ k : Nat, k < tn → cap k = 0) (hc : cap tn = c)
    (hn : (nn : Int) ≤ c) (hmt : mn ≤ tn) :
    ∀ K, tn < K → stationRun arr cap K = ([], (nn : Int) * ((tn : Int) - mn), (nn : Int)) := by
  intro K hK
  have hbuf : (stationRun arr cap tn).1 ++ arr tn = List.replicate nn (mn : Int) ∧
      (stationRun arr cap tn).2 = (0, 0) := by
    by_cases hmn : mn = tn
    · subst hmn
      have h0 : stationRun arr cap mn = ([], 0, 0) :=
        stationRun_quiet_range arr cap 0 rfl mn (Nat.zero_le _)
          (fun k _ hk => by rw [harr k, if_neg (by omega)])
      rw [h0, harr mn]; simp
    · rw [stationRun_first_wait arr cap mn tn nn harr hcap tn (by omega) (le_refl _),
        harr tn, if_neg (by omega)]
      simp
  have h1 : stationRun arr cap (tn + 1) = ([], (nn : Int) * ((tn : Int) - mn), (nn : Int)) := by
    have hl : (min c ((List.replicate nn (mn : Int)).length : Int)).toNat = nn := by
      rw [List.length_replicate, min_eq_right_of_le hn]; simp
    rw [stationRun]
    simp only [hbuf.1, hc, hl]
    rw [hbuf.2]
    simp
  rw [stationRun_quiet_range arr cap (tn + 1) (by rw [h1]) K (by omega)
    (fun k hk1 hk2 => by rw [harr k, if_neg (by omega)])]
  exact h1

theorem sumIf_zero {α : Type} (p : α → Prop) [DecidablePred p] (v : α → Int) (l : List α)
    (h : ∀ x ∈ l, p x → v x = 0) : sumIf p v l = 0 := by
  induction l with
  | nil => simp [sumIf_nil]
  | cons x rest ih =>
    rw [sumIf_cons, ih (fun y hy => h y (List.mem_cons_of_mem _ hy))]
    by_cases hp : p x
    · rw [if_pos hp, h x (List.mem_cons_self _ _) hp]; rfl
    · rw [if_neg hp]; rfl

theorem limitMap_eq (limit : Nat → scheduleEntry → Int) (entries : List scheduleEntry)
    (i : Nat) (m : Int) :
    limitMap limit entries i m = sumIf (fun e => boardTime i e = m) (limit i) entries := by
  rw [sumIf_eq_filter]
  rfl

/-- The result of the minute loop for one sample (minute `mn`, count `nn`) at
the station with index `i`, nobody arriving elsewhere, when the first capacity
offered at that station comes at minute `tn`, before minute 180, and is enough
for the whole sample. -/
theorem platform_score (arrivals : List arrivalSample) (tar : Nat → Int → Int)
    (i : Nat) (hi : i < 3) (mn tn nn : Nat) (c : Int)
    (hpar : ∀ j : Nat, j ≠ i → ∀ k : Nat, parrivals arrivals j k = [])
    (hpari : ∀ k : Nat, parrivals arrivals i k =
      if (k : Int) = mn then List.replicate nn (mn : Int) else [])
    (htar : ∀ j k, 0 ≤ tar j k)
    (hcap : ∀ k : Nat, k < tn → tar i k = 0) (hc : tar i tn = c)
    (hn : (nn : Int) ≤ c) (hmt : mn ≤ tn) (ht : tn < 180) (fuel : Nat) (hfuel : 180 ≤ fuel) :
    (scoreLoop (parrivals arrivals) tar fuel scoreInit).map
        (fun s => floatDiv s.sum s.count) =
      some (floatDiv ((nn : Int) * ((tn : Int) - mn)) (nn : Int)) := by
  have hiter := scoreIter_stations (parrivals arrivals) tar htar
  have hdone := stationRun_first_done _ (tar i) mn tn nn c hpari hcap hc hn hmt
  have hq : ∀ j : Nat, j ≠ i → ∀ K, stationRun (parrivals arrivals j) (tar j) K = ([], 0, 0) :=
    fun j hj => stationRun_nobody _ (tar j) (hpar j hj)
  have h3 : i = 0 ∨ i = 1 ∨ i = 2 := by omega
  rw [scoreLoop_exact _ _ 180 scoreInit _ (hiter 180) ?_ ?_ fuel hfuel]
  · rcases h3 with h | h | h <;> subst h
    · simp only [Option.map_some', hdone 180 ht, hq 1 (by decide), hq 2 (by decide)]
      simp
    · simp only [Option.map_some', hdone 180 ht, hq 0 (by decide), hq 2 (by decide)]
      simp
    · simp only [Option.map_some', hdone 180 ht, hq 0 (by decide), hq 1 (by decide)]
      simp
  · rcases h3 with h | h | h <;> subst h
    · simp [scoreCond, hdone 180 ht, hq 1 (by decide), hq 2 (by decide)]
    · simp [scoreCond, hdone 180 ht, hq 0 (by decide), hq 2 (by decide)]
    · simp [scoreCond, hdone 180 ht, hq 0 (by decide), hq 1 (by decide)]
  · intro j sj hj hsj
    rw [hiter j] at hsj
    simp only [Option.some.injEq] at hsj
    rw [← hsj]
    simp only [scoreCond, Bool.or_eq_true, decide_eq_true_eq]
    left; left; left; omega

theorem platformB_par (j : Nat) (hj : j ≠ 1) (k : Nat) : parrivals platformB j k = [] := by
  simp only [parrivals, platformB, List.foldl_cons, List.foldl_nil, addPassengers,
    stationIndex_B]
  rw [if_neg (fun h => hj h.1)]

/-- On the template of `genomeMachine` the code lets the ten passengers of
`platformB` board the first train, at minute 14. -/
theorem template_score (fuel : Nat) :
    scoreSchedule (180 + fuel) platformB
        (generateSchedule platformB (genomeMachine platformB).departures) =
      some (scoreValue.real 2) := by
  have hge : ∀ e ∈ generateSchedule platformB (genomeMachine platformB).departures,
      14 ≤ boardTime 1 e := by decide
  have hc : tarrivals (generateSchedule platformB (genomeMachine platformB).departures) 1
      ((14 : Nat) : Int) = 200 := by decide
  have h := platform_score platformB
    (tarrivals (generateSchedule platformB (genomeMachine platformB).departures)) 1 (by decide) 12 14 10 200
    platformB_par platformB_par1
    (tarrivals_nonneg platformB (genomeMachine platformB).departures)
    (fun k hk => by
      rw [tarrivals_eq _ 1 (by decide)]
      exact sumIf_none _ _ _ (fun e he => by have := hge e he; omega))
    hc (by decide) (by decide) (by decide) (180 + fuel) (by omega)
  unfold scoreSchedule
  rw [h]
  have e := floatDiv_exact 10 2 (by decide) (by decide) (by decide) (by decide)
  norm_num at e ⊢
  exact e

/-- On the template of `genomeMachine` the boarding counts let the ten
passengers of `platformB` board the second train, at minute 24. -/
theorem template_reference (fuel : Nat) :
    referenceScore boarding (180 + fuel) platformB
        (generateSchedule platformB (genomeMachine platformB).departures) =
      some (scoreValue.real 12) := by
  have hb0 : ∀ e ∈ generateSchedule platformB (genomeMachine platformB).departures,
      0 ≤ e.ABoarding ∧ 0 ≤ e.BBoarding ∧ 0 ≤ e.CBoarding := by decide
  have hb : ∀ i, ∀ e ∈ generateSchedule platformB (genomeMachine platformB).departures,
      0 ≤ boarding i e := by
    intro i e he
    have := hb0 e he
    simp only [boarding]
    split_ifs <;> omega
  have hge : ∀ e ∈ generateSchedule platformB (genomeMachine platformB).departures,
      24 ≤ boardTime 1 e ∨ boarding 1 e = 0 := by decide
  have hc : limitMap boarding (generateSchedule platformB (genomeMachine platformB).departures) 1
      ((24 : Nat) : Int) = 10 := by decide
  have h := platform_score platformB
    (limitMap boarding (generateSchedule platformB (genomeMachine platformB).departures))
    1 (by decide) 12 24 10 10 platformB_par platformB_par1
    (limitMap_nonneg boarding _ hb)
    (fun k hk => by
      rw [limitMap_eq]
      exact sumIf_zero _ _ _ (fun e he hp => by
        rcases hge e he with h1 | h1
        · omega
        · exact h1))
    hc (by decide) (by decide) (by decide) (180 + fuel) (by omega)
  unfold referenceScore
  rw [scoreLoop_reference boarding platformB _ hb, h]
  have e := floatDiv_exact 10 12 (by decide) (by decide) (by decide) (by decide)
  norm_num at e ⊢
  exact e

/-- C13, the code on the sample (B, minute 12, count 10): a train is at B
three minutes before `scoreSchedule` lets it board, and `generateSchedule`
counts the platform at its arrival. With one `L8` train departing at 0 (at B at
11) the entry has `BBoarding = 0` and `BAvailCap = 400`; `scoreSchedule`
dequeues the ten passengers at minute 14 and returns 2, while the reference
FIFO scorer limited by the boarding counts dequeues nobody and never returns.
With the sixteen trains of the template of `genomeMachine` the schedule puts the
ten passengers on the second train (`BBoarding = 10`, at B at 21); `Evaluate`
returns 2, the wait up to the boarding of the first train at 14, while the
reference scorer limited by the boarding counts returns 12, the wait up to the
boarding of the second train at 24. -/
theorem scoreSchedule_uses_capacity :
    oneTrain.Pairwise byTimestamp ∧
    (generateSchedule platformB oneTrain).map
      (fun e => (e.BArrivalTime, e.BAvailCap, e.BBoarding)) = [(11, 400, 0)] ∧
    scoreSchedule 180 platformB (generateSchedule platformB oneTrain) =
      some (scoreValue.real 2) ∧
    (¬ ∃ fuel, referenceScore boarding fuel platformB (generateSchedule platformB oneTrain) =
      scoreSchedule 180 platformB (generateSchedule platformB oneTrain)) ∧
    (genomeMachine platformB).departures.Pairwise byTimestamp ∧
    ((generateSchedule platformB (genomeMachine platformB).departures).take 3).map
      (fun e => (e.BArrivalTime, e.BAvailCap, e.BBoarding)) =
        [(11, 200, 0), (21, 400, 10), (26, 400, 0)] ∧
    (∀ fuel, Evaluate (180 + fuel) (genomeMachine platformB) =
      some (fitness.ofScore (scoreValue.real 2), none)) ∧
    (∀ fuel, referenceScore boarding (180 + fuel) platformB
        (generateSchedule platformB (genomeMachine platformB).departures) =
      some (scoreValue.real 12)) := by
  refine ⟨by decide, by decide, oneTrain_score, ?_, by decide, by decide, ?_,
    template_reference⟩
  · rintro ⟨fuel, h⟩
    rw [oneTrain_reference fuel, oneTrain_score] at h
    simp at h
  · intro fuel
    rw [Evaluate_eq_score (genomeMachine platformB) rfl (by decide) (by decide),
      show (genomeMachine platformB).arrivals = platformB from rfl, template_score]
    rfl

end Rail

namespace Rail

/-! ## The order of the rows of the arrival list -/

theorem rowsInOrder_par0 (k : Nat) :
    parrivals rowsInOrder 0 k =
      if (k : Int) = ((0 : Nat) : Int) then List.replicate 5 (((0 : Nat) : Int)) else [] := by
  simp only [parrivals, rowsInOrder, List.foldl_cons, List.foldl_nil, addPassengers,
    stationIndex_A]
  by_cases h0 : (k : Int) = 0
  · simp [h0]
  · simp [h0]

theorem rowsInOrder_par (j : Nat) (hj : j ≠ 0) (k : Nat) : parrivals rowsInOrder j k = [] := by
  simp only [parrivals, rowsInOrder, List.foldl_cons, List.foldl_nil, addPassengers,
    stationIndex_A]
  rw [if_neg (fun h => hj h.1), if_neg (fun h => hj h.1)]

/-- With the rows in time order the five passengers board the first train of
the template at minute 3. -/
theorem rowsInOrder_score (fuel : Nat) :
    scoreSchedule (180 + fuel) rowsInOrder
        (generateSchedule rowsInOrder (genomeMachine rowsInOrder).departures) =
      some (scoreValue.real 3) := by
  have hge : ∀ e ∈ generateSchedule rowsInOrder (genomeMachine rowsInOrder).departures,
      3 ≤ boardTime 0 e := by decide
  have hc : tarrivals (generateSchedule rowsInOrder (genomeMachine rowsInOrder).departures) 0
      ((3 : Nat) : Int) = 200 := by decide
  have h := platform_score rowsInOrder
    (tarrivals (generateSchedule rowsInOrder (genomeMachine rowsInOrder).departures))
    0 (by decide) 0 3 5 200 rowsInOrder_par rowsInOrder_par0
    (tarrivals_nonneg rowsInOrder (genomeMachine rowsInOrder).departures)
    (fun k hk => by
      rw [tarrivals_eq _ 0 (by decide)]
      exact sumIf_none _ _ _ (fun e he => by have := hge e he; omega))
    hc (by decide) (by decide) (by decide) (180 + fuel) (by omega)
  unfold scoreSchedule
  rw [h]
  have e := floatDiv_exact 5 3 (by decide) (by decide) (by decide) (by decide)
  norm_num at e ⊢
  exact e

/-- C15, the code on samples out of time order. With the rows (A, 10, 5),
(A, 0, 5) the lookup of `generateSchedule` for station A at minute 3 stops at
the first row and finds 0 people, although the rows of A up to minute 3 hold 5;
an `L4` train departing at 0 boards 0, not `min 200 5`. With the template of
`genomeMachine` the rows (A, 190, 0), (A, 0, 5) make every train board nobody
and `Evaluate` returns `maxScore`; the same rows in time order put the five
passengers on the first train and `Evaluate` returns the score 3. -/
theorem arrivals_lookup_unsorted :
    (∀ a ∈ unsortedArrivals, 0 ≤ a.arrivals) ∧
    numPeople (buildArrivals unsortedArrivals) (fun _ => []) "A" 3 = 0 ∧
    sumIf (fun a => a.station = "A" ∧ a.minutes ≤ 3) (fun a => a.arrivals)
      unsortedArrivals = 5 ∧
    (generateSchedule unsortedArrivals [⟨trainTypeL4, 0⟩]).map (fun e => e.ABoarding) = [0] ∧
    min (trainCapacity trainTypeL4) 5 = 5 ∧
    rowsLateFirst.Perm rowsInOrder ∧
    (∀ e ∈ generateSchedule rowsLateFirst (genomeMachine rowsLateFirst).departures,
      e.ABoarding = 0 ∧ e.UOffloading = 0) ∧
    (∀ fuel, Evaluate fuel (genomeMachine rowsLateFirst) = some (maxScore, none)) ∧
    ((generateSchedule rowsInOrder (genomeMachine rowsInOrder).departures).map
      (fun e => e.ABoarding)).take 2 = [5, 0] ∧
    (∀ fuel, Evaluate (180 + fuel) (genomeMachine rowsInOrder) =
      some (fitness.ofScore (scoreValue.real 3), none)) := by
  refine ⟨by decide, by decide, by decide, by decide, by decide, by decide, by decide, ?_,
    by decide, ?_⟩
  · intro fuel
    rw [Evaluate_eq fuel (genomeMachine rowsLateFirst) (by decide), if_neg (by decide),
      if_neg (by decide), if_neg (by decide), if_pos (by decide)]
  · intro fuel
    rw [Evaluate_eq_score (genomeMachine rowsInOrder) rfl (by decide) (by decide),
      show (genomeMachine rowsInOrder).arrivals = rowsInOrder from rfl, rowsInOrder_score]
    rfl

end Rail
